import Mathlib

/-! # csss-lang front end: preprocessor, lexer and parser

A shallow embedding of `src/interpreter/lexer.js`, `src/interpreter/syntax.js`
and `src/interpreter/preprocessor.js`.

Conventions of the embedding.

* A JavaScript string is a `List Char`; `text[i]` is `text[i]?`, with `none`
  standing for `undefined`.
* Every `while` loop of the source is a function that is recursive on a fuel
  argument; it returns `none` when the fuel runs out before the loop exits.
  A loop that does not exit in JavaScript returns `none` for every fuel.
* `print(.., print.ERROR)` and `log(.., log.ERROR)` are the diagnostics sink:
  the call records the diagnostic and returns (errors are not fatal), while
  `config.crit` aborts the run.
* The limits of the engine are not modelled: a string has any length and a
  call any depth, so a loop that in JavaScript ends with `RangeError` when
  its string has grown too long is a loop that does not exit. A character is
  a code point, where JavaScript indexes UTF-16 code units, and a number is
  an exact decimal, where JavaScript rounds to a binary64 value.
-/

namespace Csss

/-! ## JavaScript values -/

/-- The text JavaScript produces when `undefined` is turned into a string. -/
def undefinedStr : List Char := "undefined".toList

/-- String conversion of `text[i]`: the character itself, or `"undefined"`. -/
def jsStr : Option Char → List Char
  | some c => [c]
  | none => undefinedStr

/-- The method `test` of a regular expression that is a single character class,
applied to a character or to `undefined` (which is first turned into the
string `"undefined"`): true when some character of the string is in the class. -/
def reTest (cls : Char → Bool) (x : Option Char) : Bool :=
  (jsStr x).any cls

/-- A number as `parseFloat` reads it from a decimal literal: `nan`, or
`(-1)^neg * mant / 10^exp` with the fraction's trailing zeros removed.
Rounding to a binary64 value is not modelled. -/
inductive JsNum where
  | nan
  | dec (neg : Bool) (mant : Nat) (exp : Nat)
deriving DecidableEq, Repr

/-- The value carried by a token: a string, a number or a native boolean. -/
inductive Value where
  | str (s : List Char)
  | num (n : JsNum)
  | bool (b : Bool)
deriving DecidableEq, Repr

/-- Value of a list of decimal digits, most significant first. -/
def digitsVal (ds : List Char) : Nat :=
  ds.foldl (fun acc c => 10 * acc + (c.toNat - 48)) 0

/-- Remove the trailing zeros of a fraction's digits. -/
def stripZeros (ds : List Char) : List Char :=
  (ds.reverse.dropWhile (fun c => c == '0')).reverse

/-- JavaScript `parseFloat` on a text made of an optional sign, digits and
dots (the only texts the lexer hands to it): the longest prefix that is a
decimal literal, `nan` when there is none. -/
def parseFloat (s : List Char) : JsNum :=
  let neg := s.head? == some '-'
  let r := if s.head? == some '-' || s.head? == some '+' then s.tail else s
  let ip := r.takeWhile Char.isDigit
  let r1 := r.dropWhile Char.isDigit
  let fp := if r1.head? == some '.' then r1.tail.takeWhile Char.isDigit else []
  if ip.isEmpty && fp.isEmpty then JsNum.nan
  else JsNum.dec neg (digitsVal (ip ++ stripZeros fp)) (stripZeros fp).length

/-! ## Lexer (`src/interpreter/lexer.js`) -/

namespace Lexer

/-- A token: `{type, value, line, column}`. -/
structure Token where
  type : String
  value : Value
  line : Nat
  column : Nat
deriving DecidableEq, Repr

/-- The diagnostic of the invalid character branch:
`Lexer error: Invalid character "c" in <filename> at line <line>`. -/
structure LexError where
  character : Char
  filename : String
  line : Nat
deriving DecidableEq, Repr

/-- The mutable variables of the lexer closure: `tokens`, `index`, `line`,
`column`, `current`, and the diagnostics printed so far. -/
structure LexState where
  tokens : List Token
  index : Nat
  line : Nat
  column : Nat
  current : Option Char
  errors : List LexError
deriving DecidableEq, Repr

/-- All allowed comparative operators. -/
def comparators : List (List Char) :=
  ["==".toList, "!=".toList, ">=".toList, "<=".toList, ">".toList, "<".toList]

/-- All allowed arithmetic operators. -/
def arithmetics : List (List Char) :=
  ["+".toList, "-".toList, "*".toList, "/".toList, "%".toList, "^".toList]

/-- All allowed logical operators. -/
def logics : List (List Char) := ["&&".toList, "||".toList]

/-- All units recognised as CSS unit. -/
def validUnits : List (List Char) :=
  ["%".toList, "cm".toList, "em".toList, "ex".toList, "in".toList, "mm".toList,
   "pc".toList, "pt".toList, "px".toList, "vh".toList, "vw".toList, "vmin".toList]

/-- The class `[ |\t|\n]`: inside brackets the bar is a literal character. -/
def isSpaceRe (c : Char) : Bool := c == ' ' || c == '|' || c == '\t' || c == '\n'

/-- The class `[a-zA-Z]`. -/
def isLetterRe (c : Char) : Bool :=
  ('a'.toNat ≤ c.toNat && c.toNat ≤ 'z'.toNat) || ('A'.toNat ≤ c.toNat && c.toNat ≤ 'Z'.toNat)

/-- The class `\d`. -/
def isDigitRe (c : Char) : Bool := '0'.toNat ≤ c.toNat && c.toNat ≤ '9'.toNat

/-- The patterns `\w|-` and `[\w-]`: a letter, a digit, an underscore or a dash. -/
def isWordDashRe (c : Char) : Bool := isLetterRe c || isDigitRe c || c == '_' || c == '-'

/-- The pattern `\d|\.`. -/
def isDigitDotRe (c : Char) : Bool := isDigitRe c || c == '.'

/-- The class `["|']`: inside brackets the bar is a literal character. -/
def isQuoteRe (c : Char) : Bool := c == '"' || c == '|' || c == '\''

/-- The class `[a-zA-Z%0-9-]`. -/
def isIdentRe (c : Char) : Bool := isLetterRe c || c == '%' || isDigitRe c || c == '-'

/-- The pattern `\.[a-zA-Z]` tested on a string: a dot directly followed by a
letter, anywhere in the string. -/
def dotLetterRe : List Char → Bool
  | [] => false
  | c :: rest => (c == '.' && (match rest with | d :: _ => isLetterRe d | [] => false))
      || dotLetterRe rest

/-- The test `list.indexOf(current) != -1`: `current` is a one-character
string or `undefined`, which equals no entry. -/
def hasChar (list : List (List Char)) : Option Char → Bool
  | some c => decide ([c] ∈ list)
  | none => false

/-- Add a token to the token array, at the current `line` and `column`. -/
def pushToken (s : LexState) (type : String) (value : Value) : LexState :=
  { s with tokens := s.tokens ++ [⟨type, value, s.line, s.column⟩] }

/-- Go to the next character. -/
def next (text : List Char) (s : LexState) : LexState :=
  let line := if s.current = some '\n' then s.line + 1 else s.line
  let column := if s.current = some '\n' then 0 else s.column
  { s with line := line, column := column + 1, index := s.index + 1,
           current := text[s.index + 1]? }

/-- The call `peek(start)`: the character at `index + start`, or `undefined`. -/
def peek (text : List Char) (s : LexState) (start : Nat) : Option Char :=
  text[s.index + start]?

/-- The call `peek(start, distance)`: the string built from `distance`
characters from `index + start` on; a position past the end contributes the
text `"undefined"`. -/
def peekStr (text : List Char) (s : LexState) (start : Nat) : Nat → List Char
  | 0 => []
  | distance + 1 =>
    peekStr text s start distance ++ jsStr text[s.index + start + distance]?

/-- The loop `while (peek(0, 2) != "*/") { next() }`. -/
def commentLoop : Nat → List Char → LexState → Option LexState
  | 0, _, _ => none
  | fuel + 1, text, s =>
    if peekStr text s 0 2 ≠ "*/".toList then commentLoop fuel text (next text s)
    else some s

/-- The loops `while (re.test(next())) { acc += current }` of the keyword,
variable, identifier and hash branches, for the character class `cls`. -/
def scanLoop (cls : Char → Bool) : Nat → List Char → LexState → List Char →
    Option (LexState × List Char)
  | 0, _, _, _ => none
  | fuel + 1, text, s, acc =>
    let s1 := next text s
    if reTest cls s1.current then scanLoop cls fuel text s1 (acc ++ jsStr s1.current)
    else some (s1, acc)

/-- The loops `while (re.test(current)) { acc += current; next() }` of the
float and class branches. -/
def scanCurLoop (cls : Char → Bool) : Nat → List Char → LexState → List Char →
    Option (LexState × List Char)
  | 0, _, _, _ => none
  | fuel + 1, text, s, acc =>
    if reTest cls s.current then
      scanCurLoop cls fuel text (next text s) (acc ++ jsStr s.current)
    else some (s, acc)

/-- The loop `while (next() != closing) { string += current }`. -/
def stringLoop (closing : Char) : Nat → List Char → LexState → List Char →
    Option (LexState × List Char)
  | 0, _, _, _ => none
  | fuel + 1, text, s, acc =>
    let s1 := next text s
    if s1.current ≠ some closing then stringLoop closing fuel text s1 (acc ++ jsStr s1.current)
    else some (s1, acc)

/-- The tail of the identifier branch: classify the run as bool, unit or
identifier and push the token. -/
def pushWord (s : LexState) (identifier : List Char) : LexState :=
  let lowIndentifier := identifier.map Char.toLower
  if lowIndentifier = "true".toList ∨ lowIndentifier = "false".toList then
    pushToken s "bool" (.bool (lowIndentifier = "true".toList))
  else if lowIndentifier ∈ validUnits then
    pushToken s "unit" (.str lowIndentifier)
  else
    pushToken s "identifier" (.str identifier)

/-- The `if / else if` ladder of the main loop, which starts at the comment
test: the first branch that applies. `none` when an inner loop runs out of
fuel. -/
def lexChain (fuel : Nat) (filename : String) (text : List Char) (s : LexState) :
    Option LexState :=
  -- Skip all comments
  if peekStr text s 0 2 = "/*".toList then
    (commentLoop fuel text s).map (fun s2 => next text (next text s2))
  -- KEYWORD
  else if s.current = some '@' then
    (scanLoop isLetterRe fuel text s []).map (fun r => pushToken r.1 "keyword" (.str r.2))
  -- xPAR, xBRACE & xSBRACE
  else if s.current = some '(' then some (next text (pushToken s "lpar" (.str ['('])))
  else if s.current = some ')' then some (next text (pushToken s "rpar" (.str [')'])))
  else if s.current = some '{' then some (next text (pushToken s "lcurb" (.str ['{'])))
  else if s.current = some '}' then some (next text (pushToken s "rcurb" (.str ['}'])))
  else if s.current = some '[' then some (next text (pushToken s "lsqarb" (.str ['['])))
  else if s.current = some ']' then some (next text (pushToken s "rsqarb" (.str [']'])))
  -- SEMI
  else if s.current = some ';' then some (next text (pushToken s "semi" (.str [';'])))
  -- VARIABLE: ignore the "var()" things
  else if peekStr text s 0 3 = "var".toList then some { s with index := s.index + 3 }
  else if peekStr text s 0 2 = "--".toList then
    (scanLoop isWordDashRe fuel text s (jsStr s.current)).map
      (fun r => pushToken r.1 "variable" (.str r.2))
  -- FLOAT
  else if reTest isDigitRe s.current
      || (s.current = some '-' && reTest isDigitDotRe (peek text s 1))
      || (s.current = some '.' && reTest isDigitRe (peek text s 1)) then
    (scanCurLoop isDigitDotRe fuel text (next text s) (jsStr s.current)).map
      (fun r => pushToken r.1 "float" (.num (parseFloat r.2)))
  -- COMPARATOR
  else if peekStr text s 0 2 ∈ comparators then
    some (next text (next text (pushToken s "comparator" (.str (peekStr text s 0 2)))))
  else if hasChar comparators s.current then
    some (next text (pushToken s "comparator" (.str (jsStr s.current))))
  -- ARITHMETIC
  else if hasChar arithmetics s.current then
    some (next text (pushToken s "arithmetic" (.str (jsStr s.current))))
  -- LOGIC
  else if peekStr text s 0 2 ∈ logics then
    some (next text (next text (pushToken s "logic" (.str (peekStr text s 0 2)))))
  else if s.current = some '!' then some (next text (pushToken s "logic" (.str ['!'])))
  -- ASSIGN
  else if s.current = some ':' ∨ s.current = some '=' then
    some (next text (pushToken s "assign" (.str [':'])))
  -- SEPARATOR
  else if s.current = some ',' then
    some (next text (pushToken s "separator" (.str (jsStr s.current))))
  -- STRING
  else if reTest isQuoteRe s.current then
    match s.current with
    | some closing =>
      (stringLoop closing fuel text s []).map
        (fun r => next text (pushToken r.1 "string" (.str r.2)))
    | none => some s
  -- CLASS
  else if dotLetterRe (peekStr text s 0 2) then
    (scanCurLoop isWordDashRe fuel text (next text s) []).map
      (fun r => next text (pushToken r.1 "class" (.str r.2)))
  -- IDENTIFIER, BOOL & UNIT
  else if reTest isIdentRe s.current then
    match s.current with
    | none => some s   -- `typeof current == "undefined"`: `continue`
    | some c =>
      (scanLoop isIdentRe fuel text s [c]).map (fun r => pushWord r.1 r.2)
  -- HASH as identifier
  else if s.current = some '#' then
    (scanLoop isWordDashRe fuel text s []).map (fun r => pushToken r.1 "hash" (.str r.2))
  -- Anything else that is not a whitespace character is reported
  else
    match s.current with
    | some c =>
      if c.toNat ≠ 9 ∧ c.toNat ≠ 10 ∧ c.toNat ≠ 32 then
        some { s with errors := s.errors ++ [⟨c, filename, s.line⟩] }
      else some s
    | none => some s   -- not reached: the identifier branch takes `undefined`

/-- One iteration of the main loop `while (index < text.length)`: the
assignment `current = text[index]`, the whitespace skip, and then the ladder. -/
def lexStep (fuel : Nat) (filename : String) (text : List Char) (s0 : LexState) :
    Option LexState :=
  let s1 := { s0 with current := text[s0.index]? }
  -- Skip all whitespaces
  lexChain fuel filename text (if reTest isSpaceRe s1.current then next text s1 else s1)

/-- The main loop `while (index < text.length)`. -/
def lexLoop : Nat → String → List Char → LexState → Option LexState
  | 0, _, _, _ => none
  | fuel + 1, filename, text, s =>
    if s.index < text.length then
      match lexStep fuel filename text s with
      | some s1 => lexLoop fuel filename text s1
      | none => none
    else some s

/-- The variables as the lexer initialises them. -/
def initState : LexState :=
  { tokens := [], index := 0, line := 1, column := 1, current := none, errors := [] }

/-- The lexer run to its end: the final state, `none` when the fuel is used up. -/
def run (fuel : Nat) (text : List Char) (filename : String) : Option LexState :=
  lexLoop fuel filename text initState

/-- The exported function: the generated tokens. -/
def tokenize (fuel : Nat) (text : List Char) (filename : String) : Option (List Token) :=
  (run fuel text filename).map (fun s => s.tokens)

end Lexer

/-! ## Results of a run that can fault or run out of fuel -/

/-- The outcome of a computation: a value, a fault that aborts the run, or
`timeout` when the fuel is used up. -/
inductive Res (ε α : Type) where
  | ok (a : α)
  | fault (e : ε)
  | timeout
deriving DecidableEq, Repr

/-- Sequencing: a fault or a timeout of the first part is the outcome. -/
def Res.bind {ε α β : Type} (r : Res ε α) (f : α → Res ε β) : Res ε β :=
  match r with
  | .ok a => f a
  | .fault e => .fault e
  | .timeout => .timeout

/-! ## Parser (`src/interpreter/syntax.js`) -/

namespace Parse

open Lexer (Token)

/-- The nodes of the tree, one constructor per object shape the parser
builds. `block` is the node of an `if` or `while` statement, whose `type` is
the keyword's value. -/
inductive Node where
  | program (children : List Node)
  | block (type : Value) (left : List Node) (right : List Node) (operation : Value)
      (children : List Node)
  | elseBlock (children : List Node)
  | par (children : List Node)
  | assignment (name : Value) (right : List Node)
  | variable (name : Value)
  | calc (children : List Node)
  | property (name : Value) (children : List Node)
  | element (name : Value) (children : List Node)
  | value (value : Value)
  | arithmetic (value : Value)
  | bool (value : Bool)
  | string (value : Value)
  | number (unit : Value) (value : JsNum)
deriving Repr

/-- The exceptions the parser can raise. -/
inductive ParseFault where
  /-- Reading `token` before any assignment to it. -/
  | referenceError
  /-- Reading `.type` of `tokens[i]` past the end of the stream. -/
  | typeError
deriving DecidableEq, Repr

/-- The messages handed to `log`. -/
inductive Diag where
  /-- The text `Unexpected <type> ("<value>") found at line <line> in <filename>.` -/
  | unexpected (type : String) (value : Value) (line : Value) (filename : String)
  /-- The warning that an identifier is not a valid HTML5 tag. -/
  | invalidTag (name : Value) (line : Value) (filename : String)
  /-- The text `Syntax error: Missing opening "<opening>" after <statement>
  statement in <filename> at line <line>.` -/
  | missingOpening (opening : String) (statement : Value) (filename : String) (line : Value)
deriving DecidableEq, Repr

/-- The mutable variables of the parser: `index`, `line`, the variable
`token` (`none` until `next` first assigns it) and the messages logged. -/
structure PState where
  index : Nat
  line : Value
  token : Option Token
  log : List Diag
deriving DecidableEq, Repr

/-- All units recognised as CSS unit. -/
def validUnits : List (List Char) :=
  ["%".toList, "cm".toList, "em".toList, "ex".toList, "in".toList, "mm".toList,
   "pc".toList, "pt".toList, "px".toList, "vh".toList, "vw".toList, "vmin".toList]

/-- The comparison `value == "name"` for a name that is not a numeric
literal: true only for the string itself. -/
def looseEq (v : Value) (name : String) : Bool :=
  match v with
  | .str s => s == name.toList
  | _ => false

/-- The test `list.indexOf(value) != -1`, which compares with `===`. -/
def inList (list : List (List Char)) (v : Value) : Bool :=
  match v with
  | .str s => decide (s ∈ list)
  | _ => false

/-- The call `parseFloat(token.value)`: a number is turned into its text and
read back, which gives the number itself. -/
def parseFloatValue : Value → JsNum
  | .str s => parseFloat s
  | .num n => n
  | .bool _ => JsNum.nan

/-- Skip to the next token in the stream; `fuel` bounds the recursion that
skips `line` tokens (the length of the stream is enough). -/
def nextAux : Nat → List Token → PState → PState
  | 0, _, s => s
  | fuel + 1, tokens, s =>
    if s.index + 1 ≥ tokens.length then s
    else
      match tokens[s.index + 1]? with
      | none => s
      | some t =>
        let s1 := { s with index := s.index + 1, token := some t }
        -- Keep up with the line number
        if t.type = "line" then nextAux fuel tokens { s1 with line := t.value }
        else s1

/-- Skip to the next token in the stream. -/
def next (tokens : List Token) (s : PState) : PState :=
  nextAux tokens.length tokens s

/-- The recursion of `peek` over `tokens[index + 1 + modifier]`: `line`
tokens are skipped, and reading past the end of the stream is a `TypeError`. -/
def peekList {α : Type} (callback : Token → α) : List Token → Res ParseFault α
  | [] => .fault .typeError
  | t :: rest => if t.type = "line" then peekList callback rest else .ok (callback t)

/-- Look at the next node in the stream without affecting the current token:
`dflt` is the `false` returned at the end of the stream. -/
def peek {α : Type} (tokens : List Token) (s : PState) (dflt : α) (callback : Token → α) :
    Res ParseFault α :=
  if s.index + 1 ≥ tokens.length then .ok dflt
  else peekList callback (tokens.drop (s.index + 1))

/-- A callback whose body is the expression statement `{test}` without a
`return`, as in `function(token) {token.type != "lpar"}`: the test is
evaluated and dropped, and the call returns `undefined`, which an `if` takes
as false. -/
def dropped (_test : Token → Bool) : Token → Bool := fun _ => false

/-- The statement `if (peek(callback)) { log(message) }`. -/
def checkOpening (tokens : List Token) (s : PState) (callback : Token → Bool)
    (message : Diag) : Res ParseFault PState :=
  (peek tokens s false callback).bind fun missing =>
    .ok (if missing then { s with log := s.log ++ [message] } else s)

/-- The value of the current token, as the messages and `operation` read it. -/
def currentValue (s : PState) : Value :=
  match s.token with
  | some t => t.value
  | none => Value.str []

/-- The record a `walk` leaves: whether it returned `true`, the nodes it
pushed to its parent, and the variables afterwards. -/
structure Walked where
  stop : Bool
  pushed : List Node
  state : PState

mutual

/-- Keep walking through nodes until the closing function matches:
`next()` and then the loop. Returns the nodes pushed to `parent`. -/
def walkThrough : Nat → String → List (List Char) → List Token → (Token → Bool) → PState →
    Res ParseFault (List Node × PState)
  | 0, _, _, _, _, _ => .timeout
  | fuel + 1, filename, validTags, tokens, closeFunction, s =>
    walkLoop fuel filename validTags tokens closeFunction (next tokens s)

/-- The loop `while (walk(parent, closeFunction) !== true) { next() }`. -/
def walkLoop : Nat → String → List (List Char) → List Token → (Token → Bool) → PState →
    Res ParseFault (List Node × PState)
  | 0, _, _, _, _, _ => .timeout
  | fuel + 1, filename, validTags, tokens, closeFunction, s =>
    (walk fuel filename validTags tokens closeFunction s).bind fun w =>
      if w.stop then .ok (w.pushed, w.state)
      else
        (walkLoop fuel filename validTags tokens closeFunction (next tokens w.state)).bind
          fun r => .ok (w.pushed ++ r.1, r.2)

/-- Parse the current token. -/
def walk : Nat → String → List (List Char) → List Token → (Token → Bool) → PState →
    Res ParseFault Walked
  | 0, _, _, _, _, _ => .timeout
  | fuel + 1, filename, validTags, tokens, closeFunction, s =>
    match s.token with
    | none => .fault .referenceError
    | some token =>
      -- `token == false` is false for a token object
      if s.index + 1 ≥ tokens.length then .ok ⟨true, [], s⟩
      -- IF & WHILE
      else if token.type = "keyword" && (looseEq token.value "if" || looseEq token.value "while") then
        -- Check if the next node is a (, fail when it's not
        (checkOpening tokens s (dropped fun t => t.type != "lpar")
            (.missingOpening "(" token.value filename s.line)).bind fun s1 =>
        -- Get everything on the left by walking until we hit the comparator
        (walkThrough fuel filename validTags tokens (fun t => t.type = "comparator")
            (next tokens s1)).bind fun l =>
        -- Set the operation in the block
        let operation := currentValue l.2
        -- Walk until we hit the end of the if argument
        (walkThrough fuel filename validTags tokens (fun t => t.type = "rpar") l.2).bind fun r =>
        -- Check that the next node is a {
        (checkOpening tokens r.2 (dropped fun t => t.type != "lbrace")
            (.missingOpening "\x7b" (currentValue r.2) filename r.2.line)).bind fun s2 =>
        -- Now walk through the whole block until we hit our closing bracket
        (walkThrough fuel filename validTags tokens (fun t => t.type = "rbrace")
            (next tokens s2)).bind fun c =>
        .ok ⟨false, [.block token.value l.1 r.1 operation c.1], c.2⟩
      -- ELSE
      else if token.type = "keyword" && looseEq token.value "else" then
        -- Check that the next node is a {
        (checkOpening tokens s (dropped fun t => t.type != "lbrace")
            (.missingOpening "\x7b" (.str "else".toList) filename s.line)).bind fun s1 =>
        (walkThrough fuel filename validTags tokens (fun t => t.type = "rbrace")
            (next tokens s1)).bind fun c =>
        .ok ⟨false, [.elseBlock c.1], next tokens c.2⟩
      -- PAR
      else if token.type = "lpar" then
        (walkThrough fuel filename validTags tokens (fun t => t.type = "rpar") s).bind fun c =>
        .ok ⟨false, [.par c.1], c.2⟩
      -- If we match our parents closing function, hand the walking back to them
      else if closeFunction token then .ok ⟨true, [], s⟩
      -- VARIABLE
      else if token.type = "variable" then
        (peek tokens s false (fun t => t.type = "assign")).bind fun isAssign =>
        if isAssign then
          (walkThrough fuel filename validTags tokens (fun t => t.type = "semi")
              (next tokens s)).bind fun r =>
          .ok ⟨false, [.assignment token.value r.1], r.2⟩
        else .ok ⟨false, [.variable token.value], s⟩
      -- CALC
      else if token.type = "identifier" && looseEq token.value "calc" then
        -- Check that the next node is a (
        (checkOpening tokens s (dropped fun t => t.type != "lpar")
            (.missingOpening "\x7b" (.str "calc".toList) filename s.line)).bind fun s1 =>
        (walkThrough fuel filename validTags tokens (fun t => t.type = "rpar")
            (next tokens s1)).bind fun c =>
        .ok ⟨false, [.calc c.1], c.2⟩
      else if token.type = "identifier" then
        -- PROPERTY
        (peek tokens s false (fun t => t.type = "assign")).bind fun isAssign =>
        if isAssign then
          (walkThrough fuel filename validTags tokens (fun t => t.type = "semi")
              (next tokens s)).bind fun c =>
          .ok ⟨false, [.property token.value c.1], c.2⟩
        else
        -- ELEMENT
        (peek tokens s false (fun t => t.type = "lbrace")).bind fun isBrace =>
        if isBrace then
          let s1 := if inList validTags token.value then s
            else { s with log := s.log ++ [.invalidTag token.value s.line filename] }
          (walkThrough fuel filename validTags tokens (fun t => t.type = "rbrace")
              (next tokens s1)).bind fun c =>
          .ok ⟨false, [.element token.value c.1], c.2⟩
        else
        -- VALUE
        (peek tokens s false (fun t => t.type = "semi")).bind fun isSemi =>
        if isSemi then .ok ⟨false, [.value token.value], s⟩
        else .ok ⟨false, [],
          { s with log := s.log ++ [.unexpected token.type token.value s.line filename] }⟩
      -- ARITHMETIC
      else if token.type = "arithmetic" then .ok ⟨false, [.arithmetic token.value], s⟩
      -- BOOL
      else if token.type = "bool" then .ok ⟨false, [.bool (looseEq token.value "true")], s⟩
      -- STRING
      else if token.type = "string" then .ok ⟨false, [.string token.value], s⟩
      -- NUMBER
      else if token.type = "float" then
        (peek tokens s false
          (fun t => t.type = "identifier" && inList validUnits t.value)).bind fun isUnit =>
        if isUnit then
          (peek tokens s (Value.bool false) (fun t => t.value)).bind fun unit =>
          .ok ⟨false, [.number unit (parseFloatValue token.value)], next tokens s⟩
        else .ok ⟨false, [.number (.str "plain".toList) (parseFloatValue token.value)], s⟩
      -- We don't know what to do with this
      else .ok ⟨false, [],
        { s with log := s.log ++ [.unexpected token.type token.value s.line filename] }⟩

end

/-- The variables as the parser initialises them. -/
def initState : PState :=
  { index := 0, line := .num (.dec false 1 0), token := none, log := [] }

/-- The exported function run to its end: the tree and the final variables
(with the log). `validTags` is the table of `validTags.js`. -/
def run (fuel : Nat) (validTags : List (List Char)) (tokens : List Token) (filename : String) :
    Res ParseFault (Node × PState) :=
  (walkThrough fuel filename validTags tokens (fun _ => false) initState).bind
    fun r => .ok (.program r.1, r.2)

/-- The exported function: the tree. -/
def parse (fuel : Nat) (validTags : List (List Char)) (tokens : List Token) (filename : String) :
    Res ParseFault Node :=
  (run fuel validTags tokens filename).bind fun r => .ok r.1

end Parse

/-! ## Preprocessor (`src/interpreter/preprocessor.js`) -/

namespace Preproc

/-- The calls of `config.crit`, which abort the run. -/
inductive PreFault where
  /-- The fault `RecursionLimit`: too much `@require` recursion. -/
  | recursionLimit (location : List Char)
  /-- The fault `MalformedRequire`: the text ends before the closing semicolon. -/
  | malformedEOF (location filename : List Char)
  /-- The fault `MalformedRequire`: never ending string. -/
  | malformedString (location filename : List Char)
  /-- The fault `MalformedRequire`: the required file does not exist on disk. -/
  | missingFile (location filename : List Char)
deriving DecidableEq, Repr

/-- The settings read from `config`, and the file system behind
`fs.readFileSync` (`none` when the read throws). -/
structure Config where
  recursionLimit : Nat
  readFile : List Char → Option (List Char)

/-- What a run leaves outside its result: the warnings given to
`config.warn` (the extension, location and file name of each), and a record
of the calls of `searchRequire` made so far, each with the path of its file
and the stack it received. The program never reads the record. -/
structure PreState where
  warnings : List (List Char × List Char × List Char)
  calls : List (List Char × List (List Char))
deriving DecidableEq, Repr

/-- The outcome of a run: the text returned, a critical fault, or `timeout`
when the fuel is used up. -/
inductive Outcome where
  | ok (text : List Char) (st : PreState)
  | crit (e : PreFault) (st : PreState)
  | timeout
deriving DecidableEq, Repr

/-- Only allow import of files with this extension. -/
def validExtensions : List (List Char) := ["csss".toList]

/-- The class `["|']`: inside brackets the bar is a literal character. -/
def isQuoteRe (c : Char) : Bool := c == '"' || c == '|' || c == '\''

/-- The test `text[i] + text[i + 1] == s` for a two-character text `s`: past
the end of the text the sum of two `undefined` is `NaN`, equal to nothing. -/
def pairIs (text : List Char) (i : Nat) (s : List Char) : Bool :=
  match text[i]? with
  | some c => c :: jsStr text[i + 1]? == s
  | none => false

/-- The call `text.substr(start, length)`. -/
def substr (text : List Char) (start length : Nat) : List Char :=
  (text.drop start).take length

/-- The call `text.indexOf(c)`, `none` for `-1`. -/
def indexOf (c : Char) : List Char → Option Nat
  | [] => none
  | x :: xs => if x = c then some 0 else (indexOf c xs).map (· + 1)

/-- The call `text.lastIndexOf(c)`, `none` for `-1`. -/
def lastIndexOf (c : Char) : List Char → Option Nat
  | [] => none
  | x :: xs =>
    match lastIndexOf c xs with
    | some k => some (k + 1)
    | none => if x = c then some 0 else none

/-- The comment tag that signals the start of a new file. -/
def openTag (location filename : List Char) : List Char :=
  "/* CSSS:FILE \"/".toList ++ location ++ "/".toList ++ filename ++ "\" */".toList

/-- The closing file tag. -/
def closeTag : List Char := "/* CSSS:FILE CLOSE */".toList

/-- Test if the file starts with a shebang and remove the first line:
`text.substr(text.indexOf("\n"))`, where a start of `-1` keeps the last
character. -/
def stripShebang (text : List Char) : List Char :=
  if substr text 0 2 = "#!".toList then
    match indexOf '\n' text with
    | some k => text.drop k
    | none => text.drop (text.length - 1)
  else text

/-- The loop `while (text[i] + text[i + 1] != "*/") { i++ }`. -/
def commentLoop : Nat → List Char → Nat → Option Nat
  | 0, _, _ => none
  | fuel + 1, text, i =>
    if pairIs text i "*/".toList then some i else commentLoop fuel text (i + 1)

/-- The loop `for (; t < text.length; t++) { if (text[t] == ";") break }`,
run on the text from `t` on. -/
def semiLoop : List Char → Nat → Nat
  | [], t => t
  | c :: rest, t => if c = ';' then t else semiLoop rest (t + 1)

/-- The loop of `parseRequire` that reads until it finds the opening
character: `while (index < string.length) { current = string[++index]; .. }`.
Returns the opening character and its index. -/
def openLoop : Nat → List Char → Nat → Option (Char × Nat)
  | 0, _, _ => none
  | fuel + 1, string, index =>
    if index < string.length then
      match string[index + 1]? with
      | some c => if isQuoteRe c then some (c, index + 1) else openLoop fuel string (index + 1)
      | none => openLoop fuel string (index + 1)
    else none

/-- The loop `while (current != closing && index <= string.length)` of
`parseRequire`. Returns `index` and `foundFile`. -/
def fileLoop (closing : Char) : Nat → List Char → Nat → List Char → Nat × List Char
  | 0, _, index, foundFile => (index, foundFile)
  | fuel + 1, string, index, foundFile =>
    if string[index]? ≠ some closing ∧ index ≤ string.length then
      fileLoop closing fuel string (index + 1) (foundFile ++ jsStr string[index]?)
    else (index, foundFile)

/-- The last piece of `foundFile.toLowerCase().split(".")`. -/
def extensionOf (foundFile : List Char) : List Char :=
  let low := foundFile.map Char.toLower
  match lastIndexOf '.' low with
  | some k => low.drop (k + 1)
  | none => low

/-- The part of `parseRequire` before the file is read: the file name found
in the directive, `none` for the never ending string, and the warnings. -/
def findFile (string filename location : List Char) (st : PreState) :
    Option (List Char) × PreState :=
  match openLoop (string.length + 1) string 0 with
  | none => (some [], st)
  | some (closing, index) =>
    let r := fileLoop closing (string.length + 2) string (index + 1) []
    if r.1 - 1 = string.length ∧ string[r.1]? ≠ some closing then (none, st)
    else if '.' ∈ r.2 ∧ extensionOf r.2 ∉ validExtensions then
      (some r.2, { st with warnings := st.warnings ++ [(extensionOf r.2, location, filename)] })
    else (some r.2, st)

/-- Strip the full path of the filename so only the location remains:
`fullPath.substr(0, fullPath.lastIndexOf("/"))`. -/
def returnLocation (fullPath : List Char) : List Char :=
  match lastIndexOf '/' fullPath with
  | some k => substr fullPath 0 k
  | none => []

/-- Substr the full path so only the new filename remains:
`fullPath.substr(k + 1, fullPath.length - k)` for `k = fullPath.lastIndexOf("/")`. -/
def returnFilename (fullPath : List Char) : List Char :=
  match lastIndexOf '/' fullPath with
  | some k => substr fullPath (k + 1) (fullPath.length - k)
  | none => fullPath

/-- Sequencing: a critical fault or a timeout of the first part is the
outcome of the whole. -/
def Outcome.bind (o : Outcome) (k : List Char → PreState → Outcome) : Outcome :=
  match o with
  | .ok text st => k text st
  | .crit e st => .crit e st
  | .timeout => .timeout

/-- Continue after a loop that returns an index, `timeout` when the loop ran
out of fuel. -/
def Outcome.afterLoop (o : Option Nat) (k : Nat → Outcome) : Outcome :=
  match o with
  | some i => k i
  | none => .timeout

mutual

/-- Search for `@require`s in the code and give them to the parser. -/
def searchRequire : Nat → Config → List Char → List Char → List Char → List (List Char) →
    PreState → Outcome
  | 0, _, _, _, _, _, _ => .timeout
  | fuel + 1, config, text, location, filename, stack, st =>
    -- the amount of times this file has been inserted before in this stack
    if stack.count (location ++ "/".toList ++ filename) ≥ config.recursionLimit then
      .crit (.recursionLimit location)
        { st with calls := st.calls ++ [(location ++ "/".toList ++ filename, stack)] }
    else
      -- Add this file to the stack, strip the shebang, add the opening tag, scan
      (scan fuel config (openTag location filename ++ stripShebang text) 0 location filename
        (stack ++ [location ++ "/".toList ++ filename])
        { st with calls := st.calls ++ [(location ++ "/".toList ++ filename, stack)] }).bind
        -- Add the closing file tag
        fun text2 st2 => .ok (text2 ++ closeTag) st2

/-- The loop `for (let i = 0; i < text.length; i++)` of `searchRequire`,
from index `i0` on. Every directive gets its own clone of the stack. -/
def scan : Nat → Config → List Char → Nat → List Char → List Char → List (List Char) →
    PreState → Outcome
  | 0, _, _, _, _, _, _, _ => .timeout
  | fuel + 1, config, text, i0, location, filename, stack, st =>
    if i0 < text.length then
      -- If we hit the start of a comment, skip until we hit its end
      Outcome.afterLoop
        (if pairIs text i0 "/*".toList then (commentLoop fuel text i0).map (· + 1)
         else some i0)
        fun i =>
          -- If we encounter a require statement; below, `start` is `i + 8` and the
          -- end char location `t` is `semiLoop (text.drop (i + 8)) (i + 8)`
          if text[i]? = some '@' ∧ substr text (i + 1) 7 = "require".toList then
            if semiLoop (text.drop (i + 8)) (i + 8) = text.length then
              .crit (.malformedEOF location filename) st
            else
              (parseRequire fuel config
                (substr text (i + 8) (semiLoop (text.drop (i + 8)) (i + 8) - (i + 8)))
                filename location stack st).bind
                fun insertedText st1 =>
                  scan fuel config
                    (text.take i ++ insertedText ++
                      text.drop (semiLoop (text.drop (i + 8)) (i + 8) + 1))
                    (i + 1) location filename stack st1
          else scan fuel config text (i + 1) location filename stack st
    else .ok text st

/-- Parse the `@require` contents and load them from disk. -/
def parseRequire : Nat → Config → List Char → List Char → List Char → List (List Char) →
    PreState → Outcome
  | 0, _, _, _, _, _, _ => .timeout
  | fuel + 1, config, string, filename, location, stack, st =>
    match (findFile string filename location st).1 with
    | none => .crit (.malformedString location filename) (findFile string filename location st).2
    | some foundFile =>
      -- Get the full system path of the file and try to read it
      match config.readFile (location ++ "/".toList ++ foundFile) with
      | none => .crit (.missingFile location foundFile) (findFile string filename location st).2
      | some fileContents =>
        searchRequire fuel config fileContents
          (returnLocation (location ++ "/".toList ++ foundFile))
          (returnFilename (location ++ "/".toList ++ foundFile)) stack
          (findFile string filename location st).2

end

/-- The exported function: the search on the root file, with an empty stack. -/
def expand (fuel : Nat) (config : Config) (text location filename : List Char) : Outcome :=
  searchRequire fuel config text location filename [] ⟨[], []⟩

end Preproc

end Csss

/-! # Vocabulary of the properties -/

namespace Csss.Lexer

/-- The main loop never exits from state `s`. -/
def Diverges (filename : String) (text : List Char) (s : LexState) : Prop :=
  ∀ fuel, lexLoop fuel filename text s = none

/-- The call `tokenize(text, filename)` never returns. -/
def NeverReturns (text : List Char) (filename : String) : Prop :=
  ∀ fuel, tokenize fuel text filename = none

/-- No `*/` starts at any position of the text. -/
def noClose : List Char → Bool
  | [] => true
  | c :: rest => !(c == '*' && rest.head? == some '/') && noClose rest

/-- The state after `n` calls of `next`. -/
def nextN (text : List Char) : Nat → LexState → LexState
  | 0, s => s
  | n + 1, s => nextN text n (next text s)

/-- The kind and the value of a token, without its position. -/
def kindValue (t : Token) : String × Value := (t.type, t.value)

/-- The text `t1` read from position `d` on is the text `t2`. -/
def Agree (d : Nat) (t1 t2 : List Char) : Prop := ∀ k, t1[k + d]? = t2[k]?

/-- The variables of a run on `t1` and of a run on `t2` correspond: the first
run is `d` characters ahead and has produced the tokens `pfx` before the
tokens of the second; positions are not compared. -/
structure Sim (d : Nat) (pfx : List (String × Value)) (s1 s2 : LexState) : Prop where
  index : s1.index = s2.index + d
  tokens : s1.tokens.map kindValue = pfx ++ s2.tokens.map kindValue
  errors : s1.errors.map (fun e => e.character) = s2.errors.map (fun e => e.character)

/-- Corresponding variables with the same current character. -/
structure SimC (d : Nat) (pfx : List (String × Value)) (s1 s2 : LexState) : Prop where
  index : s1.index = s2.index + d
  tokens : s1.tokens.map kindValue = pfx ++ s2.tokens.map kindValue
  errors : s1.errors.map (fun e => e.character) = s2.errors.map (fun e => e.character)
  current : s1.current = s2.current

/-- Both loops run out of fuel, or both exit with corresponding variables. -/
def OptSim (d : Nat) (pfx : List (String × Value)) :
    Option LexState → Option LexState → Prop
  | some a, some b => SimC d pfx a b
  | none, none => True
  | _, _ => False

/-- The same for the loops that also return the text they gathered. -/
def OptSimAcc (d : Nat) (pfx : List (String × Value)) :
    Option (LexState × List Char) → Option (LexState × List Char) → Prop
  | some a, some b => SimC d pfx a.1 b.1 ∧ a.2 = b.2
  | none, none => True
  | _, _ => False

/-- The two-character comparators `==`, `!=`, `>=` and `<=`. -/
def twoCharComparators : List (List Char) :=
  ["==".toList, "!=".toList, ">=".toList, "<=".toList]

/-- The number of newline characters before position `i` of the text. -/
def newlinesBefore (text : List Char) (i : Nat) : Nat := (text.take i).count '\n'

/-- A character that no branch of the ladder takes and that the whitespace
skip does not skip: not a blank, bar, tab or newline, not a letter, digit,
percent sign or dash, not a quote, and none of `@ ( ) { } [ ] ; . = ! < > + * / ^ & : , #`. -/
def isUnrecognized (c : Char) : Bool :=
  !(isSpaceRe c || isIdentRe c || isQuoteRe c || "@()\x7b\x7d[];.=!<>+*/^&:,#".toList.contains c)

/-- A report names a character of the text, the file, and the 1-based line of
that character. -/
def GoodReport (filename : String) (text : List Char) (e : LexError) : Prop :=
  ∃ i, text[i]? = some e.character ∧ e.line = 1 + newlinesBefore text i ∧
    e.filename = filename

/-- The variables at the head of an iteration of the main loop: `line` is the
line of the character at `index`, and every report made so far is good. -/
structure Inv (filename : String) (text : List Char) (s : LexState) : Prop where
  line : s.line = 1 + newlinesBefore text s.index
  errors : ∀ e ∈ s.errors, GoodReport filename text e

/-- The same inside an iteration, where `current` is the character at `index`. -/
structure InvC (filename : String) (text : List Char) (s : LexState) : Prop where
  line : s.line = 1 + newlinesBefore text s.index
  errors : ∀ e ∈ s.errors, GoodReport filename text e
  current : s.current = text[s.index]?

/-- The variables the main loop can have at the head of an iteration. -/
inductive Reachable (filename : String) (text : List Char) : LexState → Prop where
  | init : Reachable filename text initState
  | step {fuel : Nat} {s r : LexState} : Reachable filename text s →
      s.index < text.length → lexStep fuel filename text s = some r →
      Reachable filename text r

/-- The token kind and value of a word, as the classification is worded: a
bool for `true` and `false` in any case, a unit for a CSS unit in any case
(its value in lower case), an identifier otherwise (case preserved). -/
def wordToken (w : List Char) : String × Value :=
  if w.map Char.toLower = "true".toList then ("bool", .bool true)
  else if w.map Char.toLower = "false".toList then ("bool", .bool false)
  else if w.map Char.toLower ∈ validUnits then ("unit", .str (w.map Char.toLower))
  else ("identifier", .str w)

/-- The 1-based line and column of position `i` of the text, as the property
words them: 1 plus the number of newlines before the position, and 1 plus
the number of characters between the last newline before it and the
position. -/
def lineColumn (text : List Char) (i : Nat) : Nat × Nat :=
  (1 + (text.take i).count '\n',
   1 + ((text.take i).reverse.takeWhile (fun c => c != '\n')).length)

/-- The token is an identifier, bool or unit token. -/
def isWordType (type : String) : Prop :=
  type = "identifier" ∨ type = "bool" ∨ type = "unit"

/-- What a word token carries: an identifier or unit token a text that
starts with a letter, a bool token a native boolean. -/
def GoodWord (t : Token) : Prop :=
  (t.type = "identifier" → ∃ c w, t.value = .str (c :: w) ∧ isLetterRe c = true) ∧
  (t.type = "unit" → ∃ c w, t.value = .str (c :: w) ∧ isLetterRe c = true) ∧
  (t.type = "bool" → ∃ b, t.value = .bool b)

/-- The tokens `new` are those of `old` followed by tokens pushed while the
current character was `cur`: a word token among them is a good one, and
`cur` is a letter. -/
def Appended (cur : Option Char) (old new : List Token) : Prop :=
  ∃ pushed, new = old ++ pushed ∧
    ∀ t ∈ pushed, GoodWord t ∧ (isWordType t.type → ∃ c, cur = some c ∧ isLetterRe c = true)

end Csss.Lexer

namespace Csss

/-- The outcome `b` is the outcome `a`, unless `a` ran out of fuel. -/
def Res.Le {ε α : Type} (a b : Res ε α) : Prop := a = .timeout ∨ a = b

/-- The property `P` holds of the value of a finished run. -/
def Res.All {ε α : Type} (P : α → Prop) : Res ε α → Prop
  | .ok a => P a
  | _ => True

/-- The run has finished with a value of which `P` holds. -/
def Res.Returns {ε α : Type} (P : α → Prop) : Res ε α → Prop
  | .ok a => P a
  | _ => False

end Csss

namespace Csss.Parse

open Lexer (Token)

/-- The tokens of `@if (--x == 1) { color: red; }`. -/
def ifTokens : List Token :=
  [⟨"keyword", .str "if".toList, 1, 4⟩, ⟨"lpar", .str "(".toList, 1, 5⟩,
   ⟨"variable", .str "--x".toList, 1, 9⟩, ⟨"comparator", .str "==".toList, 1, 10⟩,
   ⟨"float", .num (.dec false 1 0), 1, 14⟩, ⟨"rpar", .str ")".toList, 1, 14⟩,
   ⟨"lcurb", .str "\x7b".toList, 1, 16⟩, ⟨"identifier", .str "color".toList, 1, 23⟩,
   ⟨"assign", .str ":".toList, 1, 23⟩, ⟨"identifier", .str "red".toList, 1, 28⟩,
   ⟨"semi", .str ";".toList, 1, 28⟩, ⟨"rcurb", .str "\x7d".toList, 1, 30⟩]

/-- The tokens of `--foo: 5;`. -/
def fooTokens : List Token :=
  [⟨"variable", .str "--foo".toList, 1, 6⟩, ⟨"assign", .str ":".toList, 1, 6⟩,
   ⟨"float", .num (.dec false 5 0), 1, 9⟩, ⟨"semi", .str ";".toList, 1, 9⟩]

/-- The tokens of `div { width: 10px; }`. -/
def widthTokens : List Token :=
  [⟨"identifier", .str "div".toList, 1, 4⟩, ⟨"lcurb", .str "\x7b".toList, 1, 5⟩,
   ⟨"identifier", .str "width".toList, 1, 12⟩, ⟨"assign", .str ":".toList, 1, 12⟩,
   ⟨"float", .num (.dec false 10 0), 1, 16⟩, ⟨"unit", .str "px".toList, 1, 18⟩,
   ⟨"semi", .str ";".toList, 1, 18⟩, ⟨"rcurb", .str "\x7d".toList, 1, 20⟩]

/-- The message is a syntax error: a missing opening delimiter. -/
def isMissing : Diag → Bool
  | .missingOpening _ _ _ _ => true
  | _ => false

/-- The syntax errors logged so far. -/
def syntaxErrors (s : PState) : List Diag := s.log.filter isMissing

/-- The tokens of `; @if --x == 1) { } ;`, an `if` without its `(`. -/
def ifNoParTokens : List Token :=
  [⟨"semi", .str ";".toList, 1, 1⟩, ⟨"keyword", .str "if".toList, 1, 6⟩,
   ⟨"variable", .str "--x".toList, 1, 10⟩, ⟨"comparator", .str "==".toList, 1, 11⟩,
   ⟨"float", .num (.dec false 1 0), 1, 15⟩, ⟨"rpar", .str ")".toList, 1, 15⟩,
   ⟨"lcurb", .str "\x7b".toList, 1, 17⟩, ⟨"rcurb", .str "\x7d".toList, 1, 19⟩,
   ⟨"semi", .str ";".toList, 1, 21⟩]

/-- The tokens of `; @else color: red; ;`, an `else` without its brace. -/
def elseNoBraceTokens : List Token :=
  [⟨"semi", .str ";".toList, 1, 1⟩, ⟨"keyword", .str "else".toList, 1, 8⟩,
   ⟨"identifier", .str "color".toList, 1, 14⟩, ⟨"assign", .str ":".toList, 1, 14⟩,
   ⟨"identifier", .str "red".toList, 1, 19⟩, ⟨"semi", .str ";".toList, 1, 19⟩,
   ⟨"semi", .str ";".toList, 1, 21⟩]

/-- The tokens of `; @else { } --x: 1;`. -/
def elseTokens : List Token :=
  [⟨"semi", .str ";".toList, 1, 1⟩, ⟨"keyword", .str "else".toList, 1, 8⟩,
   ⟨"lcurb", .str "\x7b".toList, 1, 9⟩, ⟨"rcurb", .str "\x7d".toList, 1, 11⟩,
   ⟨"variable", .str "--x".toList, 1, 16⟩, ⟨"assign", .str ":".toList, 1, 16⟩,
   ⟨"float", .num (.dec false 1 0), 1, 19⟩, ⟨"semi", .str ";".toList, 1, 19⟩]

/-- The statements `; else { } --x: 1; ;` as a token stream whose braces
carry the types `lbrace` and `rbrace`, the names the parser tests for. -/
def elseBraceTokens : List Token :=
  [⟨"semi", .str ";".toList, 1, 1⟩, ⟨"keyword", .str "else".toList, 1, 8⟩,
   ⟨"lbrace", .str "\x7b".toList, 1, 9⟩, ⟨"rbrace", .str "\x7d".toList, 1, 11⟩,
   ⟨"variable", .str "--x".toList, 1, 16⟩, ⟨"assign", .str ":".toList, 1, 16⟩,
   ⟨"float", .num (.dec false 1 0), 1, 19⟩, ⟨"semi", .str ";".toList, 1, 19⟩,
   ⟨"semi", .str ";".toList, 1, 21⟩]

/-- The tokens of `;true;`. -/
def trueTokens : List Token :=
  [⟨"semi", .str ";".toList, 1, 1⟩, ⟨"bool", .bool true, 1, 6⟩, ⟨"semi", .str ";".toList, 1, 6⟩]

/-- The variables `x` are those of a later point of the walk than `s`: the
variable `token` is assigned, and the index has not gone back. -/
def Beyond (s x : PState) : Prop := x.token.isSome = true ∧ s.index ≤ x.index

end Csss.Parse

namespace Csss.Preproc

/-- The outcome `b` is the outcome `a`, unless `a` ran out of fuel. -/
def Outcome.Le (a b : Outcome) : Prop := a = .timeout ∨ a = b

/-- The call of the preprocessor never returns: it neither gives a text nor
raises a fault, whatever the fuel. -/
def NeverExpands (config : Config) (text location filename : List Char) : Prop :=
  ∀ fuel, expand fuel config text location filename = .timeout

/-- The text that is scanned for the root text `/* open` of `./main.csss`. -/
def openCommentScan : List Char :=
  openTag ".".toList "main.csss".toList ++ stripShebang "/* open".toList

/-- When `a` returns a text, `b` returns the same text. -/
def OkImp (a b : Outcome) : Prop := ∀ t st, a = .ok t st → b = .ok t st

/-- The file system of the diamond: `a.csss` requires `b.csss` and `c.csss`,
each of which requires `d.csss`, which requires nothing. -/
def diamondFs : List Char → Option (List Char) := fun p =>
  if p = "./a.csss".toList then some "@require \"b.csss\";@require \"c.csss\";".toList
  else if p = "./b.csss".toList then some "@require \"d.csss\";".toList
  else if p = "./c.csss".toList then some "@require \"d.csss\";".toList
  else if p = "./d.csss".toList then some "d".toList
  else none

/-- The expansion of `a.csss` in the diamond: the text of `d.csss` appears
twice, once below `b.csss` and once below `c.csss`. -/
def diamondOut : List Char :=
  ("/* CSSS:FILE \"/./a.csss\" */" ++
   "/* CSSS:FILE \"/./b.csss\" */" ++
   "/* CSSS:FILE \"/./d.csss\" */d/* CSSS:FILE CLOSE */" ++ "/* CSSS:FILE CLOSE */" ++
   "/* CSSS:FILE \"/./c.csss\" */" ++
   "/* CSSS:FILE \"/./d.csss\" */d/* CSSS:FILE CLOSE */" ++ "/* CSSS:FILE CLOSE */" ++
   "/* CSSS:FILE CLOSE */").toList

/-- The calls of `searchRequire` in the diamond, each with the stack it
received: the ancestors of the file on the current inclusion path. -/
def diamondCalls : List (List Char × List (List Char)) :=
  [("./a.csss".toList, []),
   ("./b.csss".toList, ["./a.csss".toList]),
   ("./d.csss".toList, ["./a.csss".toList, "./b.csss".toList]),
   ("./c.csss".toList, ["./a.csss".toList]),
   ("./d.csss".toList, ["./a.csss".toList, "./c.csss".toList])]

/-- The text between the opening `/*` of the tag and its closing `*/`. -/
def tagBody (location filename : List Char) : List Char :=
  " CSSS:FILE \"/".toList ++ location ++ "/".toList ++ filename ++ "\" ".toList

/-- The text of a directive between `@require` and its semicolon, for the
file name `f` written in double quotes after one blank. -/
def quoted (f : List Char) : List Char := ' ' :: '"' :: (f ++ ['"'])

/-- A directory path made of `.` components only: `.`, `./.`, `././.`, ... -/
def dotDirs : List Char → Bool
  | ['.'] => true
  | '.' :: '/' :: rest => dotDirs rest
  | _ => false

/-- The text ``@require "./f.csss";``. -/
def aliasText : List Char := "@require \"./f.csss\";".toList

/-- The text of a file that first requires a file that does not exist and
then requires itself. -/
def goneFirstText : List Char := "@require \"gone.csss\";@require \"f.csss\";".toList

/-- The file system that holds only `./f.csss`, with the text `goneFirstText`. -/
def goneFirstFs : List Char → Option (List Char) := fun p =>
  if p = "./f.csss".toList then some goneFirstText else none

/-- The file system with no file: every read fails. -/
def emptyFs : List Char → Option (List Char) := fun _ => none

/-- The file system that holds only `./x`, with the text `X`. -/
def oneFileFs : List Char → Option (List Char) := fun p =>
  if p = "./x".toList then some "X".toList else none

/-- The comment `/*/ @require "x"; */`, whose opening is directly followed by a slash. -/
def slashComment : List Char := "/*/ @require \"x\"; */".toList

/-- The comment `/* @require "x"; */`. -/
def plainComment : List Char := "/* @require \"x\"; */".toList

/-- The offset of the first `*/` of the text, if there is one. -/
def closeAt : List Char → Option Nat
  | [] => none
  | c :: rest =>
    if c = '*' ∧ rest.head? = some '/' then some 0 else (closeAt rest).map (· + 1)

/-- Every `@` of the text lies inside a terminated block comment. A comment
runs from a `/*` outside any comment to the first `*/` behind that opening;
an open comment at the end of the text is not terminated. With `strict`, in
addition no comment opens with `/*/`. The second argument bounds the
recursion: the length of the text plus one is enough. -/
def commentsCover (strict : Bool) : Nat → List Char → Bool
  | 0, _ => false
  | _ + 1, [] => true
  | fuel + 1, c :: rest =>
    if c = '/' ∧ rest.head? = some '*' then
      match closeAt rest.tail with
      | some k =>
        (!strict || rest.tail.head? != some '/') &&
          commentsCover strict fuel (rest.tail.drop (k + 2))
      | none => false
    else c != '@' && commentsCover strict fuel rest

/-- Every file that the limit `L` lets pass behind the stack `s`, the limit
`L'` lets pass behind the stack `s'`. -/
def Allows (L : Nat) (s : List (List Char)) (L' : Nat) (s' : List (List Char)) : Prop :=
  ∀ p, L - s.count p ≤ L' - s'.count p

/-- When `a` returns a text, `b` returns the same text. -/
def OkTo (a b : Outcome) : Prop := ∀ t st, a = .ok t st → ∃ st', b = .ok t st'

/-- When the outcome is the fault `RecursionLimit`, the last call on record
received a stack of at least `k` entries. -/
def Deep (k : Nat) (o : Outcome) : Prop :=
  ∀ l stf, o = .crit (.recursionLimit l) stf →
    ∃ p s2, stf.calls.getLast? = some (p, s2) ∧ k ≤ s2.length

/-- The text that the loop of `searchRequire` scans for the file
`location/filename` with the text `text`: the opening tag, and the text
without its shebang line. -/
def scanText (location filename text : List Char) : List Char :=
  openTag location filename ++ stripShebang text

/-- The index of the first `@require` that the loop of `searchRequire` meets
from index `i0` on: the loop as it runs up to its first directive, where it
skips every comment as the source does and changes no text. `none` when the
loop comes to the end of the text first, or when the fuel runs out. -/
def firstRequire : Nat → List Char → Nat → Option Nat
  | 0, _, _ => none
  | fuel + 1, text, i0 =>
    if i0 < text.length then
      match (if pairIs text i0 "/*".toList then (commentLoop fuel text i0).map (· + 1)
             else some i0) with
      | some i =>
        if text[i]? = some '@' ∧ substr text (i + 1) 7 = "require".toList then some i
        else firstRequire fuel text (i + 1)
      | none => none
    else none

/-- The text of the directive at index `i` that is handed to `parseRequire`:
from behind `@require` up to the closing semicolon. -/
def directiveAt (text : List Char) (i : Nat) : List Char :=
  substr text (i + 8) (semiLoop (text.drop (i + 8)) (i + 8) - (i + 8))

/-- The first directive that the scan of the file `location/filename` meets is
closed by a semicolon, and the file name that `parseRequire` finds in it is
the name of the file itself. -/
def requiresItselfFirst (fuel : Nat) (location filename text : List Char) : Bool :=
  match firstRequire fuel (scanText location filename text) 0 with
  | some i =>
    decide (semiLoop ((scanText location filename text).drop (i + 8)) (i + 8) ≠
        (scanText location filename text).length) &&
      decide ((findFile (directiveAt (scanText location filename text) i) filename location
        ⟨[], []⟩).1 = some filename)
  | none => false

/-- A text with a shebang line, a comment, a colour, a URL and an `@if`
before the directive by which it requires itself, written with single quotes
and blanks. -/
def mixedSelfText : List Char :=
  ("#!/usr/bin/env csss\n/* theme */\na \x7b color: #fff; background: url(img/x.png); \x7d\n" ++
   "@if (--x == 1) \x7b \x7d\n@require   'f.csss' ;\nb \x7b \x7d").toList

/-- The file system that holds only `./f.csss`, with the text `mixedSelfText`. -/
def mixedSelfFs : List Char → Option (List Char) := fun p =>
  if p = "./f.csss".toList then some mixedSelfText else none

/-- A text that requires the file `g.csss` before it requires itself. -/
def laterSelfText : List Char := "@require \"g.csss\";\n@require \"f.csss\";".toList

/-- The file system that holds `./f.csss` with the text `laterSelfText`, and
`./g.csss` with a text without directive. -/
def laterSelfFs : List Char → Option (List Char) := fun p =>
  if p = "./f.csss".toList then some laterSelfText
  else if p = "./g.csss".toList then some "g \x7b color: red \x7d".toList
  else none

/-- A file system in which `.` names the directory itself and a path has at
most `bound` characters: the file `f.csss` is read under every path
`dir/f.csss` of at most `bound` characters whose directory is made of `.`
components only; a longer path cannot be read. -/
def boundedAliasFs (bound : Nat) : List Char → Option (List Char) := fun p =>
  if p.length ≤ bound ∧ dotDirs (p.take (p.length - 7)) = true ∧
      p.drop (p.length - 7) = "/f.csss".toList then
    some aliasText
  else none

/-- The text of a file that starts with the universal selector `*` and holds
a directive in a comment: `*/* @require "b.csss"; */`. -/
def starText : List Char := "*/* @require \"b.csss\"; */".toList

/-- The file system of the diamond, `a.csss` requires `b.csss` and `c.csss`,
each of which requires `d.csss`, where `d.csss` holds the text `starText`. -/
def starDiamondFs : List Char → Option (List Char) := fun p =>
  if p = "./a.csss".toList then some "@require \"b.csss\";@require \"c.csss\";".toList
  else if p = "./b.csss".toList then some "@require \"d.csss\";".toList
  else if p = "./c.csss".toList then some "@require \"d.csss\";".toList
  else if p = "./d.csss".toList then some starText
  else none

end Csss.Preproc

/-! # Properties -/

namespace Csss

namespace Lexer

/-! ## More fuel never changes a finished loop -/

theorem commentLoop_succ {fuel : Nat} {text : List Char} {s r : LexState}
    (h : commentLoop fuel text s = some r) : commentLoop (fuel + 1) text s = some r := by
  induction fuel generalizing s with
  | zero => simp [commentLoop] at h
  | succ n ih =>
    rw [commentLoop] at h
    rw [commentLoop]
    split_ifs at h ⊢ with hc
    · exact ih h
    · exact h

theorem scanLoop_succ {cls : Char → Bool} {fuel : Nat} {text : List Char} {s : LexState}
    {acc : List Char} {r : LexState × List Char}
    (h : scanLoop cls fuel text s acc = some r) : scanLoop cls (fuel + 1) text s acc = some r := by
  induction fuel generalizing s acc with
  | zero => simp [scanLoop] at h
  | succ n ih =>
    rw [scanLoop] at h
    rw [scanLoop]
    split_ifs at h ⊢ with hc
    · exact ih h
    · exact h

theorem scanCurLoop_succ {cls : Char → Bool} {fuel : Nat} {text : List Char} {s : LexState}
    {acc : List Char} {r : LexState × List Char}
    (h : scanCurLoop cls fuel text s acc = some r) :
    scanCurLoop cls (fuel + 1) text s acc = some r := by
  induction fuel generalizing s acc with
  | zero => simp [scanCurLoop] at h
  | succ n ih =>
    rw [scanCurLoop] at h
    rw [scanCurLoop]
    split_ifs at h ⊢ with hc
    · exact ih h
    · exact h

theorem stringLoop_succ {closing : Char} {fuel : Nat} {text : List Char} {s : LexState}
    {acc : List Char} {r : LexState × List Char}
    (h : stringLoop closing fuel text s acc = some r) :
    stringLoop closing (fuel + 1) text s acc = some r := by
  induction fuel generalizing s acc with
  | zero => simp [stringLoop] at h
  | succ n ih =>
    rw [stringLoop] at h
    rw [stringLoop]
    split_ifs at h ⊢ with hc
    · exact ih h
    · exact h

theorem map_succ_of_some {α β : Type} {f g : Option α} {k : α → β} {r : β}
    (hfg : ∀ a, f = some a → g = some a) (h : f.map k = some r) : g.map k = some r := by
  cases hf : f with
  | none => simp [hf] at h
  | some a => rw [hfg a hf]; rw [hf] at h; exact h

theorem ite_some_imp {α : Type} {c : Prop} [Decidable c] {a a' b b' : Option α} {r : α}
    (ha : a = some r → a' = some r) (hb : b = some r → b' = some r) :
    (if c then a else b) = some r → (if c then a' else b') = some r := by
  split_ifs <;> assumption

theorem lexChain_succ {fuel : Nat} {filename : String} {text : List Char} {s r : LexState} :
    lexChain fuel filename text s = some r → lexChain (fuel + 1) filename text s = some r := by
  unfold lexChain
  cases s.current <;> dsimp only <;>
  repeat' first
    | refine ite_some_imp ?_ ?_
    | exact map_succ_of_some (fun _ => commentLoop_succ)
    | exact map_succ_of_some (fun _ => scanLoop_succ)
    | exact map_succ_of_some (fun _ => scanCurLoop_succ)
    | exact map_succ_of_some (fun _ => stringLoop_succ)
    | exact id

theorem lexStep_succ {fuel : Nat} {filename : String} {text : List Char} {s r : LexState}
    (h : lexStep fuel filename text s = some r) :
    lexStep (fuel + 1) filename text s = some r :=
  lexChain_succ h

theorem lexStep_mono {fuel fuel' : Nat} {filename : String} {text : List Char} {s r : LexState}
    (hle : fuel ≤ fuel') (h : lexStep fuel filename text s = some r) :
    lexStep fuel' filename text s = some r := by
  induction hle with
  | refl => exact h
  | step _ ih => exact lexStep_succ ih

theorem lexLoop_succ {fuel : Nat} {filename : String} {text : List Char} {s r : LexState}
    (h : lexLoop fuel filename text s = some r) :
    lexLoop (fuel + 1) filename text s = some r := by
  induction fuel generalizing s with
  | zero => simp [lexLoop] at h
  | succ n ih =>
    rw [lexLoop] at h
    rw [lexLoop]
    split_ifs at h ⊢ with hc
    · cases hs : lexStep n filename text s with
      | none => simp [hs] at h
      | some s1 =>
        rw [hs] at h
        rw [lexStep_succ hs]
        exact ih h
    · exact h

theorem lexLoop_mono {fuel fuel' : Nat} {filename : String} {text : List Char} {s r : LexState}
    (hle : fuel ≤ fuel') (h : lexLoop fuel filename text s = some r) :
    lexLoop fuel' filename text s = some r := by
  induction hle with
  | refl => exact h
  | step _ ih => exact lexLoop_succ ih

/-- A finished tokenization stays the same with more fuel. -/
theorem tokenize_add {fuel : Nat} {text : List Char} {filename : String} {ts : List Token}
    (h : tokenize fuel text filename = some ts) (n : Nat) :
    tokenize (fuel + n) text filename = some ts := by
  unfold tokenize run at h ⊢
  cases hr : lexLoop fuel filename text initState with
  | none => simp [hr] at h
  | some r =>
    rw [hr] at h
    rw [lexLoop_mono (Nat.le_add_right fuel n) hr]
    exact h

/-! ## Runs that never return -/

theorem lexStep_det {fuel fuel' : Nat} {filename : String} {text : List Char}
    {s r r' : LexState} (h : lexStep fuel filename text s = some r)
    (h' : lexStep fuel' filename text s = some r') : r = r' := by
  rcases Nat.le_total fuel fuel' with hle | hle
  · have := lexStep_mono hle h
    rw [h'] at this
    exact (Option.some.inj this).symm
  · have := lexStep_mono hle h'
    rw [h] at this
    exact Option.some.inj this

theorem diverges_of_step {fuel : Nat} {filename : String} {text : List Char} {s r : LexState}
    (h : lexStep fuel filename text s = some r) (hlt : s.index < text.length)
    (hr : Diverges filename text r) :
    Diverges filename text s := by
  intro n
  cases n with
  | zero => rfl
  | succ n =>
    rw [lexLoop, if_pos hlt]
    cases hs : lexStep n filename text s with
    | none => rfl
    | some s1 =>
      have : r = s1 := lexStep_det h hs
      subst this
      exact hr n

theorem diverges_of_step_none {filename : String} {text : List Char} {s : LexState}
    (h : ∀ fuel, lexStep fuel filename text s = none) (hlt : s.index < text.length) :
    Diverges filename text s := by
  intro n
  cases n with
  | zero => rfl
  | succ n => rw [lexLoop, if_pos hlt, h n]

/-- The loop never exits once an iteration at index `i` leaves the index at `i`. -/
theorem diverges_of_stuck {filename : String} {text : List Char} (i : Nat)
    (hlt : i < text.length)
    (h : ∀ s : LexState, s.index = i →
      ∃ r, lexStep 0 filename text s = some r ∧ r.index = i)
    (s : LexState) (hs : s.index = i) : Diverges filename text s := by
  intro n
  induction n generalizing s with
  | zero => rfl
  | succ n ih =>
    obtain ⟨r, hr, hri⟩ := h s hs
    rw [lexLoop, if_pos (hs ▸ hlt), lexStep_mono (Nat.zero_le n) hr]
    exact ih r hri

theorem getElem?_of_all_drop {cls : Char → Bool} {text : List Char} {i k : Nat}
    (hall : (text.drop i).all cls = true) (hnone : reTest cls none = true) (hk : i ≤ k) :
    reTest cls text[k]? = true := by
  cases hget : text[k]? with
  | none => exact hnone
  | some c =>
    have hmem : c ∈ text.drop i := by
      obtain ⟨d, rfl⟩ := Nat.exists_eq_add_of_le hk
      have : (text.drop i)[d]? = some c := by rw [List.getElem?_drop]; exact hget
      exact List.getElem?_mem this
    have := List.all_eq_true.mp hall c hmem
    simp [reTest, jsStr, this]

theorem scanLoop_none {cls : Char → Bool} {text : List Char} (fuel : Nat) (s : LexState)
    (acc : List Char) (h : ∀ k, s.index < k → reTest cls text[k]? = true) :
    scanLoop cls fuel text s acc = none := by
  induction fuel generalizing s acc with
  | zero => rfl
  | succ n ih =>
    rw [scanLoop]
    have h1 : reTest cls (next text s).current = true := h (s.index + 1) (Nat.lt_succ_self _)
    simp only [h1, if_true]
    exact ih _ _ (fun k hk => h k (Nat.lt_of_succ_lt hk))

theorem scanCurLoop_none {cls : Char → Bool} {text : List Char} (fuel : Nat) (s : LexState)
    (acc : List Char) (hcur : s.current = text[s.index]?)
    (h : ∀ k, s.index ≤ k → reTest cls text[k]? = true) :
    scanCurLoop cls fuel text s acc = none := by
  induction fuel generalizing s acc with
  | zero => rfl
  | succ n ih =>
    rw [scanCurLoop]
    have h1 : reTest cls s.current = true := hcur ▸ h s.index (Nat.le_refl _)
    simp only [h1, if_true]
    exact ih _ _ rfl (fun k hk => h k (Nat.le_of_succ_le hk))

theorem stringLoop_none {closing : Char} {text : List Char} (fuel : Nat) (s : LexState)
    (acc : List Char) (h : ∀ k, s.index < k → text[k]? ≠ some closing) :
    stringLoop closing fuel text s acc = none := by
  induction fuel generalizing s acc with
  | zero => rfl
  | succ n ih =>
    rw [stringLoop]
    have h1 : (next text s).current ≠ some closing := h (s.index + 1) (Nat.lt_succ_self _)
    simp only [h1, ne_eq, not_false_eq_true, if_true]
    exact ih _ _ (fun k hk => h k (Nat.lt_of_succ_lt hk))

theorem peekStr_two (text : List Char) (s : LexState) :
    peekStr text s 0 2 = jsStr text[s.index]? ++ jsStr text[s.index + 1]? := by
  simp [peekStr]

theorem peekStr_two_eq_close {text : List Char} {s : LexState}
    (h : peekStr text s 0 2 = "*/".toList) :
    text[s.index]? = some '*' ∧ text[s.index + 1]? = some '/' := by
  rw [peekStr_two] at h
  cases h0 : text[s.index]? with
  | none =>
    rw [h0] at h
    simp [jsStr, undefinedStr] at h
  | some c =>
    cases h1 : text[s.index + 1]? with
    | none =>
      rw [h0, h1] at h
      simp [jsStr, undefinedStr] at h
    | some d =>
      rw [h0, h1] at h
      simp [jsStr] at h
      simp [h.1, h.2]

theorem noClose_drop {text : List Char} {i k : Nat} (h : noClose (text.drop i) = true)
    (hk : i ≤ k) : ¬ (text[k]? = some '*' ∧ text[k + 1]? = some '/') := by
  induction text generalizing i k with
  | nil => simp
  | cons c rest ih =>
    cases i with
    | zero =>
      simp only [List.drop_zero, noClose, Bool.and_eq_true, Bool.not_eq_true'] at h
      cases k with
      | zero =>
        rintro ⟨h0, h1⟩
        simp only [List.getElem?_cons_zero, Option.some.injEq] at h0
        simp only [zero_add, List.getElem?_cons_succ] at h1
        have hh : rest.head? = some '/' := by
          cases rest with
          | nil => simp at h1
          | cons d rest' => simpa using h1
        simp [h0, hh] at h
      | succ k =>
        simp only [List.getElem?_cons_succ]
        exact @ih 0 k (by simpa using h.2) (Nat.zero_le _)
    | succ i =>
      cases k with
      | zero => omega
      | succ k =>
        simp only [List.getElem?_cons_succ]
        exact ih (by simpa using h) (by omega)

theorem commentLoop_none {text : List Char} (fuel : Nat) (s : LexState)
    (h : noClose (text.drop s.index) = true) : commentLoop fuel text s = none := by
  induction fuel generalizing s with
  | zero => rfl
  | succ n ih =>
    rw [commentLoop]
    have h1 : peekStr text s 0 2 ≠ "*/".toList :=
      fun hp => noClose_drop h (Nat.le_refl _) (peekStr_two_eq_close hp)
    simp only [h1, ne_eq, not_false_eq_true, if_true]
    apply ih
    show noClose (text.drop (s.index + 1)) = true
    have : ∀ (l : List Char) (j : Nat), noClose (l.drop j) = true →
        noClose (l.drop (j + 1)) = true := by
      intro l
      induction l with
      | nil => intro j _; simp [noClose]
      | cons c rest ihl =>
        intro j hj
        cases j with
        | zero =>
          simp only [List.drop_zero, noClose, Bool.and_eq_true] at hj
          simpa using hj.2
        | succ j => simpa using ihl j (by simpa using hj)
    exact this text s.index h

theorem neverReturns_of_diverges {text : List Char} {filename : String}
    (h : Diverges filename text initState) : NeverReturns text filename := by
  intro fuel
  simp [tokenize, run, h fuel]

theorem scanLoop_none_of_all {cls : Char → Bool} {text : List Char} (fuel : Nat)
    (s : LexState) (acc : List Char) (hall : (text.drop (s.index + 1)).all cls = true)
    (hnone : reTest cls none = true) : scanLoop cls fuel text s acc = none :=
  scanLoop_none fuel s acc (fun _ hk => getElem?_of_all_drop hall hnone hk)

theorem neverReturns_10px (filename : String) : NeverReturns "10px".toList filename := by
  apply neverReturns_of_diverges
  have h1 : lexStep 3 filename "10px".toList initState = some
      { tokens := [⟨"float", .num (.dec false 10 0), 1, 3⟩], index := 2, line := 1,
        column := 3, current := some 'p', errors := [] } := by rfl
  refine diverges_of_step h1 (by decide) (diverges_of_step_none ?_ (by decide))
  intro fuel
  show (scanLoop isIdentRe fuel "10px".toList _ _).map _ = none
  rw [scanLoop_none_of_all fuel _ _ (by decide) (by decide)]
  rfl

theorem neverReturns_at_if (filename : String) : NeverReturns "@if".toList filename := by
  apply neverReturns_of_diverges
  refine diverges_of_step_none ?_ (by decide)
  intro fuel
  show (scanLoop isLetterRe fuel "@if".toList _ _).map _ = none
  rw [scanLoop_none_of_all fuel _ _ (by decide) (by decide)]
  rfl

theorem neverReturns_variable (filename : String) : NeverReturns "--x".toList filename := by
  apply neverReturns_of_diverges
  refine diverges_of_step_none ?_ (by decide)
  intro fuel
  show (scanLoop isWordDashRe fuel "--x".toList _ _).map _ = none
  rw [scanLoop_none_of_all fuel _ _ (by decide) (by decide)]
  rfl

theorem neverReturns_hash (filename : String) : NeverReturns "#fff".toList filename := by
  apply neverReturns_of_diverges
  refine diverges_of_step_none ?_ (by decide)
  intro fuel
  show (scanLoop isWordDashRe fuel "#fff".toList _ _).map _ = none
  rw [scanLoop_none_of_all fuel _ _ (by decide) (by decide)]
  rfl

theorem neverReturns_open_comment (filename : String) :
    NeverReturns "/* open".toList filename := by
  apply neverReturns_of_diverges
  refine diverges_of_step_none ?_ (by decide)
  intro fuel
  show (commentLoop fuel "/* open".toList _).map _ = none
  rw [commentLoop_none fuel _ (by decide)]
  rfl

theorem lexStep_dollar (filename : String) (s : LexState) (hs : s.index = 0) :
    lexStep 0 filename "$".toList s = some
      { s with current := some '$', errors := s.errors ++ [⟨'$', filename, s.line⟩] } := by
  obtain ⟨tk, i, l, c, cur, e⟩ := s
  simp only at hs
  subst hs
  rfl

theorem neverReturns_dollar (filename : String) : NeverReturns "$".toList filename := by
  apply neverReturns_of_diverges
  refine diverges_of_stuck 0 (by decide) (fun s hs => ⟨_, lexStep_dollar filename s hs, hs⟩) _ rfl

/-- C6. `tokenize` does not terminate on every text: on each of `10px`,
`@if`, `--x`, `#fff` and `/* open` the scan loop that reaches the end of the
text never exits, and on `$` the invalid character is reported at line 1 and
the main loop then repeats the same iteration for ever, so no call returns a
token list or a fault. -/
theorem C6_tokenize_never_returns (filename : String) :
    NeverReturns "10px".toList filename ∧ NeverReturns "@if".toList filename ∧
    NeverReturns "--x".toList filename ∧ NeverReturns "#fff".toList filename ∧
    NeverReturns "/* open".toList filename ∧ NeverReturns "$".toList filename ∧
    lexStep 0 filename "$".toList initState = some
      { initState with current := some '$', errors := [⟨'$', filename, 1⟩] } :=
  ⟨neverReturns_10px filename, neverReturns_at_if filename, neverReturns_variable filename,
   neverReturns_hash filename, neverReturns_open_comment filename,
   neverReturns_dollar filename, lexStep_dollar filename initState rfl⟩

/-- C10. On `a||b;` the first bar is skipped as whitespace and the second bar
opens a string that is never closed: `tokenize` never returns, so no logic
token is produced. With a blank before the operator, and for `&&` and a bare
`!`, the logic token is produced. -/
theorem C10_logic_or_without_blank_never_returns (filename : String) :
    NeverReturns "a||b;".toList filename ∧
    (∀ n, tokenize (8 + n) "a || b;".toList filename = some
      [⟨"identifier", .str "a".toList, 1, 2⟩, ⟨"logic", .str "||".toList, 1, 3⟩,
       ⟨"identifier", .str "b".toList, 1, 7⟩, ⟨"semi", .str ";".toList, 1, 7⟩]) ∧
    (∀ n, tokenize (8 + n) "a&&b;".toList filename = some
      [⟨"identifier", .str "a".toList, 1, 2⟩, ⟨"logic", .str "&&".toList, 1, 2⟩,
       ⟨"identifier", .str "b".toList, 1, 5⟩, ⟨"semi", .str ";".toList, 1, 5⟩]) ∧
    (∀ n, tokenize (3 + n) "!".toList filename = some [⟨"logic", .str "!".toList, 1, 1⟩]) := by
  refine ⟨?_, fun n => tokenize_add (by rfl) n, fun n => tokenize_add (by rfl) n,
    fun n => tokenize_add (by rfl) n⟩
  apply neverReturns_of_diverges
  have h1 : lexStep 3 filename "a||b;".toList initState = some
      { tokens := [⟨"identifier", .str "a".toList, 1, 2⟩], index := 1, line := 1,
        column := 2, current := some '|', errors := [] } := by rfl
  refine diverges_of_step h1 (by decide) (diverges_of_step_none ?_ (by decide))
  intro fuel
  show (stringLoop '|' fuel "a||b;".toList _ _).map _ = none
  rw [stringLoop_none fuel _ _ ?_]
  · rfl
  · intro k hk
    have hk' : 3 ≤ k := hk
    obtain ⟨d, rfl⟩ := Nat.exists_eq_add_of_le hk'
    rcases d with _ | _ | d
    · decide
    · decide
    · simp [Nat.add_comm 3]

theorem reTest_some (cls : Char → Bool) (c : Char) : reTest cls (some c) = cls c := by
  simp [reTest, jsStr]

theorem getElem?_of_drop_eq {text l : List Char} {i : Nat} (h : text.drop i = l) (k : Nat) :
    text[i + k]? = l[k]? := by
  rw [← h, List.getElem?_drop]

/-- The scan loop over a run of characters of the class that is followed by a
character outside it: it stops at that character with the run appended. -/
theorem scanLoop_run {cls : Char → Bool} {text : List Char} (run : List Char) (c : Char)
    (rest : List Char) (hrun : run.all cls = true) (hc : cls c = false) (fuel : Nat)
    (s : LexState) (acc : List Char) (htext : text.drop (s.index + 1) = run ++ c :: rest) :
    scanLoop cls (fuel + run.length + 1) text s acc =
      some (nextN text (run.length + 1) s, acc ++ run) := by
  induction run generalizing s acc with
  | nil =>
    have h0 : text[s.index + 1]? = some c := by
      have := getElem?_of_drop_eq htext 0
      simpa using this
    rw [show fuel + ([] : List Char).length + 1 = fuel + 1 from rfl, scanLoop]
    simp [next, h0, reTest_some, hc, nextN]
  | cons x run ih =>
    have h0 : text[s.index + 1]? = some x := by
      have := getElem?_of_drop_eq htext 0
      simpa using this
    have hx : cls x = true := by
      simp only [List.all_cons, Bool.and_eq_true] at hrun
      exact hrun.1
    have hrun' : run.all cls = true := by
      simp only [List.all_cons, Bool.and_eq_true] at hrun
      exact hrun.2
    have htext' : text.drop ((next text s).index + 1) = run ++ c :: rest := by
      show text.drop (s.index + 1 + 1) = run ++ c :: rest
      rw [← List.drop_drop, htext]
      rfl
    rw [show fuel + (x :: run).length + 1 = (fuel + run.length + 1) + 1 from by
      simp only [List.length_cons]; omega, scanLoop]
    have hcur : (next text s).current = some x := h0
    simp only [hcur, reTest_some, hx, if_true]
    rw [ih hrun' (next text s) (acc ++ jsStr (some x)) htext']
    simp [nextN, jsStr]

/-- Calls of `next` over characters none of which is a newline: only the
index, the column and the current character change. -/
theorem nextN_run {text : List Char} (l tail : List Char) (s : LexState)
    (hcur : s.current ≠ some '\n') (hl : ∀ x ∈ l, x ≠ '\n')
    (htext : text.drop (s.index + 1) = l ++ tail) :
    nextN text (l.length + 1) s =
      { s with index := s.index + l.length + 1, column := s.column + l.length + 1,
               current := tail.head? } := by
  induction l generalizing s with
  | nil =>
    have h0 : text[s.index + 1]? = tail.head? := by
      have := getElem?_of_drop_eq htext 0
      simpa [List.head?_eq_getElem?] using this
    simp [nextN, next, hcur, h0]
  | cons x l ih =>
    have h0 : text[s.index + 1]? = some x := by
      have := getElem?_of_drop_eq htext 0
      simpa using this
    have htext' : text.drop ((next text s).index + 1) = l ++ tail := by
      show text.drop (s.index + 1 + 1) = l ++ tail
      rw [← List.drop_drop, htext]
      rfl
    have hcur' : (next text s).current ≠ some '\n' := by
      show text[s.index + 1]? ≠ some '\n'
      rw [h0]
      intro h
      exact hl x (List.mem_cons_self _ _) (Option.some.inj h)
    show nextN text (l.length + 1) (next text s) = _
    rw [ih (next text s) hcur' (fun y hy => hl y (List.mem_cons_of_mem _ hy)) htext']
    simp [next, hcur]
    omega

theorem wordDash_ne_newline {x : Char} (h : isWordDashRe x = true) : x ≠ '\n' := by
  rintro rfl
  exact absurd h (by decide)

/-- The variable branch: at `--` followed by a run of word characters and
dashes and then a character outside that class, one iteration pushes one
variable token whose value is the two dashes and the run, and stops at the
character after the run. -/
theorem lexStep_variable (pre run : List Char) (c : Char) (rest : List Char)
    (hrun : run.all isWordDashRe = true) (hc : isWordDashRe c = false)
    (fuel : Nat) (filename : String) (s : LexState) (hs : s.index = pre.length) :
    lexStep (fuel + run.length + 2) filename (pre ++ "--".toList ++ run ++ c :: rest) s =
      some { tokens := s.tokens ++
               [⟨"variable", .str ("--".toList ++ run), s.line, s.column + run.length + 2⟩],
             index := pre.length + 2 + run.length, line := s.line,
             column := s.column + run.length + 2, current := some c, errors := s.errors } := by
  obtain ⟨tk, i, ln, col, cur, er⟩ := s
  simp only at hs
  subst hs
  have hdrop : (pre ++ "--".toList ++ run ++ c :: rest).drop pre.length =
      '-' :: '-' :: (run ++ c :: rest) := by
    simp [List.append_assoc]
  have h0 : (pre ++ "--".toList ++ run ++ c :: rest)[pre.length]? = some '-' := by
    have := getElem?_of_drop_eq hdrop 0
    simpa using this
  have h1 : (pre ++ "--".toList ++ run ++ c :: rest)[pre.length + 1]? = some '-' := by
    have := getElem?_of_drop_eq hdrop 1
    simpa using this
  have hdrop1 : (pre ++ "--".toList ++ run ++ c :: rest).drop (pre.length + 1) =
      ('-' :: run) ++ c :: rest := by
    rw [← List.drop_drop, hdrop]
    rfl
  generalize htext : pre ++ "--".toList ++ run ++ c :: rest = text at *
  have hscan := @scanLoop_run isWordDashRe text ('-' :: run) c rest
    (by simp only [List.all_cons, hrun, Bool.and_true]; decide) hc fuel
    { tokens := tk, index := pre.length, line := ln, column := col, current := some '-',
      errors := er } ['-'] hdrop1
  have hnext := @nextN_run text ('-' :: run) (c :: rest)
    { tokens := tk, index := pre.length, line := ln, column := col, current := some '-',
      errors := er } (by simp)
    (by
      intro x hx
      rcases List.mem_cons.mp hx with rfl | hx
      · decide
      · exact wordDash_ne_newline (List.all_eq_true.mp hrun x hx)) hdrop1
  simp only [List.length_cons] at hscan hnext
  rw [hnext] at hscan
  have hfuel : fuel + run.length + 2 = fuel + (run.length + 1) + 1 := by omega
  rw [hfuel]
  simp only [lexStep, lexChain, h0, h1, peekStr_two, reTest_some, jsStr]
  simp [isSpaceRe, peekStr, jsStr, h0, h1, hscan, pushToken]
  omega

/-! ## Lexing a text from a position on -/

section Shift

variable {d : Nat} {pfx : List (String × Value)} {t1 t2 : List Char}

theorem Agree.get (hag : Agree d t1 t2) {s1 s2 : LexState} (h : s1.index = s2.index + d)
    (k : Nat) : t1[s1.index + k]? = t2[s2.index + k]? := by
  rw [h, show s2.index + d + k = (s2.index + k) + d from by omega]
  exact hag _

theorem Agree.lt_iff (hag : Agree d t1 t2) {s1 s2 : LexState} (h : s1.index = s2.index + d) :
    s1.index < t1.length ↔ s2.index < t2.length := by
  have := hag.get h 0
  simp only [Nat.add_zero] at this
  constructor
  · intro hlt
    by_contra hge
    rw [List.getElem?_eq_getElem hlt, List.getElem?_eq_none (Nat.le_of_not_lt hge)] at this
    exact absurd this (by simp)
  · intro hlt
    by_contra hge
    rw [List.getElem?_eq_getElem hlt, List.getElem?_eq_none (Nat.le_of_not_lt hge)] at this
    exact absurd this (by simp)

theorem simC_next (hag : Agree d t1 t2) {s1 s2 : LexState} (h : SimC d pfx s1 s2) :
    SimC d pfx (next t1 s1) (next t2 s2) where
  index := by simp [next, h.index]; omega
  tokens := h.tokens
  errors := h.errors
  current := hag.get h.index 1

theorem simC_push {s1 s2 : LexState} (h : SimC d pfx s1 s2) (type : String) (value : Value) :
    SimC d pfx (pushToken s1 type value) (pushToken s2 type value) where
  index := h.index
  tokens := by simp [pushToken, h.tokens, kindValue]
  errors := h.errors
  current := h.current

theorem simC_peekStr (hag : Agree d t1 t2) {s1 s2 : LexState} (h : SimC d pfx s1 s2)
    (start distance : Nat) : peekStr t1 s1 start distance = peekStr t2 s2 start distance := by
  induction distance with
  | zero => rfl
  | succ n ih =>
    simp only [peekStr, ih]
    rw [show s1.index + start + n = s1.index + (start + n) from by omega,
      show s2.index + start + n = s2.index + (start + n) from by omega, hag.get h.index]

theorem simC_peek (hag : Agree d t1 t2) {s1 s2 : LexState} (h : SimC d pfx s1 s2)
    (start : Nat) : peek t1 s1 start = peek t2 s2 start :=
  hag.get h.index start

theorem sim_commentLoop (hag : Agree d t1 t2) (fuel : Nat) {s1 s2 : LexState}
    (h : SimC d pfx s1 s2) :
    OptSim d pfx (commentLoop fuel t1 s1) (commentLoop fuel t2 s2) := by
  induction fuel generalizing s1 s2 with
  | zero => exact True.intro
  | succ n ih =>
    rw [commentLoop, commentLoop, simC_peekStr hag h]
    split_ifs
    · exact ih (simC_next hag h)
    · exact h

theorem sim_scanLoop (hag : Agree d t1 t2) (cls : Char → Bool) (fuel : Nat)
    {s1 s2 : LexState} (acc : List Char) (h : SimC d pfx s1 s2) :
    OptSimAcc d pfx (scanLoop cls fuel t1 s1 acc) (scanLoop cls fuel t2 s2 acc) := by
  induction fuel generalizing s1 s2 acc with
  | zero => exact True.intro
  | succ n ih =>
    rw [scanLoop, scanLoop]
    have hn := simC_next hag h
    simp only [hn.current]
    split_ifs
    · exact ih _ hn
    · exact ⟨hn, rfl⟩

theorem sim_scanCurLoop (hag : Agree d t1 t2) (cls : Char → Bool) (fuel : Nat)
    {s1 s2 : LexState} (acc : List Char) (h : SimC d pfx s1 s2) :
    OptSimAcc d pfx (scanCurLoop cls fuel t1 s1 acc) (scanCurLoop cls fuel t2 s2 acc) := by
  induction fuel generalizing s1 s2 acc with
  | zero => exact True.intro
  | succ n ih =>
    rw [scanCurLoop, scanCurLoop, h.current]
    split_ifs
    · exact ih _ (simC_next hag h)
    · exact ⟨h, rfl⟩

theorem sim_stringLoop (hag : Agree d t1 t2) (closing : Char) (fuel : Nat)
    {s1 s2 : LexState} (acc : List Char) (h : SimC d pfx s1 s2) :
    OptSimAcc d pfx (stringLoop closing fuel t1 s1 acc) (stringLoop closing fuel t2 s2 acc) := by
  induction fuel generalizing s1 s2 acc with
  | zero => exact True.intro
  | succ n ih =>
    rw [stringLoop, stringLoop]
    have hn := simC_next hag h
    simp only [hn.current]
    split_ifs
    · exact ih _ hn
    · exact ⟨hn, rfl⟩

theorem simC_pushWord {s1 s2 : LexState} (h : SimC d pfx s1 s2) (identifier : List Char) :
    SimC d pfx (pushWord s1 identifier) (pushWord s2 identifier) := by
  unfold pushWord
  dsimp only
  split_ifs
  · exact simC_push h _ _
  · exact simC_push h _ _
  · exact simC_push h _ _

theorem optSim_ite {c : Prop} [Decidable c] {a b a' b' : Option LexState}
    (ha : OptSim d pfx a a') (hb : OptSim d pfx b b') :
    OptSim d pfx (if c then a else b) (if c then a' else b') := by
  split_ifs <;> assumption

theorem optSim_map {o1 o2 : Option LexState} {f1 f2 : LexState → LexState}
    (h : OptSim d pfx o1 o2) (hf : ∀ a b, SimC d pfx a b → SimC d pfx (f1 a) (f2 b)) :
    OptSim d pfx (o1.map f1) (o2.map f2) := by
  cases o1 <;> cases o2 <;> first | exact h | exact hf _ _ h

theorem optSim_mapAcc {o1 o2 : Option (LexState × List Char)}
    {f1 f2 : LexState × List Char → LexState}
    (h : OptSimAcc d pfx o1 o2)
    (hf : ∀ a b acc, SimC d pfx a b → SimC d pfx (f1 (a, acc)) (f2 (b, acc))) :
    OptSim d pfx (o1.map f1) (o2.map f2) := by
  cases o1 with
  | none => cases o2 <;> exact h
  | some a =>
    cases o2 with
    | none => exact h
    | some b =>
      obtain ⟨a1, a2⟩ := a
      obtain ⟨b1, b2⟩ := b
      obtain ⟨hs, hacc⟩ := h
      simp only at hacc
      subst hacc
      exact hf _ _ _ hs

theorem simC_skip {tk1 tk2 : List Token} {i1 i2 l1 l2 c1 c2 : Nat} {cur : Option Char}
    {e1 e2 : List LexError} (hi : i1 = i2 + d)
    (ht : tk1.map kindValue = pfx ++ tk2.map kindValue)
    (he : e1.map (fun e => e.character) = e2.map (fun e => e.character)) (n : Nat) :
    SimC d pfx ⟨tk1, i1 + n, l1, c1, cur, e1⟩ ⟨tk2, i2 + n, l2, c2, cur, e2⟩ where
  index := by simp only [hi]; omega
  tokens := ht
  errors := he
  current := rfl

theorem simC_report {tk1 tk2 : List Token} {i1 i2 l1 l2 c1 c2 : Nat} {cur : Option Char}
    {e1 e2 : List LexError} {c : Char} {filename : String} (hi : i1 = i2 + d)
    (ht : tk1.map kindValue = pfx ++ tk2.map kindValue)
    (he : e1.map (fun e => e.character) = e2.map (fun e => e.character)) :
    SimC d pfx ⟨tk1, i1, l1, c1, cur, e1 ++ [⟨c, filename, l1⟩]⟩
      ⟨tk2, i2, l2, c2, cur, e2 ++ [⟨c, filename, l2⟩]⟩ where
  index := hi
  tokens := ht
  errors := by simp [he]
  current := rfl

/-- The ladder run on corresponding variables gives corresponding variables. -/
theorem sim_lexChain (hag : Agree d t1 t2) (fuel : Nat) (filename : String)
    {s1 s2 : LexState} (h : SimC d pfx s1 s2) :
    OptSim d pfx (lexChain fuel filename t1 s1) (lexChain fuel filename t2 s2) := by
  unfold lexChain
  rw [simC_peekStr hag h 0 2, simC_peekStr hag h 0 3, simC_peek hag h 1, h.current]
  cases s2.current <;> dsimp only <;>
  repeat' first
    | refine optSim_ite ?_ ?_
    | exact optSim_map (sim_commentLoop hag fuel h) (fun a b hab => simC_next hag (simC_next hag hab))
    | exact optSim_mapAcc (sim_scanLoop hag _ fuel _ h) (fun a b acc hab => simC_push hab _ _)
    | exact optSim_mapAcc (sim_scanLoop hag _ fuel _ h) (fun a b acc hab => simC_pushWord hab _)
    | exact optSim_mapAcc (sim_scanCurLoop hag _ fuel _ (simC_next hag h))
        (fun a b acc hab => simC_push hab _ _)
    | exact optSim_mapAcc (sim_scanCurLoop hag _ fuel _ (simC_next hag h))
        (fun a b acc hab => simC_next hag (simC_push hab _ _))
    | exact optSim_mapAcc (sim_stringLoop hag _ fuel _ h)
        (fun a b acc hab => simC_next hag (simC_push hab _ _))
    | exact simC_next hag (simC_push h _ _)
    | exact simC_next hag (simC_next hag (simC_push h _ _))
    | exact h
    | exact simC_skip h.index h.tokens h.errors 3
    | exact simC_report h.index h.tokens h.errors

/-- One iteration of the main loop on corresponding variables. -/
theorem sim_lexStep (hag : Agree d t1 t2) (fuel : Nat) (filename : String)
    {s1 s2 : LexState} (h : Sim d pfx s1 s2) :
    OptSim d pfx (lexStep fuel filename t1 s1) (lexStep fuel filename t2 s2) := by
  unfold lexStep
  have hc : SimC d pfx { s1 with current := t1[s1.index]? } { s2 with current := t2[s2.index]? } :=
    ⟨h.index, h.tokens, h.errors, by simpa using hag.get h.index 0⟩
  dsimp only
  rw [show t1[s1.index]? = t2[s2.index]? from by simpa using hag.get h.index 0]
  split_ifs
  · apply sim_lexChain hag
    have := simC_next hag hc
    rw [show t1[s1.index]? = t2[s2.index]? from by simpa using hag.get h.index 0] at this
    exact this
  · apply sim_lexChain hag
    rw [show t1[s1.index]? = t2[s2.index]? from by simpa using hag.get h.index 0] at hc
    exact hc

theorem simC_toSim {s1 s2 : LexState} (h : SimC d pfx s1 s2) : Sim d pfx s1 s2 :=
  ⟨h.index, h.tokens, h.errors⟩

/-- The main loop on corresponding variables: both runs use up the fuel or
both exit, with the same kinds and values of tokens after the prefix. -/
theorem sim_lexLoop (hag : Agree d t1 t2) (fuel : Nat) (filename : String)
    {s1 s2 : LexState} (h : Sim d pfx s1 s2) :
    (lexLoop fuel filename t1 s1).map (fun r => r.tokens.map kindValue) =
    (lexLoop fuel filename t2 s2).map (fun r => pfx ++ r.tokens.map kindValue) := by
  induction fuel generalizing s1 s2 with
  | zero => rfl
  | succ n ih =>
    rw [lexLoop, lexLoop]
    by_cases hlt : s2.index < t2.length
    · rw [if_pos hlt, if_pos ((hag.lt_iff h.index).mpr hlt)]
      have hstep := sim_lexStep hag n filename h
      cases h1 : lexStep n filename t1 s1 with
      | none =>
        cases h2 : lexStep n filename t2 s2 with
        | none => rfl
        | some b => rw [h1, h2] at hstep; exact absurd hstep id
      | some a =>
        cases h2 : lexStep n filename t2 s2 with
        | none => rw [h1, h2] at hstep; exact absurd hstep id
        | some b =>
          rw [h1, h2] at hstep
          exact ih (simC_toSim hstep)
    · rw [if_neg hlt, if_neg (fun h' => hlt ((hag.lt_iff h.index).mp h'))]
      simp [h.tokens]

theorem agree_append (p t : List Char) : Agree p.length (p ++ t) t := by
  intro k
  rw [List.getElem?_append_right (Nat.le_add_left _ _)]
  simp

end Shift

/-- The two-character comparator branch: at one of `==`, `!=`, `>=`, `<=` one
iteration pushes one comparator token with that value and moves two
characters ahead. -/
theorem lexStep_comparator (c : List Char) (hc : c ∈ twoCharComparators)
    (pre r : List Char) (fuel : Nat) (filename : String) (s : LexState)
    (hs : s.index = pre.length) :
    lexStep fuel filename (pre ++ c ++ r) s =
      some { tokens := s.tokens ++ [⟨"comparator", .str c, s.line, s.column⟩],
             index := pre.length + 2, line := s.line, column := s.column + 2,
             current := r.head?, errors := s.errors } := by
  obtain ⟨tk, i, ln, col, cur, er⟩ := s
  simp only at hs
  subst hs
  simp only [twoCharComparators, List.mem_cons, List.mem_singleton, List.not_mem_nil,
    or_false] at hc
  have key : ∀ a b : Char, c = [a, b] →
      (pre ++ c ++ r)[pre.length]? = some a ∧ (pre ++ c ++ r)[pre.length + 1]? = some b ∧
      (pre ++ c ++ r)[pre.length + 2]? = r.head? ∧
      (pre ++ c ++ r)[pre.length + 1 + 1]? = r.head? := by
    rintro a b rfl
    have hdrop : (pre ++ [a, b] ++ r).drop pre.length = a :: b :: r := by
      simp [List.append_assoc]
    have h0 := getElem?_of_drop_eq hdrop 0
    have h1 := getElem?_of_drop_eq hdrop 1
    have h2 := getElem?_of_drop_eq hdrop 2
    simp only [Nat.add_zero, List.getElem?_cons_zero, List.getElem?_cons_succ] at h0 h1 h2
    refine ⟨h0, h1, ?_, ?_⟩
    · rw [h2, List.head?_eq_getElem?]
    · rw [Nat.add_assoc, h2, List.head?_eq_getElem?]
  rcases hc with rfl | rfl | rfl | rfl
  all_goals
    obtain ⟨h0, h1, h2, h3⟩ := key _ _ rfl
    generalize pre ++ _ ++ r = text at *
    simp [lexStep, lexChain, peekStr, jsStr, reTest, isSpaceRe, isDigitRe, isDigitDotRe, peek,
      h0, h1, h2, h3, comparators, pushToken, next]

/-- C8. `tokenize("--foo: 5;")` returns exactly the four tokens variable
`--foo`, assign `:`, float `5` and semi (for every fuel from 6 on); and in
general, at `--` followed by a run of word characters and dashes and then a
character outside that class, one iteration of the main loop pushes one
variable token whose value is the two dashes followed by that whole run, and
stops at the character after the run. -/
theorem C8_variable_token (filename : String) :
    (∀ n, tokenize (6 + n) "--foo: 5;".toList filename = some
      [⟨"variable", .str "--foo".toList, 1, 6⟩, ⟨"assign", .str ":".toList, 1, 6⟩,
       ⟨"float", .num (.dec false 5 0), 1, 9⟩, ⟨"semi", .str ";".toList, 1, 9⟩]) ∧
    (∀ (pre run : List Char) (c : Char) (rest : List Char) (fuel : Nat) (s : LexState),
      run.all isWordDashRe = true → isWordDashRe c = false → s.index = pre.length →
      lexStep (fuel + run.length + 2) filename (pre ++ "--".toList ++ run ++ c :: rest) s =
        some { tokens := s.tokens ++
                 [⟨"variable", .str ("--".toList ++ run), s.line, s.column + run.length + 2⟩],
               index := pre.length + 2 + run.length, line := s.line,
               column := s.column + run.length + 2, current := some c,
               errors := s.errors }) :=
  ⟨fun n => tokenize_add (by rfl) n,
   fun pre run c rest fuel s hrun hc hs =>
     lexStep_variable pre run c rest hrun hc fuel filename s hs⟩

/-- C8 at the text `--foo: 5;`: the first iteration pushes the variable `--foo`. -/
theorem C8_variable_token_witness :
    lexStep (0 + "foo".toList.length + 2) "main.csss"
        ([] ++ "--".toList ++ "foo".toList ++ ':' :: " 5;".toList) initState =
      some { tokens := [] ++ [⟨"variable", .str ("--".toList ++ "foo".toList), 1, 1 + 3 + 2⟩],
             index := 0 + 2 + 3, line := 1, column := 1 + 3 + 2, current := some ':',
             errors := [] } :=
  (C8_variable_token "main.csss").2 [] "foo".toList ':' " 5;".toList 0 initState
    (by decide) (by decide) rfl

/-- C9. For each of `==`, `!=`, `>=`, `<=` and every following text `r`, the
first iteration on `c ++ r` pushes exactly one comparator token with value
`c` and leaves the index at the start of `r`; the tokens of `c ++ r` are that
comparator followed by the tokens of `r` (kinds and values), so nothing else
is emitted for the first character of `c`. The text `>=` gives the single
token comparator `>=`. -/
theorem C9_two_char_comparator (c : List Char) (hc : c ∈ twoCharComparators)
    (r : List Char) (fuel : Nat) (filename : String) :
    lexStep fuel filename (c ++ r) initState =
      some { tokens := [⟨"comparator", .str c, 1, 1⟩], index := 2, line := 1, column := 3,
             current := r.head?, errors := [] } ∧
    (tokenize (fuel + 1) (c ++ r) filename).map (List.map kindValue) =
      (tokenize fuel r filename).map
        (fun ts => ("comparator", Value.str c) :: ts.map kindValue) ∧
    tokenize (2 + fuel) ">=".toList filename =
      some [⟨"comparator", .str ">=".toList, 1, 1⟩] := by
  have hstep := lexStep_comparator c hc [] r fuel filename initState rfl
  simp only [List.nil_append, List.length_nil, Nat.zero_add] at hstep
  have hlen : c.length = 2 := by
    simp only [twoCharComparators, List.mem_cons, List.mem_singleton, List.not_mem_nil,
      or_false] at hc
    rcases hc with rfl | rfl | rfl | rfl <;> rfl
  refine ⟨hstep, ?_, tokenize_add (by rfl) fuel⟩
  have hlt : initState.index < (c ++ r).length := by
    simp [initState, hlen]
  have hag : Agree 2 (c ++ r) r := hlen ▸ agree_append c r
  have hsim : Sim 2 [("comparator", Value.str c)]
      { tokens := [⟨"comparator", .str c, 1, 1⟩], index := 2, line := 1, column := 3,
        current := r.head?, errors := [] } initState :=
    ⟨rfl, rfl, rfl⟩
  have := sim_lexLoop hag fuel filename hsim
  simp only [tokenize, run, Option.map_map]
  rw [lexLoop, if_pos hlt, hstep]
  exact this

/-- C9 at the text `>=1;`. -/
theorem C9_two_char_comparator_witness :
    ">=".toList ∈ twoCharComparators ∧
    (tokenize (5 + 1) (">=".toList ++ "1;".toList) "main.csss").map (List.map kindValue) =
      (tokenize 5 "1;".toList "main.csss").map
        (fun ts => ("comparator", Value.str ">=".toList) :: ts.map kindValue) :=
  ⟨by decide, (C9_two_char_comparator ">=".toList (by decide) "1;".toList 5 "main.csss").2.1⟩

/-! ## The line of a report -/

theorem newlinesBefore_succ (text : List Char) (i : Nat) :
    newlinesBefore text (i + 1) =
      newlinesBefore text i + (if text[i]? = some '\n' then 1 else 0) := by
  unfold newlinesBefore
  rw [List.take_succ, List.count_append]
  cases h : text[i]? with
  | none => simp
  | some c =>
    by_cases hc : c = '\n'
    · subst hc; simp
    · simp [List.count_cons, hc]

section Invariant

variable {filename : String} {text : List Char}

theorem invC_toInv {s : LexState} (h : InvC filename text s) : Inv filename text s :=
  ⟨h.line, h.errors⟩

theorem invC_next {s : LexState} (h : InvC filename text s) :
    InvC filename text (next text s) where
  line := by
    show (if s.current = some '\n' then s.line + 1 else s.line) =
      1 + newlinesBefore text (s.index + 1)
    rw [newlinesBefore_succ, h.current, h.line]
    split_ifs <;> omega
  errors := h.errors
  current := rfl

theorem invC_push {s : LexState} (h : InvC filename text s) (type : String) (value : Value) :
    InvC filename text (pushToken s type value) :=
  ⟨h.line, h.errors, h.current⟩

theorem invC_pushWord {s : LexState} (h : InvC filename text s) (identifier : List Char) :
    InvC filename text (pushWord s identifier) := by
  unfold pushWord
  dsimp only
  split_ifs
  · exact invC_push h _ _
  · exact invC_push h _ _
  · exact invC_push h _ _

theorem commentLoop_inv {fuel : Nat} {s r : LexState} (h : InvC filename text s)
    (hr : commentLoop fuel text s = some r) : InvC filename text r := by
  induction fuel generalizing s with
  | zero => simp [commentLoop] at hr
  | succ n ih =>
    rw [commentLoop] at hr
    split_ifs at hr
    · exact ih (invC_next h) hr
    · exact Option.some.inj hr ▸ h

theorem scanLoop_inv {cls : Char → Bool} {fuel : Nat} {s : LexState} {acc : List Char}
    {r : LexState × List Char} (h : InvC filename text s)
    (hr : scanLoop cls fuel text s acc = some r) : InvC filename text r.1 := by
  induction fuel generalizing s acc with
  | zero => simp [scanLoop] at hr
  | succ n ih =>
    rw [scanLoop] at hr
    split_ifs at hr
    · exact ih (invC_next h) hr
    · exact Option.some.inj hr ▸ invC_next h

theorem scanCurLoop_inv {cls : Char → Bool} {fuel : Nat} {s : LexState} {acc : List Char}
    {r : LexState × List Char} (h : InvC filename text s)
    (hr : scanCurLoop cls fuel text s acc = some r) : InvC filename text r.1 := by
  induction fuel generalizing s acc with
  | zero => simp [scanCurLoop] at hr
  | succ n ih =>
    rw [scanCurLoop] at hr
    split_ifs at hr
    · exact ih (invC_next h) hr
    · exact Option.some.inj hr ▸ h

theorem stringLoop_inv {closing : Char} {fuel : Nat} {s : LexState} {acc : List Char}
    {r : LexState × List Char} (h : InvC filename text s)
    (hr : stringLoop closing fuel text s acc = some r) : InvC filename text r.1 := by
  induction fuel generalizing s acc with
  | zero => simp [stringLoop] at hr
  | succ n ih =>
    rw [stringLoop] at hr
    split_ifs at hr
    · exact ih (invC_next h) hr
    · exact Option.some.inj hr ▸ invC_next h

theorem ite_inv {P : Prop} {c : Prop} [Decidable c] {a b : Option LexState} {r : LexState}
    (ha : c → a = some r → P) (hb : ¬ c → b = some r → P) :
    (if c then a else b) = some r → P := by
  split_ifs with hc
  · exact ha hc
  · exact hb hc

theorem map_inv {α : Type} {P : LexState → Prop} {o : Option α} {f : α → LexState}
    {r : LexState} (h : ∀ a, o = some a → P (f a)) : o.map f = some r → P r := by
  cases o with
  | none => intro hr; simp at hr
  | some a =>
    intro hr
    simp only [Option.map_some', Option.some.injEq] at hr
    exact hr ▸ h a rfl

theorem some_inv {P : LexState → Prop} {x r : LexState} (h : P x) : some x = some r → P r :=
  fun hr => Option.some.inj hr ▸ h

theorem peekStr_three_var {s : LexState} (h : peekStr text s 0 3 = "var".toList) :
    text[s.index]? = some 'v' ∧ text[s.index + 1]? = some 'a' ∧
      text[s.index + 2]? = some 'r' := by
  simp only [peekStr, List.nil_append, Nat.add_zero] at h
  cases h0 : text[s.index]? with
  | none => rw [h0] at h; simp [jsStr, undefinedStr] at h
  | some a =>
    cases h1 : text[s.index + 1]? with
    | none => rw [h0, h1] at h; simp [jsStr, undefinedStr] at h
    | some b =>
      cases h2 : text[s.index + 2]? with
      | none => rw [h0, h1, h2] at h; simp [jsStr, undefinedStr] at h
      | some c =>
        rw [h0, h1, h2] at h
        simp [jsStr] at h
        simp [h.1, h.2.1, h.2.2]

theorem inv_skip_var {s : LexState} (h : InvC filename text s)
    (hv : peekStr text s 0 3 = "var".toList) (cur : Option Char) :
    Inv filename text ⟨s.tokens, s.index + 3, s.line, s.column, cur, s.errors⟩ where
  line := by
    obtain ⟨h0, h1, h2⟩ := peekStr_three_var hv
    show s.line = 1 + newlinesBefore text (s.index + 2 + 1)
    rw [newlinesBefore_succ, newlinesBefore_succ, newlinesBefore_succ, h0, h1, h2, h.line]
    simp
  errors := h.errors

theorem inv_report {s : LexState} {c : Char} (h : InvC filename text s)
    (hc : s.current = some c) (cur : Option Char) :
    Inv filename text ⟨s.tokens, s.index, s.line, s.column, cur,
      s.errors ++ [⟨c, filename, s.line⟩]⟩ where
  line := h.line
  errors := by
    intro e he
    rcases List.mem_append.mp he with he | he
    · exact h.errors e he
    · rw [List.mem_singleton.mp he]
      exact ⟨s.index, by rw [← h.current, hc], h.line, rfl⟩

/-- The ladder keeps the line of the state right and adds only good reports. -/
theorem lexChain_inv {fuel : Nat} {s r : LexState} (h : InvC filename text s) :
    lexChain fuel filename text s = some r → Inv filename text r := by
  unfold lexChain
  cases hcur : s.current <;> dsimp only <;>
  repeat' first
    | refine ite_inv (fun _ => ?_) (fun _ => ?_)
    | exact map_inv (fun a ha => invC_toInv (invC_next (invC_next (commentLoop_inv h ha))))
    | exact map_inv (fun a ha => invC_toInv (invC_push (scanLoop_inv h ha) _ _))
    | exact map_inv (fun a ha => invC_toInv (invC_pushWord (scanLoop_inv h ha) _))
    | exact map_inv (fun a ha => invC_toInv (invC_push (scanCurLoop_inv (invC_next h) ha) _ _))
    | exact map_inv (fun a ha => invC_toInv (invC_next (invC_push (scanCurLoop_inv (invC_next h) ha) _ _)))
    | exact map_inv (fun a ha => invC_toInv (invC_next (invC_push (stringLoop_inv h ha) _ _)))
    | exact some_inv (invC_toInv (invC_next (invC_push h _ _)))
    | exact some_inv (invC_toInv (invC_next (invC_next (invC_push h _ _))))
    | exact some_inv (invC_toInv h)
    | exact some_inv (inv_skip_var h (by assumption) _)
    | exact some_inv (inv_report h hcur _)

theorem lexStep_inv {fuel : Nat} {s r : LexState} (h : Inv filename text s)
    (hr : lexStep fuel filename text s = some r) : Inv filename text r := by
  unfold lexStep at hr
  have hc : InvC filename text { s with current := text[s.index]? } := ⟨h.line, h.errors, rfl⟩
  dsimp only at hr
  split_ifs at hr
  · exact lexChain_inv (invC_next hc) hr
  · exact lexChain_inv hc hr

theorem reachable_inv {s : LexState} (h : Reachable filename text s) : Inv filename text s := by
  induction h with
  | init => exact ⟨by simp [initState, newlinesBefore], by simp [initState]⟩
  | step _ _ hstep ih => exact lexStep_inv ih hstep

end Invariant

theorem dotLetterRe_jsStr (x : Option Char) : dotLetterRe (jsStr x) = false := by
  cases x with
  | none => decide
  | some d => simp [jsStr, dotLetterRe]

/-- At an unrecognized character the iteration takes the last branch: it
reports the character at the current line and changes nothing else. -/
theorem lexStep_unrecognized {text : List Char} {c : Char} (hc : isUnrecognized c = true)
    (fuel : Nat) (filename : String) (s : LexState) (hcur : text[s.index]? = some c) :
    lexStep fuel filename text s =
      some { s with current := some c, errors := s.errors ++ [⟨c, filename, s.line⟩] } := by
  have hne : ∀ x : Char, isUnrecognized x = false → c ≠ x := by
    rintro x hx rfl
    rw [hc] at hx
    exact absurd hx (by decide)
  have hsp : isSpaceRe c = false := by
    simp only [isUnrecognized, Bool.not_eq_true', Bool.or_eq_false_iff] at hc
    exact hc.1.1.1
  have hid : isIdentRe c = false := by
    simp only [isUnrecognized, Bool.not_eq_true', Bool.or_eq_false_iff] at hc
    exact hc.1.1.2
  have hq : isQuoteRe c = false := by
    simp only [isUnrecognized, Bool.not_eq_true', Bool.or_eq_false_iff] at hc
    exact hc.1.2
  have hdig : isDigitRe c = false := by
    simp only [isIdentRe, Bool.or_eq_false_iff] at hid
    exact hid.1.2
  have hcode : c.toNat ≠ 9 ∧ c.toNat ≠ 10 ∧ c.toNat ≠ 32 := by
    refine ⟨?_, ?_, ?_⟩ <;> intro h
    · exact hne '\t' (by decide) (by rw [← Char.ofNat_toNat c, h])
    · exact hne '\n' (by decide) (by rw [← Char.ofNat_toNat c, h])
    · exact hne ' ' (by decide) (by rw [← Char.ofNat_toNat c, h])
  have hdl : dotLetterRe (c :: jsStr text[s.index + 1]?) = false := by
    simp [dotLetterRe, dotLetterRe_jsStr, hne '.' (by decide)]
  have hjs : jsStr (some c) = [c] := rfl
  simp only [lexStep, lexChain, peekStr, Nat.add_zero, List.nil_append]
  simp only [hcur, reTest_some, hsp, hid, hq, hdig, hjs, List.singleton_append, hdl,
    List.cons_append]
  simp [hne '/' (by decide), hne '@' (by decide), hne '(' (by decide), hne ')' (by decide),
    hne '{' (by decide), hne '}' (by decide), hne '[' (by decide), hne ']' (by decide),
    hne ';' (by decide), hne 'v' (by decide), hne '-' (by decide), hne '.' (by decide),
    hne '=' (by decide), hne '!' (by decide), hne '>' (by decide), hne '<' (by decide),
    hne '+' (by decide), hne '*' (by decide), hne '%' (by decide), hne '^' (by decide),
    hne '&' (by decide), hne '|' (by decide), hne ':' (by decide), hne ',' (by decide),
    hne '#' (by decide), comparators, arithmetics, logics, hasChar, hcode, hcur, hjs,
    reTest_some, hsp, hid, hq, hdig, hdl]

end Lexer

/-! ## More fuel never changes a finished parse -/

theorem resLe_refl {ε α : Type} (a : Res ε α) : Res.Le a a := Or.inr rfl

theorem resLe_bind {ε α β : Type} {a a' : Res ε α} {g g' : α → Res ε β}
    (h : Res.Le a a') (hg : ∀ x, Res.Le (g x) (g' x)) : Res.Le (a.bind g) (a'.bind g') := by
  rcases h with h | h
  · left; rw [h]; rfl
  · subst h
    cases a with
    | ok x => exact hg x
    | fault e => exact Or.inr rfl
    | timeout => exact Or.inl rfl

theorem resLe_ite {ε α : Type} {c : Prop} [Decidable c] {a a' b b' : Res ε α}
    (ha : Res.Le a a') (hb : Res.Le b b') :
    Res.Le (if c then a else b) (if c then a' else b') := by
  split_ifs <;> assumption

theorem resLe_trans {ε α : Type} {a b c : Res ε α} (hab : Res.Le a b) (hbc : Res.Le b c) :
    Res.Le a c := by
  rcases hab with h | h
  · exact Or.inl h
  · exact h ▸ hbc

theorem resLe_eq_of_ok {ε α : Type} {a b : Res ε α} {x : α} (h : Res.Le a b)
    (ha : a = .ok x) : b = .ok x := by
  rcases h with h | h
  · rw [ha] at h; cases h
  · rw [← h, ha]

namespace Parse

open Lexer (Token)

theorem walk_le_succ (fuel : Nat) :
    (∀ filename validTags tokens closeFunction s,
      Res.Le (walkThrough fuel filename validTags tokens closeFunction s)
        (walkThrough (fuel + 1) filename validTags tokens closeFunction s)) ∧
    (∀ filename validTags tokens closeFunction s,
      Res.Le (walkLoop fuel filename validTags tokens closeFunction s)
        (walkLoop (fuel + 1) filename validTags tokens closeFunction s)) ∧
    (∀ filename validTags tokens closeFunction s,
      Res.Le (walk fuel filename validTags tokens closeFunction s)
        (walk (fuel + 1) filename validTags tokens closeFunction s)) := by
  induction fuel with
  | zero =>
    refine ⟨?_, ?_, ?_⟩ <;> intros <;> exact Or.inl rfl
  | succ n ih =>
    obtain ⟨ihT, ihL, ihW⟩ := ih
    refine ⟨?_, ?_, ?_⟩
    · intro filename validTags tokens closeFunction s
      rw [walkThrough, walkThrough]
      exact ihL _ _ _ _ _
    · intro filename validTags tokens closeFunction s
      rw [walkLoop, walkLoop]
      refine resLe_bind (ihW _ _ _ _ _) (fun w => resLe_ite (resLe_refl _) ?_)
      exact resLe_bind (ihL _ _ _ _ _) (fun _ => resLe_refl _)
    · intro filename validTags tokens closeFunction s
      rw [walk, walk]
      cases s.token with
      | none => exact resLe_refl _
      | some token =>
        dsimp only
        repeat' first
          | refine resLe_ite ?_ ?_
          | refine resLe_bind ?_ (fun _ => ?_)
          | exact ihT _ _ _ _ _
          | exact resLe_refl _

theorem walkThrough_le_add (fuel n : Nat) (filename : String) (validTags : List (List Char))
    (tokens : List Token) (closeFunction : Token → Bool) (s : PState) :
    Res.Le (walkThrough fuel filename validTags tokens closeFunction s)
      (walkThrough (fuel + n) filename validTags tokens closeFunction s) := by
  induction n with
  | zero => exact resLe_refl _
  | succ n ih => exact resLe_trans ih ((walk_le_succ (fuel + n)).1 _ _ _ _ _)

/-- A finished parse stays the same with more fuel. -/
theorem run_add {fuel : Nat} {validTags : List (List Char)} {tokens : List Token}
    {filename : String} {r : Node × PState}
    (h : run fuel validTags tokens filename = .ok r) (n : Nat) :
    run (fuel + n) validTags tokens filename = .ok r := by
  have hle : Res.Le (run fuel validTags tokens filename)
      (run (fuel + n) validTags tokens filename) :=
    resLe_bind (walkThrough_le_add fuel n _ _ _ _ _) (fun _ => resLe_refl _)
  exact resLe_eq_of_ok hle h

/-- C1. The text `@if (--x == 1) { color: red; }` lexes to twelve tokens, and
the parser returns a Program with two children, a parenthesis group holding
the variable and the number and a property declaration, and logs the
comparator and the opening brace as unexpected: there is no `if` block,
because the walk starts at the second token. -/
theorem C1_if_text_yields_no_if_block (filename : String) (validTags : List (List Char))
    (n : Nat) :
    Lexer.tokenize (40 + n) "@if (--x == 1) \x7b color: red; \x7d".toList filename = some ifTokens ∧
    run (12 + n) validTags ifTokens filename = .ok
      (.program
        [.par [.variable (.str "--x".toList),
               .number (.str "plain".toList) (.dec false 1 0)],
         .property (.str "color".toList) [.value (.str "red".toList)]],
       { index := 11, line := .num (.dec false 1 0),
         token := some ⟨"rcurb", .str "\x7d".toList, 1, 30⟩,
         log := [.unexpected "comparator" (.str "==".toList) (.num (.dec false 1 0)) filename,
                 .unexpected "lcurb" (.str "\x7b".toList) (.num (.dec false 1 0)) filename] }) :=
  ⟨Lexer.tokenize_add (by rfl) n,
   run_add (by
     simp [run, walkThrough, walkLoop, walk, Res.bind, next, nextAux, peek, peekList, ifTokens,
       checkOpening, dropped, currentValue,
       looseEq, inList, initState, parseFloatValue, validUnits]) n⟩

/-- C2. The text `--foo: 5;` lexes to four tokens, and the parser returns a
Program whose only child is the number 5 and logs the assign token as
unexpected: there is no Assignment, because the walk starts at the second
token. -/
theorem C2_assignment_text_yields_no_assignment (filename : String)
    (validTags : List (List Char)) (n : Nat) :
    Lexer.tokenize (6 + n) "--foo: 5;".toList filename = some fooTokens ∧
    run (40 + n) validTags fooTokens filename = .ok
      (.program [.number (.str "plain".toList) (.dec false 5 0)],
       { index := 3, line := .num (.dec false 1 0),
         token := some ⟨"semi", .str ";".toList, 1, 9⟩,
         log := [.unexpected "assign" (.str ":".toList) (.num (.dec false 1 0)) filename] }) :=
  ⟨Lexer.tokenize_add (by rfl) n, run_add (by rfl) n⟩

end Parse

namespace Preproc

/-! ## More fuel never changes a finished expansion -/

theorem outLe_refl (a : Outcome) : Outcome.Le a a := Or.inr rfl

theorem outLe_trans {a b c : Outcome} (hab : Outcome.Le a b) (hbc : Outcome.Le b c) :
    Outcome.Le a c := by
  rcases hab with h | h
  · exact Or.inl h
  · exact h ▸ hbc

theorem outLe_bind {a a' : Outcome} {k k' : List Char → PreState → Outcome}
    (h : Outcome.Le a a') (hk : ∀ t st, Outcome.Le (k t st) (k' t st)) :
    Outcome.Le (a.bind k) (a'.bind k') := by
  rcases h with h | h
  · left; rw [h]; rfl
  · subst h
    cases a with
    | ok t st => exact hk t st
    | crit e st => exact Or.inr rfl
    | timeout => exact Or.inl rfl

theorem outLe_ite {c : Prop} [Decidable c] {a a' b b' : Outcome}
    (ha : Outcome.Le a a') (hb : Outcome.Le b b') :
    Outcome.Le (if c then a else b) (if c then a' else b') := by
  split_ifs <;> assumption

theorem skipLoop_succ {fuel : Nat} {text : List Char} {i j : Nat}
    (h : commentLoop fuel text i = some j) : commentLoop (fuel + 1) text i = some j := by
  induction fuel generalizing i with
  | zero => simp [commentLoop] at h
  | succ n ih =>
    rw [commentLoop] at h
    rw [commentLoop]
    split_ifs at h ⊢
    · exact h
    · exact ih h

theorem outLe_afterLoop {o o' : Option Nat} {k k' : Nat → Outcome}
    (h : ∀ j, o = some j → o' = some j) (hk : ∀ i, Outcome.Le (k i) (k' i)) :
    Outcome.Le (Outcome.afterLoop o k) (Outcome.afterLoop o' k') := by
  cases o with
  | none => exact Or.inl rfl
  | some j => rw [h j rfl]; exact hk j

theorem expand_le_succ (fuel : Nat) :
    (∀ config text location filename stack st,
      Outcome.Le (searchRequire fuel config text location filename stack st)
        (searchRequire (fuel + 1) config text location filename stack st)) ∧
    (∀ config text i location filename stack st,
      Outcome.Le (scan fuel config text i location filename stack st)
        (scan (fuel + 1) config text i location filename stack st)) ∧
    (∀ config string filename location stack st,
      Outcome.Le (parseRequire fuel config string filename location stack st)
        (parseRequire (fuel + 1) config string filename location stack st)) := by
  induction fuel with
  | zero => refine ⟨?_, ?_, ?_⟩ <;> intros <;> exact Or.inl rfl
  | succ n ih =>
    obtain ⟨ihS, ihC, ihP⟩ := ih
    refine ⟨?_, ?_, ?_⟩
    · intro config text location filename stack st
      rw [searchRequire, searchRequire]
      exact outLe_ite (outLe_refl _)
        (outLe_bind (ihC _ _ _ _ _ _ _) (fun _ _ => outLe_refl _))
    · intro config text i location filename stack st
      rw [scan, scan]
      refine outLe_ite ?_ (outLe_refl _)
      refine outLe_afterLoop ?_ (fun i => ?_)
      · intro j
        split_ifs
        · intro h
          cases hc : commentLoop n text i with
          | none => rw [hc] at h; simp at h
          | some j' => rw [hc] at h; rw [skipLoop_succ hc]; exact h
        · exact id
      · refine outLe_ite (outLe_ite (outLe_refl _) ?_) (ihC _ _ _ _ _ _ _)
        exact outLe_bind (ihP _ _ _ _ _ _) (fun _ _ => ihC _ _ _ _ _ _ _)
    · intro config string filename location stack st
      rw [parseRequire, parseRequire]
      cases (findFile string filename location st).1 with
      | none => exact outLe_refl _
      | some foundFile =>
        dsimp only
        cases config.readFile (location ++ "/".toList ++ foundFile) with
        | none => exact outLe_refl _
        | some fileContents => exact ihS _ _ _ _ _ _

theorem searchRequire_le_add (fuel n : Nat) (config : Config)
    (text location filename : List Char) (stack : List (List Char)) (st : PreState) :
    Outcome.Le (searchRequire fuel config text location filename stack st)
      (searchRequire (fuel + n) config text location filename stack st) := by
  induction n with
  | zero => exact outLe_refl _
  | succ n ih => exact outLe_trans ih ((expand_le_succ (fuel + n)).1 _ _ _ _ _ _)

/-- An expansion that has finished, with a text or a fault, stays the same
with more fuel. -/
theorem expand_add {fuel : Nat} {config : Config} {text location filename : List Char}
    {o : Outcome} (h : expand fuel config text location filename = o) (ho : o ≠ .timeout)
    (n : Nat) : expand (fuel + n) config text location filename = o := by
  rcases searchRequire_le_add fuel n config text location filename [] ⟨[], []⟩ with hle | hle
  · exact absurd (h ▸ hle) ho
  · show searchRequire (fuel + n) config text location filename [] ⟨[], []⟩ = o
    rw [← hle]
    exact h

/-- An expansion that has finished has the same outcome for every fuel that
does not run out. -/
theorem expand_det {fuel fuel' : Nat} {config : Config} {text location filename : List Char}
    {o : Outcome} (h : expand fuel config text location filename = o) (ho : o ≠ .timeout) :
    expand fuel' config text location filename = o ∨
      expand fuel' config text location filename = .timeout := by
  rcases Nat.le_total fuel fuel' with hle | hle
  · obtain ⟨d, rfl⟩ := Nat.exists_eq_add_of_le hle
    exact Or.inl (expand_add h ho d)
  · obtain ⟨d, rfl⟩ := Nat.exists_eq_add_of_le hle
    rcases searchRequire_le_add fuel' d config text location filename [] ⟨[], []⟩ with hl | hl
    · exact Or.inr hl
    · left
      show searchRequire fuel' config text location filename [] ⟨[], []⟩ = o
      rw [hl]
      exact h

/-! ## Expansions that never return -/

theorem pairIs_close {text : List Char} {i : Nat} (h : pairIs text i "*/".toList = true) :
    text[i]? = some '*' ∧ text[i + 1]? = some '/' := by
  unfold pairIs at h
  cases h0 : text[i]? with
  | none => rw [h0] at h; simp at h
  | some c =>
    rw [h0] at h
    cases h1 : text[i + 1]? with
    | none => rw [h1] at h; simp [jsStr, undefinedStr] at h
    | some d =>
      rw [h1] at h
      simp [jsStr] at h
      simp [h.1, h.2]

theorem skipLoop_none {text : List Char} (fuel : Nat) (i : Nat)
    (h : Lexer.noClose (text.drop i) = true) : commentLoop fuel text i = none := by
  induction fuel generalizing i with
  | zero => rfl
  | succ n ih =>
    rw [commentLoop]
    have h1 : ¬ pairIs text i "*/".toList = true :=
      fun hp => Lexer.noClose_drop h (Nat.le_refl _) (pairIs_close hp)
    rw [if_neg h1]
    apply ih
    have : ∀ (l : List Char) (j : Nat), Lexer.noClose (l.drop j) = true →
        Lexer.noClose (l.drop (j + 1)) = true := by
      intro l
      induction l with
      | nil => intro j _; simp [Lexer.noClose]
      | cons c rest ihl =>
        intro j hj
        cases j with
        | zero =>
          simp only [List.drop_zero, Lexer.noClose, Bool.and_eq_true] at hj
          simpa using hj.2
        | succ j => simpa using ihl j (by simpa using hj)
    exact this text i h

theorem timeout_of_le_timeout {a b : Outcome} (h : Outcome.Le a b) (hb : b = .timeout) :
    a = .timeout := by
  rcases h with h | h
  · exact h
  · rw [h, hb]

theorem afterLoop_some (i : Nat) (k : Nat → Outcome) : Outcome.afterLoop (some i) k = k i := rfl

theorem afterLoop_none (k : Nat → Outcome) : Outcome.afterLoop none k = .timeout := rfl

theorem bind_timeout (k : List Char → PreState → Outcome) : Outcome.bind .timeout k = .timeout :=
  rfl

/-- C3. A root text that ends inside a block comment, here `/* open`, has no
directive at all, yet its expansion never returns: the loop that skips the
comment runs past the end of the text, whatever the file system and for every
recursion limit of at least 1. -/
theorem C3_open_comment_never_expands (config : Config) (hL : 1 ≤ config.recursionLimit) :
    NeverExpands config "/* open".toList ".".toList "main.csss".toList := by
  intro fuel
  apply timeout_of_le_timeout
    (searchRequire_le_add fuel 40 config "/* open".toList ".".toList "main.csss".toList []
      ⟨[], []⟩)
  have hcount : ¬ ([] : List (List Char)).count (".".toList ++ "/".toList ++ "main.csss".toList)
      ≥ config.recursionLimit := by
    simp only [List.count_nil]
    omega
  have hm : commentLoop (fuel + 38) openCommentScan 0 = some 28 := by
    have h0 : commentLoop 30 openCommentScan 0 = some 28 := by decide
    have : ∀ k, commentLoop (30 + k) openCommentScan 0 = some 28 := by
      intro k
      induction k with
      | zero => exact h0
      | succ k ih => exact skipLoop_succ ih
    rw [show fuel + 38 = 30 + (fuel + 8) from by omega]
    exact this _
  have hlen : 0 < openCommentScan.length := by decide
  have hp : pairIs openCommentScan 0 "/*".toList = true := by decide
  have h29 : ¬ (openCommentScan[28 + 1]? = some '@' ∧
      substr openCommentScan (28 + 1 + 1) 7 = "require".toList) := by decide
  have hlen2 : 28 + 1 + 1 < openCommentScan.length := by decide
  have hp2 : pairIs openCommentScan (28 + 1 + 1) "/*".toList = true := by decide
  have hnc : Lexer.noClose (openCommentScan.drop (28 + 1 + 1)) = true := by decide
  rw [show fuel + 40 = (fuel + 39) + 1 from rfl, searchRequire, if_neg hcount]
  rw [show fuel + 39 = (fuel + 38) + 1 from rfl]
  rw [show openTag ".".toList "main.csss".toList ++ stripShebang "/* open".toList =
    openCommentScan from rfl]
  rw [scan, if_pos hlen, if_pos hp, hm, Option.map_some', afterLoop_some, if_neg h29]
  rw [show fuel + 38 = (fuel + 37) + 1 from rfl]
  rw [scan, if_pos hlen2, if_pos hp2, skipLoop_none _ _ hnc, Option.map_none',
    afterLoop_none, bind_timeout]

/-- C3 at the file system with no file and the limit 1. -/
theorem C3_open_comment_never_expands_witness :
    expand 1000 ⟨1, fun _ => none⟩ "/* open".toList ".".toList "main.csss".toList = .timeout :=
  C3_open_comment_never_expands ⟨1, fun _ => none⟩ (by decide) 1000

/-! ## A larger recursion limit keeps a finished expansion -/

theorem okImp_refl (a : Outcome) : OkImp a a := fun _ _ h => h

theorem okImp_bind {a a' : Outcome} {k k' : List Char → PreState → Outcome}
    (h : OkImp a a') (hk : ∀ t st, OkImp (k t st) (k' t st)) :
    OkImp (a.bind k) (a'.bind k') := by
  intro t st hok
  cases a with
  | ok t1 st1 =>
    rw [h t1 st1 rfl]
    exact hk t1 st1 t st hok
  | crit e st1 => cases hok
  | timeout => cases hok

theorem okImp_ite {c : Prop} [Decidable c] {a a' b b' : Outcome}
    (ha : OkImp a a') (hb : OkImp b b') :
    OkImp (if c then a else b) (if c then a' else b') := by
  split_ifs <;> assumption

theorem okImp_afterLoop {o : Option Nat} {k k' : Nat → Outcome}
    (hk : ∀ i, OkImp (k i) (k' i)) :
    OkImp (Outcome.afterLoop o k) (Outcome.afterLoop o k') := by
  cases o with
  | none => exact okImp_refl _
  | some j => exact hk j

theorem limit_mono (fuel : Nat) (limit limit' : Nat) (hl : limit ≤ limit')
    (readFile : List Char → Option (List Char)) :
    (∀ text location filename stack st,
      OkImp (searchRequire fuel ⟨limit, readFile⟩ text location filename stack st)
        (searchRequire fuel ⟨limit', readFile⟩ text location filename stack st)) ∧
    (∀ text i location filename stack st,
      OkImp (scan fuel ⟨limit, readFile⟩ text i location filename stack st)
        (scan fuel ⟨limit', readFile⟩ text i location filename stack st)) ∧
    (∀ string filename location stack st,
      OkImp (parseRequire fuel ⟨limit, readFile⟩ string filename location stack st)
        (parseRequire fuel ⟨limit', readFile⟩ string filename location stack st)) := by
  induction fuel with
  | zero => refine ⟨?_, ?_, ?_⟩ <;> intros <;> exact okImp_refl _
  | succ n ih =>
    obtain ⟨ihS, ihC, ihP⟩ := ih
    refine ⟨?_, ?_, ?_⟩
    · intro text location filename stack st
      rw [searchRequire, searchRequire]
      dsimp only
      by_cases hc : stack.count (location ++ "/".toList ++ filename) ≥ limit'
      · rw [if_pos hc, if_pos (Nat.le_trans hl hc)]
        intro t st' h
        cases h
      · rw [if_neg hc]
        split_ifs
        · intro t st' h
          cases h
        · exact okImp_bind (ihC _ _ _ _ _ _) (fun _ _ => okImp_refl _)
    · intro text i location filename stack st
      rw [scan, scan]
      refine okImp_ite ?_ (okImp_refl _)
      refine okImp_afterLoop (fun i => ?_)
      refine okImp_ite (okImp_ite (okImp_refl _) ?_) (ihC _ _ _ _ _ _)
      exact okImp_bind (ihP _ _ _ _ _) (fun _ _ => ihC _ _ _ _ _ _)
    · intro string filename location stack st
      rw [parseRequire, parseRequire]
      cases (findFile string filename location st).1 with
      | none => exact okImp_refl _
      | some foundFile =>
        dsimp only
        cases readFile (location ++ "/".toList ++ foundFile) with
        | none => exact okImp_refl _
        | some fileContents => exact ihS _ _ _ _ _

/-! ## The diamond -/

/-! ## The scan at the opening tag and at a directive -/

theorem pairIs_of_get {text : List Char} {i : Nat} {a b : Char}
    (h0 : text[i]? = some a) (h1 : text[i + 1]? = some b) (s : List Char) :
    pairIs text i s = ([a, b] == s) := by
  simp [pairIs, h0, h1, jsStr]

theorem pairIs_false_of_head {text : List Char} {i : Nat} {a x y : Char}
    (h0 : text[i]? = some a) (ha : a ≠ x) : pairIs text i [x, y] = false := by
  simp [pairIs, h0, ha]

theorem commentLoop_skip {text : List Char} {i : Nat} {c : Char} (fuel : Nat)
    (h0 : text[i]? = some c) (hc : c ≠ '*') :
    commentLoop (fuel + 1) text i = commentLoop fuel text (i + 1) := by
  rw [commentLoop, if_neg]
  rw [show "*/".toList = ['*', '/'] from rfl, pairIs_false_of_head h0 hc]
  simp

theorem commentLoop_skip_run {text : List Char} (x rest : List Char) (hx : ∀ c ∈ x, c ≠ '*')
    (fuel i : Nat) (hdrop : text.drop i = x ++ rest) :
    commentLoop (fuel + x.length) text i = commentLoop fuel text (i + x.length) := by
  induction x generalizing i with
  | nil => rfl
  | cons c x ih =>
    have h0 : text[i]? = some c := by
      have := Lexer.getElem?_of_drop_eq hdrop 0
      simpa using this
    have hdrop' : text.drop (i + 1) = x ++ rest := by
      rw [← List.drop_drop, hdrop]
      rfl
    rw [show fuel + (c :: x).length = (fuel + x.length) + 1 from by
      simp only [List.length_cons]; omega,
      commentLoop_skip _ h0 (hx c (List.mem_cons_self _ _)),
      ih (fun d hd => hx d (List.mem_cons_of_mem _ hd)) (i + 1) hdrop']
    simp only [List.length_cons]
    congr 1
    omega

theorem commentLoop_found {text : List Char} {i : Nat} (fuel : Nat)
    (h0 : text[i]? = some '*') (h1 : text[i + 1]? = some '/') :
    commentLoop (fuel + 1) text i = some i := by
  rw [commentLoop, if_pos]
  rw [pairIs_of_get h0 h1]
  rfl

theorem openTag_eq (location filename : List Char) :
    openTag location filename = '/' :: '*' :: (tagBody location filename ++ ['*', '/']) := by
  simp [openTag, tagBody, List.append_assoc]

theorem openTag_length (location filename : List Char) :
    (openTag location filename).length = (tagBody location filename).length + 4 := by
  rw [openTag_eq]
  simp

theorem tagBody_no_star {location filename : List Char} (hl : ∀ c ∈ location, c ≠ '*')
    (hf : ∀ c ∈ filename, c ≠ '*') : ∀ c ∈ tagBody location filename, c ≠ '*' := by
  intro c hc
  simp only [tagBody, List.mem_append] at hc
  rcases hc with (((hc | hc) | hc) | hc) | hc
  · rintro rfl; revert hc; decide
  · exact hl c hc
  · rintro rfl; revert hc; decide
  · exact hf c hc
  · rintro rfl; revert hc; decide

/-- The loop that skips the opening tag stops at the `*` that closes it. -/
theorem commentLoop_openTag {location filename : List Char} (hl : ∀ c ∈ location, c ≠ '*')
    (hf : ∀ c ∈ filename, c ≠ '*') (rest : List Char) (fuel : Nat) :
    commentLoop (fuel + (openTag location filename).length)
        (openTag location filename ++ rest) 0 =
      some ((tagBody location filename).length + 2) := by
  have htext : openTag location filename ++ rest =
      '/' :: '*' :: (tagBody location filename ++ '*' :: '/' :: rest) := by
    rw [openTag_eq]; simp
  rw [openTag_length, htext]
  generalize hT : '/' :: '*' :: (tagBody location filename ++ '*' :: '/' :: rest) = text
  have h0 : text[0]? = some '/' := by rw [← hT]; rfl
  have h1 : text[0 + 1]? = some '*' := by rw [← hT]; rfl
  have h2 : text[0 + 1 + 1]? = (tagBody location filename ++ '*' :: '/' :: rest)[0]? := by
    rw [← hT]; rfl
  have hdrop : text.drop (0 + 1 + 1) = tagBody location filename ++ '*' :: '/' :: rest := by
    rw [← hT]; rfl
  have hb0 : text[0 + 1 + 1 + (tagBody location filename).length]? = some '*' := by
    have := Lexer.getElem?_of_drop_eq hdrop (tagBody location filename).length
    rw [this, List.getElem?_append_right (Nat.le_refl _)]
    simp
  have hb1 : text[0 + 1 + 1 + (tagBody location filename).length + 1]? = some '/' := by
    have := Lexer.getElem?_of_drop_eq hdrop ((tagBody location filename).length + 1)
    rw [Nat.add_assoc, this, List.getElem?_append_right (Nat.le_succ _)]
    simp
  rw [show fuel + ((tagBody location filename).length + 4) =
      (fuel + 1 + (tagBody location filename).length + 1) + 1 + 1 from by omega,
    commentLoop_skip _ h0 (by decide)]
  have hstar : commentLoop ((fuel + 1 + (tagBody location filename).length + 1) + 1) text (0 + 1) =
      commentLoop (fuel + 1 + (tagBody location filename).length + 1) text (0 + 1 + 1) := by
    rw [commentLoop, if_neg]
    have hne : (tagBody location filename ++ '*' :: '/' :: rest)[0]? = some ' ' := by
      simp [tagBody, List.append_assoc]
    rw [pairIs_of_get h1 (h2.trans hne)]
    decide
  rw [hstar, show fuel + 1 + (tagBody location filename).length + 1 =
      (fuel + 1 + 1) + (tagBody location filename).length from by omega,
    commentLoop_skip_run _ _ (tagBody_no_star hl hf) _ _ hdrop,
    commentLoop_found _ hb0 hb1]
  congr 1
  omega

theorem stripShebang_of_head {text : List Char} (h : text.head? ≠ some '#') :
    stripShebang text = text := by
  unfold stripShebang
  rw [if_neg]
  intro hs
  apply h
  cases text with
  | nil => simp [substr] at hs
  | cons c rest =>
    cases rest with
    | nil => simp [substr] at hs
    | cons d rest' =>
      simp [substr] at hs
      simp [hs.1]

/-- The first iteration of the scan skips the opening tag, when the loop
that skips it has fuel enough to reach its end. -/
theorem scan_openTag_of_loop {location filename : List Char} (rest : List Char)
    (config : Config) (m : Nat) (loc fn : List Char) (stack : List (List Char))
    (st : PreState)
    (hloop : commentLoop m (openTag location filename ++ rest) 0 =
      some ((tagBody location filename).length + 2)) :
    scan (m + 1) config (openTag location filename ++ rest) 0 loc fn stack st =
      scan m config (openTag location filename ++ rest) (openTag location filename).length
        loc fn stack st := by
  have hlen : 0 < (openTag location filename ++ rest).length := by
    rw [List.length_append, openTag_length]; omega
  have hp : pairIs (openTag location filename ++ rest) 0 "/*".toList = true := by
    rw [openTag_eq]; rfl
  have hslash : (openTag location filename ++ rest)[(tagBody location filename).length + 2 + 1]? =
      some '/' := by
    have htext : openTag location filename ++ rest =
        ('/' :: '*' :: tagBody location filename) ++ '*' :: '/' :: rest := by
      rw [openTag_eq]; simp
    rw [htext, List.getElem?_append_right (by simp)]
    simp
  rw [scan, if_pos hlen, if_pos hp, hloop, Option.map_some', afterLoop_some, if_neg, openTag_length]
  rw [hslash]
  simp

/-- The first iteration of the scan skips the opening tag. -/
theorem scan_openTag {location filename : List Char} (hl : ∀ c ∈ location, c ≠ '*')
    (hf : ∀ c ∈ filename, c ≠ '*') (rest : List Char) (config : Config) (fuel : Nat)
    (loc fn : List Char) (stack : List (List Char)) (st : PreState) :
    scan (fuel + (openTag location filename).length + 1) config
        (openTag location filename ++ rest) 0 loc fn stack st =
      scan (fuel + (openTag location filename).length) config
        (openTag location filename ++ rest) (openTag location filename).length
        loc fn stack st :=
  scan_openTag_of_loop rest config _ loc fn stack st (commentLoop_openTag hl hf rest fuel)

theorem commentLoop_add {fuel : Nat} {text : List Char} {i j : Nat}
    (h : commentLoop fuel text i = some j) (n : Nat) :
    commentLoop (fuel + n) text i = some j := by
  induction n with
  | zero => exact h
  | succ n ih => exact skipLoop_succ ih

/-- With any fuel, the first iteration of the scan skips the opening tag or
runs out of fuel inside it. -/
theorem scan_openTag_or_timeout {location filename : List Char}
    (hl : ∀ c ∈ location, c ≠ '*') (hf : ∀ c ∈ filename, c ≠ '*') (rest : List Char)
    (config : Config) (m : Nat) (loc fn : List Char) (stack : List (List Char))
    (st : PreState) :
    scan (m + 1) config (openTag location filename ++ rest) 0 loc fn stack st = .timeout ∨
    scan (m + 1) config (openTag location filename ++ rest) 0 loc fn stack st =
      scan m config (openTag location filename ++ rest) (openTag location filename).length
        loc fn stack st := by
  cases hc : commentLoop m (openTag location filename ++ rest) 0 with
  | none =>
    left
    have hlen : 0 < (openTag location filename ++ rest).length := by
      rw [List.length_append, openTag_length]; omega
    have hp : pairIs (openTag location filename ++ rest) 0 "/*".toList = true := by
      rw [openTag_eq]; rfl
    rw [scan, if_pos hlen, if_pos hp, hc, Option.map_none', afterLoop_none]
  | some j =>
    right
    have h1 := commentLoop_add hc (openTag location filename).length
    rw [commentLoop_openTag hl hf rest m] at h1
    rw [← Option.some.inj h1] at hc
    exact scan_openTag_of_loop rest config m loc fn stack st hc

/-- An iteration of the scan at a character that is neither `/` nor `@`. -/
theorem scan_plain {text : List Char} {i : Nat} {c : Char} (h0 : text[i]? = some c)
    (hslash : c ≠ '/') (hat : c ≠ '@') (config : Config) (fuel : Nat)
    (loc fn : List Char) (stack : List (List Char)) (st : PreState) :
    scan (fuel + 1) config text i loc fn stack st =
      scan fuel config text (i + 1) loc fn stack st := by
  have hlen : i < text.length := by
    by_contra hge
    rw [List.getElem?_eq_none (Nat.le_of_not_lt hge)] at h0
    cases h0
  rw [scan, if_pos hlen, if_neg, afterLoop_some, if_neg]
  · rw [h0]
    simp [hat]
  · rw [show "/*".toList = ['/', '*'] from rfl, pairIs_false_of_head h0 hslash]
    simp

theorem scan_plain_run {text : List Char} (x rest : List Char)
    (hx : ∀ c ∈ x, c ≠ '/' ∧ c ≠ '@') (config : Config) (fuel i : Nat)
    (hdrop : text.drop i = x ++ rest)
    (loc fn : List Char) (stack : List (List Char)) (st : PreState) :
    scan (fuel + x.length) config text i loc fn stack st =
      scan fuel config text (i + x.length) loc fn stack st := by
  induction x generalizing i with
  | nil => rfl
  | cons c x ih =>
    have h0 : text[i]? = some c := by
      have := Lexer.getElem?_of_drop_eq hdrop 0
      simpa using this
    have hdrop' : text.drop (i + 1) = x ++ rest := by
      rw [← List.drop_drop, hdrop]
      rfl
    have hc := hx c (List.mem_cons_self _ _)
    rw [show fuel + (c :: x).length = (fuel + x.length) + 1 from by
      simp only [List.length_cons]; omega,
      scan_plain h0 hc.1 hc.2, ih (fun d hd => hx d (List.mem_cons_of_mem _ hd)) (i + 1) hdrop']
    simp only [List.length_cons]
    congr 1
    omega

theorem semiLoop_run (x rest : List Char) (hx : ∀ c ∈ x, c ≠ ';') (t : Nat) :
    semiLoop (x ++ ';' :: rest) t = t + x.length := by
  induction x generalizing t with
  | nil => simp [semiLoop]
  | cons c x ih =>
    rw [List.cons_append, semiLoop, if_neg (hx c (List.mem_cons_self _ _)),
      ih (fun d hd => hx d (List.mem_cons_of_mem _ hd))]
    simp only [List.length_cons]
    omega

/-- An iteration of the scan at a directive ``@require "f";``: the directive
is parsed, and the scan goes on in the text with the directive replaced. -/
theorem scan_directive {text : List Char} {i : Nat} (f post : List Char)
    (hf : ∀ c ∈ f, c ≠ ';')
    (hdrop : text.drop i = "@require".toList ++ quoted f ++ ';' :: post)
    (config : Config) (fuel : Nat) (loc fn : List Char) (stack : List (List Char))
    (st : PreState) :
    scan (fuel + 1) config text i loc fn stack st =
      (parseRequire fuel config (quoted f) fn loc stack st).bind
        fun insertedText st1 =>
          scan fuel config (text.take i ++ insertedText ++ text.drop (i + 8 + (quoted f).length + 1))
            (i + 1) loc fn stack st1 := by
  have h0 : text[i]? = some '@' := by
    have := Lexer.getElem?_of_drop_eq hdrop 0
    simpa using this
  have hlen : i < text.length := by
    by_contra hge
    rw [List.getElem?_eq_none (Nat.le_of_not_lt hge)] at h0
    cases h0
  have hreq : substr text (i + 1) 7 = "require".toList := by
    unfold substr
    rw [← List.drop_drop, hdrop]
    rfl
  have hdrop8 : text.drop (i + 8) = quoted f ++ ';' :: post := by
    rw [← List.drop_drop, hdrop]
    rfl
  have hq : ∀ c ∈ quoted f, c ≠ ';' := by
    intro c hc
    simp only [quoted, List.mem_cons, List.mem_append, List.mem_singleton, List.not_mem_nil,
      or_false] at hc
    rcases hc with rfl | rfl | hc | rfl
    · decide
    · decide
    · exact hf c hc
    · decide
  have hsemi : semiLoop (text.drop (i + 8)) (i + 8) = i + 8 + (quoted f).length := by
    rw [hdrop8, semiLoop_run _ _ hq]
  have htl : text.length = i + 8 + ((quoted f).length + (post.length + 1)) := by
    have := congrArg List.length hdrop8
    rw [List.length_drop, List.length_append, List.length_cons] at this
    omega
  have hstr : substr text (i + 8) (i + 8 + (quoted f).length - (i + 8)) = quoted f := by
    unfold substr
    rw [hdrop8, Nat.add_sub_cancel_left, List.take_left']
    rfl
  rw [scan, if_pos hlen, if_neg, afterLoop_some, if_pos ⟨h0, hreq⟩, hsemi, if_neg, hstr]
  · rw [htl]; omega
  · rw [show "/*".toList = ['/', '*'] from rfl, pairIs_false_of_head h0 (by decide)]
    simp

theorem fileLoop_run (closing : Char) {string : List Char} (x rest : List Char)
    (hx : ∀ c ∈ x, c ≠ closing) (fuel index : Nat) (acc : List Char)
    (hdrop : string.drop index = x ++ closing :: rest) :
    fileLoop closing (fuel + x.length + 1) string index acc = (index + x.length, acc ++ x) := by
  induction x generalizing index acc with
  | nil =>
    have h0 : string[index]? = some closing := by
      have := Lexer.getElem?_of_drop_eq hdrop 0
      simpa using this
    rw [show fuel + ([] : List Char).length + 1 = fuel + 1 from rfl, fileLoop, if_neg]
    · simp
    · simp [h0]
  | cons c x ih =>
    have h0 : string[index]? = some c := by
      have := Lexer.getElem?_of_drop_eq hdrop 0
      simpa using this
    have hlen : index ≤ string.length := by
      by_contra hge
      rw [List.getElem?_eq_none (Nat.le_of_lt (Nat.lt_of_not_le hge))] at h0
      cases h0
    have hdrop' : string.drop (index + 1) = x ++ closing :: rest := by
      rw [← List.drop_drop, hdrop]
      rfl
    have hc : c ≠ closing := hx c (List.mem_cons_self _ _)
    rw [show fuel + (c :: x).length + 1 = (fuel + x.length + 1) + 1 from by
      simp only [List.length_cons]; omega, fileLoop, if_pos, h0,
      ih (fun d hd => hx d (List.mem_cons_of_mem _ hd)) (index + 1) _ hdrop']
    · simp only [List.length_cons, jsStr, List.append_assoc, List.singleton_append]
      congr 1
      omega
    · rw [h0]
      exact ⟨fun h => hc (Option.some.inj h), hlen⟩

theorem quoted_length (f : List Char) : (quoted f).length = f.length + 3 := by
  simp [quoted]

/-- The file name found in the directive text ` "f"` is `f`, and the record
of calls is not touched. -/
theorem findFile_quoted (f : List Char) (hf : ∀ c ∈ f, c ≠ '"') (filename location : List Char)
    (st : PreState) :
    (findFile (quoted f) filename location st).1 = some f ∧
    (findFile (quoted f) filename location st).2.calls = st.calls := by
  have hopen : openLoop ((quoted f).length + 1) (quoted f) 0 = some ('"', 1) := by
    rw [openLoop, if_pos (by rw [quoted_length]; omega)]
    have h1 : (quoted f)[0 + 1]? = some '"' := by simp [quoted]
    rw [h1]
    rfl
  have hfile : fileLoop '"' ((quoted f).length + 2) (quoted f) (1 + 1) [] = (1 + 1 + f.length, f) := by
    have := @fileLoop_run '"' (quoted f) f [] hf 4 (1 + 1) [] rfl
    rw [show (quoted f).length + 2 = 4 + f.length + 1 from by rw [quoted_length]; omega]
    simpa using this
  unfold findFile
  rw [hopen]
  dsimp only
  rw [hfile]
  dsimp only
  rw [if_neg (by rw [quoted_length]; omega)]
  split_ifs <;> exact ⟨rfl, rfl⟩

theorem lastIndexOf_none {c : Char} {l : List Char} (h : c ∉ l) : lastIndexOf c l = none := by
  induction l with
  | nil => rfl
  | cons x xs ih =>
    rw [lastIndexOf, ih (fun hm => h (List.mem_cons_of_mem _ hm))]
    simp only
    rw [if_neg (fun hx : x = c => h (hx ▸ List.mem_cons_self _ _))]

theorem lastIndexOf_append (c : Char) (a b : List Char) (h : c ∉ b) :
    lastIndexOf c (a ++ c :: b) = some a.length := by
  induction a with
  | nil =>
    rw [List.nil_append, lastIndexOf, lastIndexOf_none h]
    simp
  | cons x xs ih =>
    rw [List.cons_append, lastIndexOf, ih]
    rfl

theorem returnLocation_path (location f : List Char) (hf : '/' ∉ f) :
    returnLocation (location ++ "/".toList ++ f) = location := by
  have : location ++ "/".toList ++ f = location ++ '/' :: f := by simp
  rw [this, returnLocation, lastIndexOf_append _ _ _ hf]
  simp [substr]

theorem returnFilename_path (location f : List Char) (hf : '/' ∉ f) :
    returnFilename (location ++ "/".toList ++ f) = f := by
  have : location ++ "/".toList ++ f = location ++ '/' :: f := by simp
  rw [this, returnFilename, lastIndexOf_append _ _ _ hf]
  simp only [substr]
  rw [← List.drop_drop, List.drop_left, List.drop_one, List.tail_cons,
    List.take_of_length_le]
  simp

/-- The directive ``@require "g";`` for a file `location/g` that the file
system holds: the file is searched, at the location and under the file name
that are cut out of its path. -/
theorem parseRequire_found (config : Config) (location g text : List Char)
    (hq : ∀ c ∈ g, c ≠ '"')
    (hread : config.readFile (location ++ "/".toList ++ g) = some text)
    (fuel : Nat) (filename : List Char) (stack : List (List Char)) (st : PreState) :
    parseRequire (fuel + 1) config (quoted g) filename location stack st =
      searchRequire fuel config text (returnLocation (location ++ "/".toList ++ g))
        (returnFilename (location ++ "/".toList ++ g)) stack
        (findFile (quoted g) filename location st).2 := by
  rw [parseRequire, (findFile_quoted g hq filename location st).1]
  dsimp only
  rw [hread]

/-! ## Paths through `./` -/

theorem dotDirs_append : ∀ (location : List Char), dotDirs location = true →
    dotDirs (location ++ "/.".toList) = true
  | [], h => by simp [dotDirs] at h
  | [c], h => by
    have hc : c = '.' := by
      by_contra hne
      simp [dotDirs, hne] at h
    subst hc
    rfl
  | c :: d :: rest, h => by
    have hcd : c = '.' ∧ d = '/' := by
      by_contra hne
      rw [dotDirs] at h
      · cases h
      · intro hh; cases hh
      · intro r hh
        injection hh with h1 h2
        injection h2 with h3 h4
        exact hne ⟨h1, h3⟩
    obtain ⟨rfl, rfl⟩ := hcd
    rw [dotDirs] at h
    show dotDirs ('.' :: '/' :: (rest ++ "/.".toList)) = true
    rw [dotDirs]
    exact dotDirs_append rest h

theorem dotDirs_no_star : ∀ (location : List Char), dotDirs location = true →
    ∀ c ∈ location, c ≠ '*'
  | [], h => by simp [dotDirs] at h
  | [c], h => by
    have hc : c = '.' := by
      by_contra hne
      simp [dotDirs, hne] at h
    subst hc
    intro c hc
    rw [List.mem_singleton.mp hc]
    decide
  | c :: d :: rest, h => by
    have hcd : c = '.' ∧ d = '/' := by
      by_contra hne
      rw [dotDirs] at h
      · cases h
      · intro hh; cases hh
      · intro r hh
        injection hh with h1 h2
        injection h2 with h3 h4
        exact hne ⟨h1, h3⟩
    obtain ⟨rfl, rfl⟩ := hcd
    rw [dotDirs] at h
    intro x hx
    rcases List.mem_cons.mp hx with rfl | hx
    · decide
    · rcases List.mem_cons.mp hx with rfl | hx
      · decide
      · exact dotDirs_no_star rest h x hx

theorem alias_path (location : List Char) :
    location ++ "/".toList ++ "./f.csss".toList =
      (location ++ "/.".toList) ++ '/' :: "f.csss".toList := by
  simp

theorem alias_returnLocation (location : List Char) :
    returnLocation (location ++ "/".toList ++ "./f.csss".toList) = location ++ "/.".toList := by
  rw [alias_path, returnLocation, lastIndexOf_append _ _ _ (by decide)]
  simp only [substr, List.drop_zero]
  rw [List.take_left]

theorem alias_returnFilename (location : List Char) :
    returnFilename (location ++ "/".toList ++ "./f.csss".toList) = "f.csss".toList := by
  rw [alias_path, returnFilename, lastIndexOf_append _ _ _ (by decide)]
  simp only [substr]
  rw [← List.drop_drop, List.drop_left, List.drop_one, List.tail_cons, List.take_of_length_le]
  simp

end Preproc

/-! ## Properties of every finished parse -/

theorem all_bind {ε α β : Type} {P : α → Prop} {Q : β → Prop} {r : Res ε α}
    {g : α → Res ε β} (hr : Res.All P r) (hg : ∀ a, P a → Res.All Q (g a)) :
    Res.All Q (r.bind g) := by
  cases r with
  | ok a => exact hg a hr
  | fault e => trivial
  | timeout => trivial

theorem all_ite {ε α : Type} {P : α → Prop} {c : Prop} [Decidable c] {a b : Res ε α}
    (ha : Res.All P a) (hb : Res.All P b) : Res.All P (if c then a else b) := by
  split_ifs <;> assumption

theorem all_true {ε α : Type} (r : Res ε α) : Res.All (fun _ => True) r := by
  cases r <;> trivial

theorem resLe_eq_of_fault {ε α : Type} {a b : Res ε α} {e : ε} (h : Res.Le a b)
    (ha : a = .fault e) : b = .fault e := by
  rcases h with h | h
  · rw [ha] at h; cases h
  · rw [← h, ha]

namespace Parse

open Lexer (Token)

/-- A parse that ended with an exception stays the same with more fuel. -/
theorem run_add_fault {fuel : Nat} {validTags : List (List Char)} {tokens : List Token}
    {filename : String} {e : ParseFault}
    (h : run fuel validTags tokens filename = .fault e) (n : Nat) :
    run (fuel + n) validTags tokens filename = .fault e := by
  have hle : Res.Le (run fuel validTags tokens filename)
      (run (fuel + n) validTags tokens filename) :=
    resLe_bind (walkThrough_le_add fuel n _ _ _ _ _) (fun _ => resLe_refl _)
  exact resLe_eq_of_fault hle h

/-! ## A number before a unit token -/

theorem walk_float_before_unit (fuel : Nat) (filename : String) (validTags : List (List Char))
    (tokens : List Token) (closeFunction : Token → Bool) (s : PState) (tok u : Token)
    (htok : s.token = some tok) (hty : tok.type = "float") (hclose : closeFunction tok = false)
    (hnext : tokens[s.index + 1]? = some u) (hu : u.type = "unit") :
    walk (fuel + 1) filename validTags tokens closeFunction s =
      .ok ⟨false, [.number (.str "plain".toList) (parseFloatValue tok.value)], s⟩ := by
  have hlt : s.index + 1 < tokens.length := by
    by_contra h
    rw [List.getElem?_eq_none (Nat.le_of_not_lt h)] at hnext
    cases hnext
  have hdrop : tokens.drop (s.index + 1) = u :: tokens.drop (s.index + 1 + 1) := by
    rw [List.drop_eq_getElem_cons hlt]
    congr 1
    rw [List.getElem?_eq_getElem hlt] at hnext
    exact Option.some.inj hnext
  simp [walk, htok, hty, hclose, Nat.not_le.mpr hlt, peek, hdrop, peekList, hu, Res.bind]

theorem walkThrough_single (n : Nat) (filename : String) (validTags : List (List Char))
    (tok stale : Token) (closeFunction : Token → Bool) :
    walkThrough (n + 3) filename validTags [tok] closeFunction
        { initState with token := some stale } =
      .ok ([], { initState with token := some stale }) := by
  simp [walkThrough, walkLoop, walk, next, nextAux, Res.bind, initState]

/-- C11. When `walk` dispatches a float token that is followed by a token of
the lexer's type `unit` (and is not the closing token of its parent), it
pushes a number with the unit `plain` and consumes nothing: the test for a
unit asks for the type `identifier`. So `div { width: 10px; }` parses to a
property holding the plain number 10, with the unit token logged as
unexpected. The text `10` lexes to one float token, on which the parser
reads `token` before any assignment (a `ReferenceError`), or returns an
empty Program when `token` still holds a token of an earlier run. -/
theorem C11_float_before_unit_token_is_plain (filename : String)
    (validTags : List (List Char)) (n : Nat) :
    (∀ (tokens : List Token) (closeFunction : Token → Bool) (s : PState) (tok u : Token),
      s.token = some tok → tok.type = "float" → closeFunction tok = false →
      tokens[s.index + 1]? = some u → u.type = "unit" →
      walk (n + 1) filename validTags tokens closeFunction s =
        .ok ⟨false, [.number (.str "plain".toList) (parseFloatValue tok.value)], s⟩) ∧
    Lexer.tokenize (30 + n) "div \x7b width: 10px; \x7d".toList filename = some widthTokens ∧
    run (12 + n) validTags widthTokens filename = .ok
      (.program [.property (.str "width".toList)
         [.number (.str "plain".toList) (.dec false 10 0)]],
       { index := 7, line := .num (.dec false 1 0),
         token := some ⟨"rcurb", .str "\x7d".toList, 1, 20⟩,
         log := [.unexpected "lcurb" (.str "\x7b".toList) (.num (.dec false 1 0)) filename,
                 .unexpected "unit" (.str "px".toList) (.num (.dec false 1 0)) filename] }) ∧
    Lexer.tokenize (3 + n) "10".toList filename =
      some [⟨"float", .num (.dec false 10 0), 1, 3⟩] ∧
    run (3 + n) validTags [⟨"float", .num (.dec false 10 0), 1, 3⟩] filename =
      .fault .referenceError ∧
    ∀ stale : Token,
      walkThrough (n + 3) filename validTags [⟨"float", .num (.dec false 10 0), 1, 3⟩]
          (fun _ => false) { initState with token := some stale } =
        .ok ([], { initState with token := some stale }) :=
  ⟨fun tokens closeFunction s tok u htok hty hclose hnext hu =>
     walk_float_before_unit n filename validTags tokens closeFunction s tok u htok hty hclose
       hnext hu,
   Lexer.tokenize_add (by rfl) n,
   run_add (by
     simp [run, walkThrough, walkLoop, walk, Res.bind, next, nextAux, peek, peekList, widthTokens,
       checkOpening, dropped, currentValue,
       looseEq, inList, initState, parseFloatValue, validUnits]) n,
   Lexer.tokenize_add (by rfl) n, run_add_fault (by rfl) n,
   fun stale => walkThrough_single n filename validTags _ stale _⟩

/-! ## The checks for an opening delimiter -/

theorem nextAux_log (fuel : Nat) (tokens : List Token) (s : PState) :
    (nextAux fuel tokens s).log = s.log := by
  induction fuel generalizing s with
  | zero => rfl
  | succ n ih =>
    rw [nextAux]
    split_ifs with h
    · rfl
    · cases ht : tokens[s.index + 1]? with
      | none => rfl
      | some t =>
        dsimp only
        split_ifs
        · rw [ih]
        · rfl

theorem next_syntaxErrors (tokens : List Token) (s : PState) :
    syntaxErrors (next tokens s) = syntaxErrors s := by
  unfold syntaxErrors next
  rw [nextAux_log]

theorem peekList_dropped (test : Token → Bool) (l : List Token) :
    peekList (dropped test) l = .ok false ∨ peekList (dropped test) l = .fault .typeError := by
  induction l with
  | nil => exact Or.inr rfl
  | cons t rest ih =>
    rw [peekList]
    split_ifs
    · exact ih
    · exact Or.inl rfl

theorem checkOpening_dropped (tokens : List Token) (s : PState) (test : Token → Bool)
    (message : Diag) :
    checkOpening tokens s (dropped test) message = .ok s ∨
    checkOpening tokens s (dropped test) message = .fault .typeError := by
  unfold checkOpening peek
  split_ifs
  · exact Or.inl rfl
  · rcases peekList_dropped test (tokens.drop (s.index + 1)) with h | h <;> rw [h]
    · exact Or.inl rfl
    · exact Or.inr rfl

theorem checkOpening_all (tokens : List Token) (s : PState) (test : Token → Bool)
    (message : Diag) :
    Res.All (fun s1 => syntaxErrors s1 = syntaxErrors s)
      (checkOpening tokens s (dropped test) message) := by
  rcases checkOpening_dropped tokens s test message with h | h <;> rw [h]
  · exact rfl
  · trivial

theorem walk_syntaxErrors (fuel : Nat) :
    (∀ filename validTags tokens closeFunction s,
      Res.All (fun r => syntaxErrors r.2 = syntaxErrors s)
        (walkThrough fuel filename validTags tokens closeFunction s)) ∧
    (∀ filename validTags tokens closeFunction s,
      Res.All (fun r => syntaxErrors r.2 = syntaxErrors s)
        (walkLoop fuel filename validTags tokens closeFunction s)) ∧
    (∀ filename validTags tokens closeFunction s,
      Res.All (fun w => syntaxErrors w.state = syntaxErrors s)
        (walk fuel filename validTags tokens closeFunction s)) := by
  induction fuel with
  | zero =>
    refine ⟨?_, ?_, ?_⟩ <;> intros <;> trivial
  | succ n ih =>
    obtain ⟨ihT, ihL, ihW⟩ := ih
    refine ⟨?_, ?_, ?_⟩
    · intro filename validTags tokens closeFunction s
      rw [walkThrough]
      have := ihL filename validTags tokens closeFunction (next tokens s)
      simp only [next_syntaxErrors] at this
      exact this
    · intro filename validTags tokens closeFunction s
      rw [walkLoop]
      refine all_bind (ihW _ _ _ _ _) (fun w hw => all_ite hw ?_)
      refine all_bind (ihL _ _ _ _ _) (fun r hr => ?_)
      show syntaxErrors r.2 = syntaxErrors s
      rw [hr, next_syntaxErrors, hw]
    · intro filename validTags tokens closeFunction s
      rw [walk]
      cases s.token with
      | none => trivial
      | some token =>
        dsimp only
        repeat' first
          | exact all_true _
          | refine all_ite ?_ ?_
          | refine all_bind (checkOpening_all _ _ _ _) (fun _ _ => ?_)
          | refine all_bind (ihT _ _ _ _ _) (fun _ _ => ?_)
          | refine all_bind (all_true _) (fun _ _ => ?_)
          | (show syntaxErrors _ = syntaxErrors _
             try simp only [next_syntaxErrors, *]
             try split_ifs
             all_goals simp [syntaxErrors, isMissing])

/-- A finished parse has logged no syntax error. -/
theorem run_syntaxErrors (fuel : Nat) (validTags : List (List Char)) (tokens : List Token)
    (filename : String) (r : Node × PState) (h : run fuel validTags tokens filename = .ok r) :
    syntaxErrors r.2 = [] := by
  have hall := (walk_syntaxErrors fuel).1 filename validTags tokens (fun _ => false) initState
  unfold run at h
  cases hw : walkThrough fuel filename validTags tokens (fun _ => false) initState with
  | ok x =>
    rw [hw] at h hall
    cases h
    exact hall
  | fault e => rw [hw] at h; cases h
  | timeout => rw [hw] at h; cases h

/-- C15. The parser never reports a missing opening delimiter: the callbacks
of the three checks return nothing, so each check leaves the log as it is
(or fails past the end of the stream), and no finished parse has a syntax
error in its log. The `if` of `; @if --x == 1) { } ;` is dispatched with a
variable after it, and the `else` of `; @else color: red; ;` with an
identifier after it; the logs hold only the messages for unexpected tokens. -/
theorem C15_missing_opening_never_reported (filename : String)
    (validTags : List (List Char)) (n : Nat) :
    (∀ (tokens : List Token) (s : PState) (test : Token → Bool) (message : Diag),
      checkOpening tokens s (dropped test) message = .ok s ∨
      checkOpening tokens s (dropped test) message = .fault .typeError) ∧
    (∀ (fuel : Nat) (tokens : List Token) (r : Node × PState),
      run fuel validTags tokens filename = .ok r → syntaxErrors r.2 = []) ∧
    Lexer.tokenize (30 + n) "; @if --x == 1) \x7b \x7d ;".toList filename = some ifNoParTokens ∧
    run (12 + n) validTags ifNoParTokens filename = .ok
      (.program [.block (.str "if".toList) [] [.number (.str "plain".toList) (.dec false 1 0)]
         (.str "==".toList) []],
       { index := 8, line := .num (.dec false 1 0),
         token := some ⟨"semi", .str ";".toList, 1, 21⟩,
         log := [.unexpected "rcurb" (.str "\x7d".toList) (.num (.dec false 1 0)) filename] }) ∧
    Lexer.tokenize (30 + n) "; @else color: red; ;".toList filename = some elseNoBraceTokens ∧
    run (12 + n) validTags elseNoBraceTokens filename = .ok
      (.program [.elseBlock [.value (.str "red".toList)]],
       { index := 6, line := .num (.dec false 1 0),
         token := some ⟨"semi", .str ";".toList, 1, 21⟩,
         log := [.unexpected "assign" (.str ":".toList) (.num (.dec false 1 0)) filename,
                 .unexpected "semi" (.str ";".toList) (.num (.dec false 1 0)) filename] }) :=
  ⟨checkOpening_dropped,
   fun fuel tokens r h => run_syntaxErrors fuel validTags tokens filename r h,
   Lexer.tokenize_add (by rfl) n,
   run_add (by
     simp [run, walkThrough, walkLoop, walk, Res.bind, next, nextAux, peek, peekList,
       ifNoParTokens, checkOpening, dropped, currentValue,
       looseEq, inList, initState, parseFloatValue, validUnits]) n,
   Lexer.tokenize_add (by rfl) n,
   run_add (by
     simp [run, walkThrough, walkLoop, walk, Res.bind, next, nextAux, peek, peekList,
       elseNoBraceTokens, checkOpening, dropped, currentValue,
       looseEq, inList, initState, parseFloatValue, validUnits]) n⟩

/-! ## The token after a closing delimiter -/

/-- C17. The `else` production consumes input beyond its closing brace. On
the tokens of `; @else { } --x: 1;` the brace of type `rcurb` does not close
the block, which runs to the end of the stream: the assignment is a child of
the else block. On a stream whose braces have the types the parser tests
for, the block closes at its brace and the `next()` after it skips the
variable token: the walk goes on at the assign token, and no assignment is
parsed. -/
theorem C17_else_consumes_past_closing_brace (filename : String)
    (validTags : List (List Char)) (n : Nat) :
    Lexer.tokenize (30 + n) "; @else \x7b \x7d --x: 1;".toList filename = some elseTokens ∧
    run (12 + n) validTags elseTokens filename = .ok
      (.program [.elseBlock [.assignment (.str "--x".toList)
         [.number (.str "plain".toList) (.dec false 1 0)]]],
       { index := 7, line := .num (.dec false 1 0),
         token := some ⟨"semi", .str ";".toList, 1, 19⟩,
         log := [.unexpected "rcurb" (.str "\x7d".toList) (.num (.dec false 1 0)) filename] }) ∧
    run (12 + n) validTags elseBraceTokens filename = .ok
      (.program [.elseBlock [], .number (.str "plain".toList) (.dec false 1 0)],
       { index := 8, line := .num (.dec false 1 0),
         token := some ⟨"semi", .str ";".toList, 1, 21⟩,
         log := [.unexpected "assign" (.str ":".toList) (.num (.dec false 1 0)) filename,
                 .unexpected "semi" (.str ";".toList) (.num (.dec false 1 0)) filename] }) :=
  ⟨Lexer.tokenize_add (by rfl) n,
   run_add (by
     simp [run, walkThrough, walkLoop, walk, Res.bind, next, nextAux, peek, peekList,
       elseTokens, checkOpening, dropped, currentValue,
       looseEq, inList, initState, parseFloatValue, validUnits]) n,
   run_add (by
     simp [run, walkThrough, walkLoop, walk, Res.bind, next, nextAux, peek, peekList,
       elseBraceTokens, checkOpening, dropped, currentValue,
       looseEq, inList, initState, parseFloatValue, validUnits]) n⟩

/-! ## Boolean literals -/

theorem walk_bool (fuel : Nat) (filename : String) (validTags : List (List Char))
    (tokens : List Token) (closeFunction : Token → Bool) (s : PState) (tok : Token) (b : Bool)
    (htok : s.token = some tok) (hty : tok.type = "bool") (hval : tok.value = .bool b)
    (hclose : closeFunction tok = false) (hlt : s.index + 1 < tokens.length) :
    walk (fuel + 1) filename validTags tokens closeFunction s = .ok ⟨false, [.bool false], s⟩ := by
  simp [walk, htok, hty, hval, hclose, Nat.not_le.mpr hlt, looseEq]

/-- C18. When `walk` dispatches a bool token that carries a native boolean
(and is neither the last token nor the closing token of its parent), it
pushes a bool node with the value false, whatever the boolean: the value is
compared with the text `true`. So `;true;` parses to a Program whose only
child is the bool node false. -/
theorem C18_bool_node_is_always_false (filename : String) (validTags : List (List Char))
    (n : Nat) :
    (∀ (tokens : List Token) (closeFunction : Token → Bool) (s : PState) (tok : Token)
      (b : Bool), s.token = some tok → tok.type = "bool" → tok.value = .bool b →
      closeFunction tok = false → s.index + 1 < tokens.length →
      walk (n + 1) filename validTags tokens closeFunction s = .ok ⟨false, [.bool false], s⟩) ∧
    Lexer.tokenize (10 + n) ";true;".toList filename = some trueTokens ∧
    run (5 + n) validTags trueTokens filename = .ok
      (.program [.bool false],
       { index := 2, line := .num (.dec false 1 0),
         token := some ⟨"semi", .str ";".toList, 1, 6⟩, log := [] }) :=
  ⟨fun tokens closeFunction s tok b htok hty hval hclose hlt =>
     walk_bool n filename validTags tokens closeFunction s tok b htok hty hval hclose hlt,
   Lexer.tokenize_add (by rfl) n, run_add (by rfl) n⟩

end Parse

namespace Lexer

/-! ## Words -/

theorem pushWord_eq (s : LexState) (w : List Char) :
    pushWord s w =
      { s with tokens := s.tokens ++ [⟨(wordToken w).1, (wordToken w).2, s.line, s.column⟩] } := by
  unfold pushWord wordToken pushToken
  generalize w.map Char.toLower = low
  by_cases h1 : low = "true".toList
  · subst h1; rfl
  · by_cases h2 : low = "false".toList
    · subst h2; rfl
    · dsimp only
      rw [if_neg (not_or.mpr ⟨h1, h2⟩), if_neg h1, if_neg h2]
      split_ifs <;> rfl

theorem letter_ne {a x : Char} (h : isLetterRe a = true) (hx : isLetterRe x = false) : a ≠ x := by
  rintro rfl
  rw [h] at hx
  cases hx

theorem letter_not_digit {a : Char} (h : isLetterRe a = true) : isDigitRe a = false := by
  have e1 : 'a'.toNat = 97 := rfl
  have e2 : 'z'.toNat = 122 := rfl
  have e3 : 'A'.toNat = 65 := rfl
  have e4 : 'Z'.toNat = 90 := rfl
  have e5 : '0'.toNat = 48 := rfl
  have e6 : '9'.toNat = 57 := rfl
  simp only [isLetterRe, isDigitRe, e1, e2, e3, e4, e5, e6, Bool.or_eq_true, Bool.and_eq_true,
    decide_eq_true_eq, Bool.and_eq_false_iff, decide_eq_false_iff_not] at *
  omega

theorem ident_ne_newline {x : Char} (h : isIdentRe x = true) : x ≠ '\n' := by
  rintro rfl
  exact absurd h (by decide)

theorem letter_ident {a : Char} (h : isLetterRe a = true) : isIdentRe a = true := by
  simp [isIdentRe, h]

theorem peekStr_three (text : List Char) (s : LexState) :
    peekStr text s 0 3 =
      jsStr text[s.index]? ++ jsStr text[s.index + 1]? ++ jsStr text[s.index + 2]? := by
  simp [peekStr]

/-- The identifier branch: at a letter followed by a run of letters, digits,
percent signs and dashes and then a character outside that class, where the
word does not begin with `var`, one iteration pushes one token for the whole
word and stops at the character after it. -/
theorem lexStep_word (pre : List Char) (a : Char) (w : List Char) (c : Char) (rest : List Char)
    (ha : isLetterRe a = true) (hw : w.all isIdentRe = true)
    (hvar : ¬ "var".toList <+: a :: w) (hc : isIdentRe c = false)
    (fuel : Nat) (filename : String) (s : LexState) (hs : s.index = pre.length) :
    lexStep (fuel + w.length + 1) filename (pre ++ (a :: w) ++ c :: rest) s =
      some (pushWord { s with index := pre.length + w.length + 1,
                              column := s.column + w.length + 1, current := some c }
        (a :: w)) := by
  obtain ⟨tk, i, ln, col, cur, er⟩ := s
  simp only at hs
  subst hs
  have hdrop : (pre ++ (a :: w) ++ c :: rest).drop pre.length = a :: (w ++ c :: rest) := by
    simp [List.append_assoc]
  have h0 : (pre ++ (a :: w) ++ c :: rest)[pre.length]? = some a := by
    have := getElem?_of_drop_eq hdrop 0
    simpa using this
  have hdrop1 : (pre ++ (a :: w) ++ c :: rest).drop (pre.length + 1) = w ++ c :: rest := by
    rw [← List.drop_drop, hdrop]
    rfl
  have hp3 : jsStr (pre ++ (a :: w) ++ c :: rest)[pre.length]? ++
      jsStr (pre ++ (a :: w) ++ c :: rest)[pre.length + 1]? ++
      jsStr (pre ++ (a :: w) ++ c :: rest)[pre.length + 2]? ≠ "var".toList := by
    have g1 := getElem?_of_drop_eq hdrop 1
    have g2 := getElem?_of_drop_eq hdrop 2
    rw [h0, g1, g2]
    intro h
    rcases w with _ | ⟨b, _ | ⟨d, w2⟩⟩
    · simp [jsStr] at h
      cases x : rest[0]? <;> rw [x] at h <;> simp [undefinedStr] at h
      obtain ⟨-, rfl, -⟩ := h
      exact absurd hc (by decide)
    · simp [jsStr] at h
      obtain ⟨-, -, rfl⟩ := h
      exact absurd hc (by decide)
    · simp [jsStr] at h
      obtain ⟨rfl, rfl, rfl⟩ := h
      exact hvar ⟨w2, rfl⟩
  generalize htext : pre ++ (a :: w) ++ c :: rest = text at *
  have hscan := @scanLoop_run isIdentRe text w c rest hw hc fuel
    { tokens := tk, index := pre.length, line := ln, column := col, current := some a,
      errors := er } [a] hdrop1
  have hnext := @nextN_run text w (c :: rest)
    { tokens := tk, index := pre.length, line := ln, column := col, current := some a,
      errors := er } (by simpa using ident_ne_newline (letter_ident ha))
    (fun x hx => ident_ne_newline (List.all_eq_true.mp hw x hx)) hdrop1
  rw [hnext] at hscan
  have hne : ∀ x : Char, isLetterRe x = false → a ≠ x := fun x hx => letter_ne ha hx
  have hsp : isSpaceRe a = false := by
    simp [isSpaceRe, hne ' ' (by decide), hne '|' (by decide), hne '\t' (by decide),
      hne '\n' (by decide)]
  have hq : isQuoteRe a = false := by
    simp [isQuoteRe, hne '"' (by decide), hne '|' (by decide), hne '\'' (by decide)]
  have hdig : isDigitRe a = false := letter_not_digit ha
  have hid : isIdentRe a = true := letter_ident ha
  have hdl : dotLetterRe (a :: jsStr text[pre.length + 1]?) = false := by
    simp [dotLetterRe, dotLetterRe_jsStr, hne '.' (by decide)]
  have hjs : jsStr (some a) = [a] := rfl
  simp only [List.head?_cons] at hscan
  simp only [lexStep, lexChain, peekStr_three, peekStr_two]
  simp only [h0, reTest_some, hsp, hid, hq, hdig, hjs, List.singleton_append, hdl,
    List.cons_append]
  simp [hne '/' (by decide), hne '@' (by decide), hne '(' (by decide), hne ')' (by decide),
    hne '{' (by decide), hne '}' (by decide), hne '[' (by decide), hne ']' (by decide),
    hne ';' (by decide), hne '-' (by decide), hne '.' (by decide),
    hne '=' (by decide), hne '!' (by decide), hne '>' (by decide), hne '<' (by decide),
    hne '+' (by decide), hne '*' (by decide), hne '%' (by decide), hne '^' (by decide),
    hne '&' (by decide), hne '|' (by decide), hne ':' (by decide), hne ',' (by decide),
    hne '#' (by decide), comparators, arithmetics, logics, hasChar, h0, hjs,
    reTest_some, hsp, hid, hq, hdig, hdl, hscan]
  intro hv h2
  exfalso
  apply hp3
  rw [h0, hv, show jsStr (some 'v') = ['v'] from rfl, List.append_assoc, h2]
  rfl

/-- C12. At a word `a :: w` of letters, digits, percent signs and dashes that
starts with the letter `a`, does not begin with `var` and is followed by a
character `c` outside that class, one iteration of the main loop pushes
exactly one token and stops at `c`: a bool token with the native boolean for
`true` and `false` in any case, a unit token with the lower-case value for a
CSS unit in any case, and otherwise an identifier token with the word as
written. The tokens of a text that starts with the word are that token
followed by the tokens of the text from `c` on, by kind and value. So
`True;false;PX;Red;` gives bool true, bool false, unit `px` and identifier
`Red`, each followed by its semicolon. -/
theorem C12_word_token (pre : List Char) (a : Char) (w : List Char) (c : Char)
    (rest : List Char) (ha : isLetterRe a = true) (hw : w.all isIdentRe = true)
    (hvar : ¬ "var".toList <+: a :: w) (hc : isIdentRe c = false)
    (fuel : Nat) (filename : String) (s : LexState) (hs : s.index = pre.length) :
    lexStep (fuel + w.length + 1) filename (pre ++ (a :: w) ++ c :: rest) s =
      some { tokens := s.tokens ++
               [⟨(wordToken (a :: w)).1, (wordToken (a :: w)).2, s.line,
                 s.column + w.length + 1⟩],
             index := pre.length + w.length + 1, line := s.line,
             column := s.column + w.length + 1, current := some c, errors := s.errors } ∧
    (tokenize (fuel + w.length + 2) ((a :: w) ++ c :: rest) filename).map
        (List.map kindValue) =
      (tokenize (fuel + w.length + 1) (c :: rest) filename).map
        (fun ts => wordToken (a :: w) :: ts.map kindValue) ∧
    tokenize (20 + fuel) "True;false;PX;Red;".toList filename = some
      [⟨"bool", .bool true, 1, 5⟩, ⟨"semi", .str ";".toList, 1, 5⟩,
       ⟨"bool", .bool false, 1, 11⟩, ⟨"semi", .str ";".toList, 1, 11⟩,
       ⟨"unit", .str "px".toList, 1, 14⟩, ⟨"semi", .str ";".toList, 1, 14⟩,
       ⟨"identifier", .str "Red".toList, 1, 18⟩, ⟨"semi", .str ";".toList, 1, 18⟩] := by
  refine ⟨?_, ?_, tokenize_add (by rfl) fuel⟩
  · rw [lexStep_word pre a w c rest ha hw hvar hc fuel filename s hs, pushWord_eq]
  · have hstep := lexStep_word [] a w c rest ha hw hvar hc fuel filename initState rfl
    rw [pushWord_eq] at hstep
    simp only [List.nil_append, List.length_nil, Nat.zero_add] at hstep
    have hlt : initState.index < ((a :: w) ++ c :: rest).length := by
      simp [initState]
    have hag : Agree (w.length + 1) ((a :: w) ++ c :: rest) (c :: rest) := by
      have := agree_append (a :: w) (c :: rest)
      simpa using this
    have hsim : Sim (w.length + 1) [wordToken (a :: w)]
        { tokens := initState.tokens ++
            [⟨(wordToken (a :: w)).1, (wordToken (a :: w)).2, initState.line,
              initState.column + w.length + 1⟩],
          index := w.length + 1, line := initState.line,
          column := initState.column + w.length + 1, current := some c,
          errors := initState.errors } initState :=
      ⟨by simp [initState], rfl, rfl⟩
    have := sim_lexLoop hag (fuel + w.length + 1) filename hsim
    simp only [tokenize, run, Option.map_map]
    rw [show fuel + w.length + 2 = (fuel + w.length + 1) + 1 from rfl, lexLoop, if_pos hlt,
      hstep]
    exact this

/-- C12 at the text `Red;`: the first iteration pushes the identifier `Red`. -/
theorem C12_word_token_witness :
    lexStep (0 + "ed".toList.length + 1) "main.csss" ([] ++ ('R' :: "ed".toList) ++ ';' :: [])
        initState =
      some { tokens := [] ++ [⟨"identifier", .str "Red".toList, 1, 1 + 2 + 1⟩],
             index := 0 + 2 + 1, line := 1, column := 1 + 2 + 1, current := some ';',
             errors := [] } :=
  (C12_word_token [] 'R' "ed".toList ';' [] (by decide) (by decide) (by decide) (by decide)
    0 "main.csss" initState rfl).1

/-! ## The position of a token -/

/-- C14. A token carries the line and column the lexer has reached when the
token is pushed, which for a token of several characters is behind its
first character: in `ab cd;` the identifiers start at columns 1 and 4 and
carry the columns 3 and 6; the string that starts at line 1, column 1 and
holds a newline carries line 2, column 2; and after the skipped `var` the
parenthesis at column 4 carries column 1. -/
theorem C14_token_position_is_not_its_start (filename : String) (n : Nat) :
    tokenize (10 + n) "ab cd;".toList filename = some
      [⟨"identifier", .str "ab".toList, 1, 3⟩, ⟨"identifier", .str "cd".toList, 1, 6⟩,
       ⟨"semi", .str ";".toList, 1, 6⟩] ∧
    lineColumn "ab cd;".toList 0 = (1, 1) ∧ lineColumn "ab cd;".toList 3 = (1, 4) ∧
    lineColumn "ab cd;".toList 5 = (1, 6) ∧
    tokenize (10 + n) "\"a\nb\";".toList filename = some
      [⟨"string", .str "a\nb".toList, 2, 2⟩, ⟨"semi", .str ";".toList, 2, 3⟩] ∧
    lineColumn "\"a\nb\";".toList 0 = (1, 1) ∧ lineColumn "\"a\nb\";".toList 5 = (2, 3) ∧
    tokenize (10 + n) "var(--x);".toList filename = some
      [⟨"lpar", .str "(".toList, 1, 1⟩, ⟨"variable", .str "--x".toList, 1, 5⟩,
       ⟨"rpar", .str ")".toList, 1, 5⟩, ⟨"semi", .str ";".toList, 1, 6⟩] ∧
    lineColumn "var(--x);".toList 3 = (1, 4) :=
  ⟨tokenize_add (by rfl) n, by decide, by decide, by decide, tokenize_add (by rfl) n,
   by decide, by decide, tokenize_add (by rfl) n, by decide⟩

/-! ## The skipped `var` -/

/-- The `var` branch: the iteration moves three characters ahead and changes
nothing else. -/
theorem lexStep_var (pre r : List Char) (fuel : Nat) (filename : String) (s : LexState)
    (hs : s.index = pre.length) :
    lexStep fuel filename (pre ++ "var".toList ++ r) s =
      some { s with current := some 'v', index := s.index + 3 } := by
  obtain ⟨tk, i, ln, col, cur, er⟩ := s
  simp only at hs
  subst hs
  have hdrop : (pre ++ "var".toList ++ r).drop pre.length = 'v' :: 'a' :: 'r' :: r := by
    simp [List.append_assoc]
  have h0 : (pre ++ "var".toList ++ r)[pre.length]? = some 'v' := by
    have := getElem?_of_drop_eq hdrop 0
    simpa using this
  have h1 : (pre ++ "var".toList ++ r)[pre.length + 1]? = some 'a' := by
    have := getElem?_of_drop_eq hdrop 1
    simpa using this
  have h2 : (pre ++ "var".toList ++ r)[pre.length + 2]? = some 'r' := by
    have := getElem?_of_drop_eq hdrop 2
    simpa using this
  generalize pre ++ "var".toList ++ r = text at *
  simp [lexStep, lexChain, peekStr, jsStr, reTest, isSpaceRe, h0, h1, h2]

/-- C16. The text `var` at a token start produces no token and changes only
the index (and the current character, which the next iteration reads anew);
so the tokens of `"var" ++ s` are the tokens of `s`, by kind and value. The
text `var(--x);` gives lpar, variable `--x`, rpar and semi, and `variant;`
gives the identifier `iant`. -/
theorem C16_var_is_skipped (filename : String) (s : List Char) (fuel : Nat) :
    (∀ (pre : List Char) (st : LexState), st.index = pre.length →
      lexStep fuel filename (pre ++ "var".toList ++ s) st =
        some { st with current := some 'v', index := st.index + 3 }) ∧
    (tokenize (fuel + 1) ("var".toList ++ s) filename).map (List.map kindValue) =
      (tokenize fuel s filename).map (List.map kindValue) ∧
    (tokenize (10 + fuel) "var(--x);".toList filename).map (List.map kindValue) = some
      [("lpar", .str "(".toList), ("variable", .str "--x".toList), ("rpar", .str ")".toList),
       ("semi", .str ";".toList)] ∧
    (tokenize (10 + fuel) "variant;".toList filename).map (List.map kindValue) = some
      [("identifier", .str "iant".toList), ("semi", .str ";".toList)] := by
  refine ⟨fun pre st hst => lexStep_var pre s fuel filename st hst, ?_, ?_, ?_⟩
  · have hstep := lexStep_var [] s fuel filename initState rfl
    simp only [List.nil_append] at hstep
    have hlt : initState.index < ("var".toList ++ s).length := by
      simp [initState]
    have hag : Agree 3 ("var".toList ++ s) s := agree_append "var".toList s
    have hsim : Sim 3 [] { initState with current := some 'v', index := initState.index + 3 }
        initState := ⟨rfl, rfl, rfl⟩
    have := sim_lexLoop hag fuel filename hsim
    simp only [tokenize, run, Option.map_map]
    rw [lexLoop, if_pos hlt, hstep]
    simpa using this
  · rw [tokenize_add (by rfl) fuel]
    rfl
  · rw [tokenize_add (by rfl) fuel]
    rfl

/-! ## The character after a class name -/

/-- The scan loop that tests the current character, over a run of characters
of the class that is followed by a character outside it: it stops at that
character with the run appended. -/
theorem scanCurLoop_run {cls : Char → Bool} {text : List Char} (run : List Char) (c : Char)
    (rest : List Char) (hrun : run.all cls = true) (hc : cls c = false) (fuel : Nat)
    (s : LexState) (acc : List Char) (hcur : s.current = text[s.index]?)
    (htext : text.drop s.index = run ++ c :: rest) :
    scanCurLoop cls (fuel + run.length + 1) text s acc =
      some (nextN text run.length s, acc ++ run) := by
  induction run generalizing s acc with
  | nil =>
    have h0 : text[s.index]? = some c := by
      have := getElem?_of_drop_eq htext 0
      simpa using this
    rw [show fuel + ([] : List Char).length + 1 = fuel + 1 from rfl, scanCurLoop]
    simp [hcur, h0, reTest_some, hc, nextN]
  | cons x run ih =>
    have h0 : text[s.index]? = some x := by
      have := getElem?_of_drop_eq htext 0
      simpa using this
    have hx : cls x = true := by
      simp only [List.all_cons, Bool.and_eq_true] at hrun
      exact hrun.1
    have hrun' : run.all cls = true := by
      simp only [List.all_cons, Bool.and_eq_true] at hrun
      exact hrun.2
    have htext' : text.drop (next text s).index = run ++ c :: rest := by
      show text.drop (s.index + 1) = run ++ c :: rest
      rw [← List.drop_drop, htext]
      rfl
    rw [show fuel + (x :: run).length + 1 = (fuel + run.length + 1) + 1 from by
      simp only [List.length_cons]; omega, scanCurLoop]
    rw [hcur, h0]
    simp only [reTest_some, hx, if_true]
    rw [ih hrun' (next text s) (acc ++ jsStr (some x)) rfl htext']
    simp [nextN, jsStr]

/-- The class branch: at a dot followed by a letter, a run of word characters
and dashes and then a character `c` outside that class, one iteration pushes
one class token for the name and moves past `c`. -/
theorem lexStep_class (pre : List Char) (a : Char) (n : List Char) (c : Char) (rest : List Char)
    (ha : isLetterRe a = true) (hn : n.all isWordDashRe = true) (hc : isWordDashRe c = false)
    (fuel : Nat) (filename : String) (s : LexState) (hs : s.index = pre.length) :
    lexStep (fuel + n.length + 2) filename (pre ++ '.' :: (a :: n) ++ c :: rest) s =
      some { tokens := s.tokens ++ [⟨"class", .str (a :: n), s.line, s.column + n.length + 2⟩],
             index := pre.length + n.length + 3,
             line := if c = '\n' then s.line + 1 else s.line,
             column := if c = '\n' then 1 else s.column + n.length + 3,
             current := rest.head?, errors := s.errors } := by
  obtain ⟨tk, i, ln, col, cur, er⟩ := s
  simp only at hs
  subst hs
  have hdrop : (pre ++ '.' :: (a :: n) ++ c :: rest).drop pre.length =
      '.' :: a :: (n ++ c :: rest) := by
    simp [List.append_assoc]
  have h0 : (pre ++ '.' :: (a :: n) ++ c :: rest)[pre.length]? = some '.' := by
    have := getElem?_of_drop_eq hdrop 0
    simpa using this
  have h1 : (pre ++ '.' :: (a :: n) ++ c :: rest)[pre.length + 1]? = some a := by
    have := getElem?_of_drop_eq hdrop 1
    simpa using this
  have hdrop1 : (pre ++ '.' :: (a :: n) ++ c :: rest).drop (pre.length + 1) =
      (a :: n) ++ c :: rest := by
    rw [← List.drop_drop, hdrop]
    rfl
  have hdrop2 : (pre ++ '.' :: (a :: n) ++ c :: rest).drop (pre.length + 1 + 1) =
      n ++ c :: rest := by
    rw [← List.drop_drop, hdrop1]
    rfl
  have hdrop3 : (pre ++ '.' :: (a :: n) ++ c :: rest).drop (pre.length + 1 + n.length + 1) =
      c :: rest := by
    rw [show pre.length + 1 + n.length + 1 = (pre.length + 1 + 1) + n.length from by omega,
      ← List.drop_drop, hdrop2]
    simp
  have hlast : (pre ++ '.' :: (a :: n) ++ c :: rest)[pre.length + 1 + n.length + 1 + 1]? =
      rest.head? := by
    have := getElem?_of_drop_eq hdrop3 1
    simpa [List.head?_eq_getElem?] using this
  generalize htext : pre ++ '.' :: (a :: n) ++ c :: rest = text at *
  have haw : isWordDashRe a = true := by simp [isWordDashRe, ha]
  have hscan := @scanCurLoop_run isWordDashRe text (a :: n) c rest
    (by simp only [List.all_cons, hn, haw, Bool.and_self]) hc fuel
    { tokens := tk, index := pre.length + 1, line := ln, column := col + 1, current := some a,
      errors := er } [] h1.symm hdrop1
  have hnext := @nextN_run text n (c :: rest)
    { tokens := tk, index := pre.length + 1, line := ln, column := col + 1, current := some a,
      errors := er } (by simpa using wordDash_ne_newline haw)
    (fun x hx => wordDash_ne_newline (List.all_eq_true.mp hn x hx)) hdrop2
  simp only [List.length_cons] at hscan
  rw [hnext] at hscan
  simp only [List.head?_cons, List.nil_append] at hscan
  have hdig : isDigitRe a = false := letter_not_digit ha
  have hfuel : fuel + n.length + 2 = fuel + (n.length + 1) + 1 := by omega
  rw [hfuel]
  simp only [lexStep, lexChain, h0, h1, peekStr_two, peekStr_three, reTest_some, jsStr]
  simp [reTest_some, show isSpaceRe '.' = false from by decide,
    show isDigitRe '.' = false from by decide, show isQuoteRe '.' = false from by decide,
    peek, dotLetterRe, comparators, arithmetics,
    logics, hasChar, jsStr, h0, h1, ha, hdig, hscan, pushToken, next, hlast]
  refine ⟨by omega, by omega, ?_⟩
  split_ifs <;> omega

/-- C19. At a dot followed by a class name `a :: n` (a letter, then word
characters and dashes) and a character `c` outside that class, the iteration
pushes the class token and then moves past `c`: the character after the name
is consumed. The tokens of the text are the class token followed by the
tokens of the text after `c`, by kind and value; so `.a{}` gives the class
`a` and the closing bracket only. -/
theorem C19_class_consumes_next_character (a : Char) (n : List Char) (c : Char)
    (r : List Char) (ha : isLetterRe a = true) (hn : n.all isWordDashRe = true)
    (hc : isWordDashRe c = false) (fuel : Nat) (filename : String) :
    lexStep (fuel + n.length + 2) filename ('.' :: (a :: n) ++ c :: r) initState =
      some { tokens := [⟨"class", .str (a :: n), 1, 1 + n.length + 2⟩],
             index := n.length + 3,
             line := if c = '\n' then 2 else 1,
             column := if c = '\n' then 1 else 1 + n.length + 3,
             current := r.head?, errors := [] } ∧
    (tokenize (fuel + n.length + 3) ('.' :: (a :: n) ++ c :: r) filename).map
        (List.map kindValue) =
      (tokenize (fuel + n.length + 2) r filename).map
        (fun ts => ("class", Value.str (a :: n)) :: ts.map kindValue) ∧
    tokenize (6 + fuel) ".a\x7b\x7d".toList filename = some
      [⟨"class", .str "a".toList, 1, 3⟩, ⟨"rcurb", .str "\x7d".toList, 1, 4⟩] := by
  have hstep := lexStep_class [] a n c r ha hn hc fuel filename initState rfl
  simp only [List.nil_append, List.length_nil, Nat.zero_add] at hstep
  have hstep' : lexStep (fuel + n.length + 2) filename ('.' :: (a :: n) ++ c :: r) initState =
      some { tokens := [⟨"class", .str (a :: n), 1, 1 + n.length + 2⟩],
             index := n.length + 3,
             line := if c = '\n' then 2 else 1,
             column := if c = '\n' then 1 else 1 + n.length + 3,
             current := r.head?, errors := [] } := by
    rw [hstep]
    rfl
  refine ⟨hstep', ?_, tokenize_add (by rfl) fuel⟩
  have hlt : initState.index < ('.' :: (a :: n) ++ c :: r).length := by
    simp [initState]
  have hag : Agree (n.length + 3) ('.' :: (a :: n) ++ c :: r) r := by
    have := agree_append ('.' :: (a :: n) ++ [c]) r
    simpa using this
  have hsim : Sim (n.length + 3) [("class", Value.str (a :: n))]
      { tokens := [⟨"class", .str (a :: n), 1, 1 + n.length + 2⟩],
        index := n.length + 3,
        line := if c = '\n' then 2 else 1,
        column := if c = '\n' then 1 else 1 + n.length + 3,
        current := r.head?, errors := [] } initState :=
    ⟨by simp [initState], rfl, rfl⟩
  have := sim_lexLoop hag (fuel + n.length + 2) filename hsim
  simp only [tokenize, run, Option.map_map]
  rw [show fuel + n.length + 3 = (fuel + n.length + 2) + 1 from rfl, lexLoop, if_pos hlt,
    hstep']
  exact this

/-- C19 at the text `.a{}`: the iteration on the class moves past the opening bracket. -/
theorem C19_class_consumes_next_character_witness :
    lexStep (0 + ([] : List Char).length + 2) "main.csss"
        ('.' :: ('a' :: []) ++ '\x7b' :: "\x7d".toList) initState =
      some { tokens := [⟨"class", .str ('a' :: []), 1, 1 + ([] : List Char).length + 2⟩],
             index := ([] : List Char).length + 3,
             line := if '\x7b' = '\n' then 2 else 1,
             column := if '\x7b' = '\n' then 1 else 1 + ([] : List Char).length + 3,
             current := "\x7d".toList.head?, errors := [] } :=
  (C19_class_consumes_next_character 'a' [] '\x7b' "\x7d".toList (by decide) (by decide)
    (by decide) 0 "main.csss").1

end Lexer

namespace Preproc

/-! ## Comments and the shebang line -/

theorem closeAt_spec : ∀ (m : List Char) (k : Nat), closeAt m = some k →
    m[k]? = some '*' ∧ m[k + 1]? = some '/' ∧
    ∀ j, j < k → ¬ (m[j]? = some '*' ∧ m[j + 1]? = some '/') := by
  intro m
  induction m with
  | nil => intro k h; cases h
  | cons c rest ih =>
    intro k h
    rw [closeAt] at h
    split_ifs at h with hc
    · cases h
      refine ⟨by simp [hc.1], by simpa [List.head?_eq_getElem?] using hc.2, ?_⟩
      intro j hj
      omega
    · cases hr : closeAt rest with
      | none => rw [hr] at h; cases h
      | some k' =>
        rw [hr] at h
        simp only [Option.map_some', Option.some.injEq] at h
        subst h
        obtain ⟨h0, h1, h2⟩ := ih k' hr
        refine ⟨by simpa using h0, by simpa using h1, ?_⟩
        intro j hj
        rcases j with _ | j
        · intro hh
          apply hc
          refine ⟨by simpa using hh.1, ?_⟩
          simpa [List.head?_eq_getElem?] using hh.2
        · have := h2 j (by omega)
          simpa using this

theorem pairIs_false_of_not {text : List Char} {j : Nat} {x y : Char}
    (h : ¬ (text[j]? = some x ∧ text[j + 1]? = some y)) :
    pairIs text j [x, y] = false := by
  unfold pairIs
  cases h0 : text[j]? with
  | none => rfl
  | some c =>
    cases h1 : text[j + 1]? with
    | none =>
      show (c :: jsStr none == [x, y]) = false
      rw [beq_eq_false_iff_ne]
      intro h
      have := congrArg List.length h
      simp [jsStr, undefinedStr] at this
    | some d =>
      show ([c, d] == [x, y]) = false
      rw [beq_eq_false_iff_ne]
      intro hne
      apply h
      rw [h0, h1]
      simp only [List.cons.injEq, and_true] at hne
      rw [hne.1, hne.2]
      exact ⟨rfl, rfl⟩

/-- The loop that skips a comment stops at the first `*/` from its start on. -/
theorem commentLoop_first {text : List Char} (k : Nat) :
    ∀ (i : Nat), text[i + k]? = some '*' → text[i + k + 1]? = some '/' →
      (∀ j, j < k → ¬ (text[i + j]? = some '*' ∧ text[i + j + 1]? = some '/')) →
      ∀ fuel, commentLoop (fuel + k + 1) text i = some (i + k) := by
  induction k with
  | zero =>
    intro i h0 h1 _ fuel
    exact commentLoop_found fuel h0 h1
  | succ k ih =>
    intro i h0 h1 h fuel
    have hz := h 0 (by omega)
    simp only [Nat.add_zero] at hz
    rw [show fuel + (k + 1) + 1 = (fuel + k + 1) + 1 from rfl, commentLoop,
      show "*/".toList = ['*', '/'] from rfl, pairIs_false_of_not hz]
    simp only [Bool.false_eq_true, if_false]
    rw [ih (i + 1) (by rw [← h0]; congr 1; omega) (by rw [← h1]; congr 1; omega)
      (fun j hj => by
        have := h (j + 1) (by omega)
        rw [show i + (j + 1) = i + 1 + j from by omega] at this
        exact this) fuel]
    congr 1
    omega

/-- The scan from a position outside any comment, over a text all of whose
`@` lie in terminated comments that do not open with `/*/`: every comment is
skipped, no directive is found, and the text is returned as it is. -/
theorem scan_commentsCover (config : Config) (loc fn : List Char) (stack : List (List Char))
    (st : PreState) {text : List Char} (d : Nat) :
    ∀ (i : Nat) (l : List Char), text.drop i = l → commentsCover true d l = true →
      ∀ fuel, scan (fuel + l.length + 2) config text i loc fn stack st = .ok text st := by
  induction d with
  | zero => intro i l _ h; cases h
  | succ d ih =>
    intro i l hdrop hcov fuel
    cases l with
    | nil =>
      have hlen : text.length ≤ i := by
        have := congrArg List.length hdrop
        simp only [List.length_drop, List.length_nil] at this
        omega
      rw [show fuel + ([] : List Char).length + 2 = (fuel + 1) + 1 from rfl, scan,
        if_neg (by omega)]
    | cons c rest =>
      have h0 : text[i]? = some c := by
        have := Lexer.getElem?_of_drop_eq hdrop 0
        simpa using this
      have h1 : text[i + 1]? = rest.head? := by
        have := Lexer.getElem?_of_drop_eq hdrop 1
        simpa [List.head?_eq_getElem?] using this
      have hlt : i < text.length := by
        by_contra hge
        rw [List.getElem?_eq_none (Nat.le_of_not_lt hge)] at h0
        cases h0
      have hdrop1 : text.drop (i + 1) = rest := by
        rw [← List.drop_drop, hdrop]
        rfl
      rw [commentsCover] at hcov
      rw [show fuel + (c :: rest).length + 2 = (fuel + rest.length + 2) + 1 from by
        simp only [List.length_cons]; omega, scan, if_pos hlt]
      by_cases hopen : c = '/' ∧ rest.head? = some '*'
      · rw [if_pos hopen] at hcov
        obtain ⟨rfl, hstar⟩ := hopen
        cases rest with
        | nil => cases hstar
        | cons x m =>
          simp only [List.head?_cons, Option.some.injEq] at hstar
          subst hstar
          simp only [List.tail_cons] at hcov
          cases hk : closeAt m with
          | none => rw [hk] at hcov; cases hcov
          | some k =>
            rw [hk] at hcov
            simp only [Bool.not_true, Bool.false_or, Bool.and_eq_true, bne_iff_ne, ne_eq] at hcov
            obtain ⟨hhead, hrest⟩ := hcov
            obtain ⟨hk0, hk1, hk2⟩ := closeAt_spec m k hk
            have hdrop2 : text.drop (i + 2) = m := by
              rw [show i + 2 = i + 1 + 1 from rfl, ← List.drop_drop, hdrop1]
              rfl
            have hm : ∀ j, text[i + 2 + j]? = m[j]? := fun j =>
              Lexer.getElem?_of_drop_eq hdrop2 j
            have hklen : k + 1 < m.length := by
              by_contra hge
              rw [List.getElem?_eq_none (Nat.le_of_not_lt hge)] at hk1
              cases hk1
            have hp : pairIs text i "/*".toList = true := by
              rw [show "/*".toList = ['/', '*'] from rfl, pairIs_of_get h0 (by rw [h1]; rfl)]
              rfl
            have hloop := @commentLoop_first text (k + 2) i
              (by rw [show i + (k + 2) = i + 2 + k from by omega, hm]; exact hk0)
              (by rw [show i + (k + 2) + 1 = i + 2 + (k + 1) from by omega, hm]; exact hk1)
              (by
                intro j hj
                rcases j with _ | _ | j
                · rw [Nat.add_zero, h0]
                  simp
                · rw [show i + (0 + 1) + 1 = i + 2 + 0 from by omega, hm]
                  intro hh
                  apply hhead
                  rw [List.head?_eq_getElem?]
                  exact hh.2
                · rw [show i + (j + 1 + 1) = i + 2 + j from by omega,
                    show i + 2 + j + 1 = i + 2 + (j + 1) from by omega, hm, hm]
                  exact hk2 j (by omega))
              (fuel + m.length - k)
            have hslash : text[i + (k + 2) + 1]? = some '/' := by
              rw [show i + (k + 2) + 1 = i + 2 + (k + 1) from by omega, hm]
              exact hk1
            have hdrop3 : text.drop (i + (k + 2) + 1 + 1) = m.drop (k + 2) := by
              rw [show i + (k + 2) + 1 + 1 = (i + 2) + (k + 2) from by omega, ← List.drop_drop,
                hdrop2]
            have hfuel : fuel + ('*' :: m).length + 2 = fuel + m.length - k + (k + 2) + 1 := by
              simp only [List.length_cons]; omega
            have hfuel2 : fuel + ('*' :: m).length + 2 =
                (fuel + k + 3) + (m.drop (k + 2)).length + 2 := by
              simp only [List.length_cons, List.length_drop]; omega
            rw [hp, if_pos rfl]
            conv_lhs => arg 1; rw [hfuel, hloop]
            rw [Option.map_some', afterLoop_some,
              if_neg (fun hc => by rw [hslash] at hc; exact absurd hc.1 (by decide)), hfuel2]
            exact ih _ _ hdrop3 hrest (fuel + k + 3)
      · rw [if_neg hopen] at hcov
        simp only [Bool.and_eq_true, bne_iff_ne, ne_eq] at hcov
        obtain ⟨hat, hrest⟩ := hcov
        have hp : pairIs text i "/*".toList = false := by
          rw [show "/*".toList = ['/', '*'] from rfl]
          apply pairIs_false_of_not
          rw [h0, h1]
          intro hh
          exact hopen ⟨Option.some.inj hh.1, hh.2⟩
        rw [hp]
        simp only [Bool.false_eq_true, if_false, afterLoop_some]
        rw [if_neg (fun hc => hat (by rw [h0] at hc; exact Option.some.inj hc.1))]
        exact ih (i + 1) rest hdrop1 hrest fuel

theorem stripShebang_of_take {text : List Char} (h : text.take 2 ≠ "#!".toList) :
    stripShebang text = text := by
  rw [stripShebang, if_neg]
  simpa [substr] using h

/-- The search on a text that does not start with `#!` and all of whose `@`
lie in terminated comments that do not open with `/*/`: the text is returned
between the markers, and no file is read. -/
theorem searchRequire_commentsCover (config : Config) (location filename : List Char)
    (hl : ∀ c ∈ location, c ≠ '*') (hf : ∀ c ∈ filename, c ≠ '*') (text : List Char)
    (hsh : text.take 2 ≠ "#!".toList) (hcov : commentsCover true (text.length + 1) text = true)
    (stack : List (List Char)) (st : PreState)
    (hcount : stack.count (location ++ "/".toList ++ filename) < config.recursionLimit)
    (fuel : Nat) :
    searchRequire (fuel + text.length + (openTag location filename).length + 4) config text
        location filename stack st =
      .ok (openTag location filename ++ text ++ closeTag)
        { st with calls := st.calls ++ [(location ++ "/".toList ++ filename, stack)] } := by
  have hscan := @scan_commentsCover config location filename
    (stack ++ [location ++ "/".toList ++ filename])
    { st with calls := st.calls ++ [(location ++ "/".toList ++ filename, stack)] }
    (openTag location filename ++ text) (text.length + 1) (openTag location filename).length
    text (List.drop_left _ _) hcov (fuel + (openTag location filename).length)
  rw [show fuel + text.length + (openTag location filename).length + 4 =
      (fuel + text.length + 2 + (openTag location filename).length + 1) + 1 from by omega,
    searchRequire, if_neg (Nat.not_le.mpr hcount), stripShebang_of_take hsh,
    scan_openTag hl hf,
    show fuel + text.length + 2 + (openTag location filename).length =
      (fuel + (openTag location filename).length) + text.length + 2 from by omega,
    hscan]
  rfl

/-- C13. For a text that does not start with `#!` and all of whose `@` lie
in terminated block comments none of which opens with `/*/`, the expansion
returns the text unchanged between the two markers, whatever the file system
(for a location and a file name without `*`); so the directive inside
`/* @require "x"; */` is inert. But the comment `/*/ @require "x"; */` also
holds its `@`, and its directive is expanded: the loop that skips a comment
starts its search for `*/` at the opening slash and takes `/*/` for a whole
comment. With the file `./x` on disk the file is read and its text inserted;
in the empty file system the run faults with `MalformedRequire`. -/
theorem C13_directive_in_slash_comment_is_expanded (limit : Nat) (hL : 1 ≤ limit) (n : Nat) :
    (∀ (readFile : List Char → Option (List Char)) (location filename text : List Char),
      (∀ c ∈ location, c ≠ '*') → (∀ c ∈ filename, c ≠ '*') → text.take 2 ≠ "#!".toList →
      commentsCover true (text.length + 1) text = true →
      expand (n + text.length + (openTag location filename).length + 4) ⟨limit, readFile⟩ text
          location filename =
        .ok (openTag location filename ++ text ++ closeTag)
          ⟨[], [(location ++ "/".toList ++ filename, [])]⟩) ∧
    commentsCover true (plainComment.length + 1) plainComment = true ∧
    commentsCover false (slashComment.length + 1) slashComment = true ∧
    slashComment.take 2 ≠ "#!".toList ∧
    expand (200 + n) ⟨limit, oneFileFs⟩ slashComment ".".toList "main.csss".toList =
      .ok ("/* CSSS:FILE \"/./main.csss\" */".toList ++ "/*/ ".toList ++
            ("/* CSSS:FILE \"/./x\" */".toList ++ "X".toList ++ closeTag) ++ " */".toList ++
            closeTag)
        ⟨[], [("./main.csss".toList, []), ("./x".toList, ["./main.csss".toList])]⟩ ∧
    expand (200 + n) ⟨1, emptyFs⟩ slashComment ".".toList "main.csss".toList =
      .crit (.missingFile ".".toList "x".toList) ⟨[], [("./main.csss".toList, [])]⟩ := by
  have h1 : expand 200 ⟨1, oneFileFs⟩ slashComment ".".toList "main.csss".toList =
      .ok ("/* CSSS:FILE \"/./main.csss\" */".toList ++ "/*/ ".toList ++
            ("/* CSSS:FILE \"/./x\" */".toList ++ "X".toList ++ closeTag) ++ " */".toList ++
            closeTag)
        ⟨[], [("./main.csss".toList, []), ("./x".toList, ["./main.csss".toList])]⟩ := by
    decide!
  have h2 : expand 200 ⟨1, emptyFs⟩ slashComment ".".toList "main.csss".toList =
      .crit (.missingFile ".".toList "x".toList) ⟨[], [("./main.csss".toList, [])]⟩ := by
    decide!
  have hl1 := (limit_mono 200 1 limit hL oneFileFs).1 slashComment ".".toList
    "main.csss".toList [] ⟨[], []⟩ _ _ h1
  refine ⟨?_, by decide, by decide, by decide, expand_add hl1 (by simp) n,
    expand_add h2 (by simp) n⟩
  intro readFile location filename text hl hf hsh hcov
  exact searchRequire_commentsCover ⟨limit, readFile⟩ location filename hl hf text hsh hcov []
    ⟨[], []⟩ (by simpa using hL) n

/-- C13 with the recursion limit 3, at the comment `/* @require "x"; */` in
the empty file system. -/
theorem C13_directive_in_slash_comment_is_expanded_witness :
    1 ≤ 3 ∧
    expand (0 + plainComment.length + (openTag ".".toList "main.csss".toList).length + 4)
        ⟨3, emptyFs⟩ plainComment ".".toList "main.csss".toList =
      .ok (openTag ".".toList "main.csss".toList ++ plainComment ++ closeTag)
        ⟨[], [(".".toList ++ "/".toList ++ "main.csss".toList, [])]⟩ :=
  ⟨by decide, (C13_directive_in_slash_comment_is_expanded 3 (by decide) 0).1 emptyFs
    ".".toList "main.csss".toList plainComment (by decide) (by decide) (by decide) (by decide)⟩

theorem pairIs_open_false {text : List Char} {j : Nat}
    (h : ¬ (text[j]? = some '/' ∧ text[j + 1]? = some '*')) :
    pairIs text j "/*".toList = false := by
  unfold pairIs
  cases h0 : text[j]? with
  | none => rfl
  | some c =>
    cases h1 : text[j + 1]? with
    | none =>
      show (c :: jsStr none == "/*".toList) = false
      rw [beq_eq_false_iff_ne]
      intro h
      have := congrArg List.length h
      simp [jsStr, undefinedStr] at this
    | some d =>
      simp only [jsStr]
      by_contra hne
      apply h
      rw [h0, h1]
      simp only [Bool.not_eq_false, beq_iff_eq] at hne
      have : [c, d] = ['/', '*'] := hne
      simp only [List.cons.injEq, and_true] at this
      rw [this.1, this.2]
      exact ⟨rfl, rfl⟩

/-- The scan over a text that from position `i` on holds no `@` and no `/*`:
it reaches the end of the text and returns the text as it is. -/
theorem scan_inert {text : List Char} (config : Config) (loc fn : List Char)
    (stack : List (List Char)) (st : PreState) (d : Nat) :
    ∀ (i : Nat), text.length - i ≤ d →
      (∀ j, i ≤ j → text[j]? ≠ some '@' ∧ ¬ (text[j]? = some '/' ∧ text[j + 1]? = some '*')) →
      ∀ fuel, scan (fuel + d + 1) config text i loc fn stack st = .ok text st := by
  induction d with
  | zero =>
    intro i hd _ fuel
    rw [scan, if_neg (by omega)]
  | succ d ih =>
    intro i hd h fuel
    rw [show fuel + (d + 1) + 1 = (fuel + d + 1) + 1 from rfl, scan]
    by_cases hlt : i < text.length
    · rw [if_pos hlt, pairIs_open_false (h i (Nat.le_refl i)).2]
      simp only [Bool.false_eq_true, if_false, afterLoop_some]
      rw [if_neg (fun hc => (h i (Nat.le_refl i)).1 hc.1)]
      exact ih (i + 1) (by omega) (fun j hj => h j (by omega)) fuel
    · rw [if_neg hlt]

theorem indexOf_none {c : Char} {l : List Char} (h : c ∉ l) : indexOf c l = none := by
  induction l with
  | nil => rfl
  | cons x xs ih =>
    simp only [List.mem_cons, not_or] at h
    rw [indexOf, if_neg (fun hx => h.1 hx.symm), ih h.2]
    rfl

theorem indexOf_append {c : Char} (l rest : List Char) (h : c ∉ l) :
    indexOf c (l ++ c :: rest) = some l.length := by
  induction l with
  | nil => simp [indexOf]
  | cons x xs ih =>
    simp only [List.mem_cons, not_or] at h
    rw [List.cons_append, indexOf, if_neg (fun hx => h.1 hx.symm), ih h.2]
    rfl

/-- What is left of a text that starts with `#!`: the text from its first
newline on, or its last character when it has no newline. -/
theorem stripShebang_shebang {text : List Char} (h2 : text.take 2 = "#!".toList) :
    ('\n' ∉ text → stripShebang text = text.drop (text.length - 1)) ∧
    (∀ l rest, text = l ++ '\n' :: rest → '\n' ∉ l → stripShebang text = '\n' :: rest) := by
  have hs : substr text 0 2 = "#!".toList := by
    simpa [substr] using h2
  refine ⟨fun hn => ?_, fun l rest ht hl => ?_⟩
  · rw [stripShebang, if_pos hs, indexOf_none hn]
  · rw [stripShebang, if_pos hs, ht, indexOf_append l rest hl]
    simp

theorem stripShebang_drop (text : List Char) : ∃ k, stripShebang text = text.drop k := by
  unfold stripShebang
  split_ifs
  · cases indexOf '\n' text with
    | none => exact ⟨_, rfl⟩
    | some k => exact ⟨k, rfl⟩
  · exact ⟨0, rfl⟩

/-- The search on a text whose part after the shebang strip holds no `@` and
no `/*`: no directive is found, and the text is returned between the markers. -/
theorem searchRequire_inert (config : Config) (location filename : List Char)
    (hl : ∀ c ∈ location, c ≠ '*') (hf : ∀ c ∈ filename, c ≠ '*') (text : List Char)
    (hat : '@' ∉ text) (hpair : ∀ j, ¬ (text[j]? = some '/' ∧ text[j + 1]? = some '*'))
    (stack : List (List Char)) (st : PreState)
    (hcount : stack.count (location ++ "/".toList ++ filename) < config.recursionLimit)
    (fuel : Nat) :
    searchRequire (fuel + text.length + (openTag location filename).length + 3) config text
        location filename stack st =
      .ok (openTag location filename ++ stripShebang text ++ closeTag)
        { st with calls := st.calls ++ [(location ++ "/".toList ++ filename, stack)] } := by
  obtain ⟨k, hk⟩ := stripShebang_drop text
  have hlen : (stripShebang text).length ≤ text.length := by
    rw [hk, List.length_drop]
    omega
  have hscan := @scan_inert (openTag location filename ++ stripShebang text) config location
    filename (stack ++ [location ++ "/".toList ++ filename])
    { st with calls := st.calls ++ [(location ++ "/".toList ++ filename, stack)] }
    text.length (openTag location filename).length
    (by rw [List.length_append]; omega)
    (by
      intro j hj
      obtain ⟨m, rfl⟩ := Nat.exists_eq_add_of_le hj
      have e0 : (openTag location filename ++ stripShebang text)[
          (openTag location filename).length + m]? = text[k + m]? := by
        rw [List.getElem?_append_right (Nat.le_add_right _ _), Nat.add_sub_cancel_left, hk,
          List.getElem?_drop]
      have e1 : (openTag location filename ++ stripShebang text)[
          (openTag location filename).length + m + 1]? = text[k + m + 1]? := by
        rw [Nat.add_assoc, List.getElem?_append_right (Nat.le_add_right _ _),
          Nat.add_sub_cancel_left, hk, List.getElem?_drop]
        rfl
      rw [e0, e1]
      refine ⟨fun h => hat (List.getElem?_mem h), hpair (k + m)⟩)
    (fuel + (openTag location filename).length)
  rw [show fuel + text.length + (openTag location filename).length + 3 =
      (fuel + text.length + 1 + (openTag location filename).length + 1) + 1 from by omega,
    searchRequire, if_neg (Nat.not_le.mpr hcount), scan_openTag hl hf,
    show fuel + text.length + 1 + (openTag location filename).length =
      (fuel + (openTag location filename).length) + text.length + 1 from by omega,
    hscan]
  rfl

/-- C20. For a text that begins with `#!` and holds no `@` and no `/*`, the
expansion returns the two markers around what the strip leaves of the text
(for every recursion limit of at least 1, and a location and a file name
without `*`). With a newline in the text that is the text from its first
newline on. Without a newline it is the last character of the text, not the
empty text: `indexOf` returns -1 and `substr(-1)` is the last character. -/
theorem C20_shebang_without_newline_keeps_last_character (config : Config)
    (hL : 1 ≤ config.recursionLimit) (location filename : List Char)
    (hl : ∀ c ∈ location, c ≠ '*') (hf : ∀ c ∈ filename, c ≠ '*') (text : List Char)
    (h2 : text.take 2 = "#!".toList) (hat : '@' ∉ text)
    (hpair : ∀ j, ¬ (text[j]? = some '/' ∧ text[j + 1]? = some '*')) (n : Nat) :
    expand (n + text.length + (openTag location filename).length + 3) config text location
        filename =
      .ok (openTag location filename ++ stripShebang text ++ closeTag)
        ⟨[], [(location ++ "/".toList ++ filename, [])]⟩ ∧
    ('\n' ∉ text →
      stripShebang text = text.drop (text.length - 1) ∧ (stripShebang text).length = 1) ∧
    (∀ l rest, text = l ++ '\n' :: rest → '\n' ∉ l → stripShebang text = '\n' :: rest) := by
  have hs := stripShebang_shebang h2
  refine ⟨searchRequire_inert config location filename hl hf text hat hpair [] ⟨[], []⟩
    (by simpa using hL) n, fun hn => ⟨hs.1 hn, ?_⟩, hs.2⟩
  have hlen : 2 ≤ text.length := by
    have := congrArg List.length h2
    simp only [List.length_take] at this
    have h' : ("#!".toList).length = 2 := rfl
    omega
  rw [hs.1 hn, List.length_drop]
  omega

/-- C20 at the text `#!/bin/sh`, without a newline: the expansion is the two
markers around `h`. -/
theorem C20_shebang_without_newline_keeps_last_character_witness :
    expand (0 + "#!/bin/sh".toList.length + (openTag ".".toList "main.csss".toList).length + 3)
        ⟨1, emptyFs⟩ "#!/bin/sh".toList ".".toList "main.csss".toList =
      .ok (openTag ".".toList "main.csss".toList ++ stripShebang "#!/bin/sh".toList ++ closeTag)
        ⟨[], [(".".toList ++ "/".toList ++ "main.csss".toList, [])]⟩ ∧
    stripShebang "#!/bin/sh".toList = "h".toList :=
  ⟨(C20_shebang_without_newline_keeps_last_character ⟨1, emptyFs⟩ (Nat.le_refl 1)
      ".".toList "main.csss".toList (by decide) (by decide) "#!/bin/sh".toList (by decide)
      (by decide) (by
        intro j
        rcases j with _ | _ | _ | _ | _ | _ | _ | _ | _ | j <;> simp) 0).1,
   by decide⟩

end Preproc

/-! ## Runs that return -/

theorem returns_bind {ε α β : Type} {P : α → Prop} {Q : β → Prop} {r : Res ε α}
    {g : α → Res ε β} (hr : Res.Returns P r) (hg : ∀ a, P a → Res.Returns Q (g a)) :
    Res.Returns Q (r.bind g) := by
  cases r with
  | ok a => exact hg a hr
  | fault e => exact hr.elim
  | timeout => exact hr.elim

theorem returns_ite {ε α : Type} {P : α → Prop} {c : Prop} [Decidable c] {a b : Res ε α}
    (ha : Res.Returns P a) (hb : Res.Returns P b) : Res.Returns P (if c then a else b) := by
  split_ifs <;> assumption

theorem returns_exists {ε α : Type} {P : α → Prop} {r : Res ε α} (h : Res.Returns P r) :
    ∃ a, r = .ok a ∧ P a := by
  cases r with
  | ok a => exact ⟨a, rfl, h⟩
  | fault e => exact h.elim
  | timeout => exact h.elim

namespace Parse

open Lexer (Token)

/-! ## The first token of the stream -/

theorem nextAux_head (t0 t : Token) (rest : List Token) (fuel : Nat) (s : PState) :
    nextAux fuel (t0 :: rest) s = nextAux fuel (t :: rest) s := by
  induction fuel generalizing s with
  | zero => rfl
  | succ n ih =>
    rw [nextAux, nextAux]
    simp only [List.length_cons, List.getElem?_cons_succ, ih]

theorem next_head (t0 t : Token) (rest : List Token) (s : PState) :
    next (t0 :: rest) s = next (t :: rest) s := by
  unfold next
  simp only [List.length_cons]
  exact nextAux_head t0 t rest _ s

theorem peek_head {α : Type} (t0 t : Token) (rest : List Token) (s : PState) (dflt : α)
    (callback : Token → α) :
    peek (t0 :: rest) s dflt callback = peek (t :: rest) s dflt callback := by
  unfold peek
  simp only [List.length_cons, List.drop_succ_cons]

theorem checkOpening_head (t0 t : Token) (rest : List Token) (s : PState)
    (callback : Token → Bool) (message : Diag) :
    checkOpening (t0 :: rest) s callback message = checkOpening (t :: rest) s callback message := by
  unfold checkOpening
  rw [peek_head t0 t]

/-- The three functions of the parser do not depend on the first token. -/
theorem walk_head (t0 t : Token) (rest : List Token) (fuel : Nat) :
    (∀ filename validTags closeFunction s,
      walkThrough fuel filename validTags (t0 :: rest) closeFunction s =
        walkThrough fuel filename validTags (t :: rest) closeFunction s) ∧
    (∀ filename validTags closeFunction s,
      walkLoop fuel filename validTags (t0 :: rest) closeFunction s =
        walkLoop fuel filename validTags (t :: rest) closeFunction s) ∧
    (∀ filename validTags closeFunction s,
      walk fuel filename validTags (t0 :: rest) closeFunction s =
        walk fuel filename validTags (t :: rest) closeFunction s) := by
  induction fuel with
  | zero => exact ⟨fun _ _ _ _ => rfl, fun _ _ _ _ => rfl, fun _ _ _ _ => rfl⟩
  | succ n ih =>
    obtain ⟨ihT, ihL, ihW⟩ := ih
    refine ⟨?_, ?_, ?_⟩
    · intro filename validTags closeFunction s
      rw [walkThrough, walkThrough, next_head t0 t, ihL]
    · intro filename validTags closeFunction s
      rw [walkLoop, walkLoop]
      simp only [ihW, ihL, next_head t0 t]
    · intro filename validTags closeFunction s
      rw [walk, walk]
      simp only [ihT, next_head t0 t, peek_head t0 t, checkOpening_head t0 t, List.length_cons]

/-- C21. The parser never reads the first token: for every stream and every
replacement of its first token, the parse has the same outcome, tree and
final variables alike, for every fuel. So the tokens of `--foo: 5;` with any
token in place of the variable parse to the Program that holds the number 5
alone. -/
theorem C21_first_token_is_never_read (fuel : Nat) (validTags : List (List Char))
    (filename : String) (t0 t : Token) (rest : List Token) :
    run fuel validTags (t0 :: rest) filename = run fuel validTags (t :: rest) filename ∧
    parse fuel validTags (t0 :: rest) filename = parse fuel validTags (t :: rest) filename ∧
    parse (40 + fuel) validTags (t :: fooTokens.tail) filename =
      .ok (.program [.number (.str "plain".toList) (.dec false 5 0)]) := by
  have h : ∀ a b : Token, run fuel validTags (a :: rest) filename =
      run fuel validTags (b :: rest) filename := by
    intro a b
    unfold run
    rw [(walk_head a b rest fuel).1]
  have hfoo : run 40 validTags fooTokens filename = .ok
      (.program [.number (.str "plain".toList) (.dec false 5 0)],
       { index := 3, line := .num (.dec false 1 0),
         token := some ⟨"semi", .str ";".toList, 1, 9⟩,
         log := [.unexpected "assign" (.str ":".toList) (.num (.dec false 1 0)) filename] }) := by
    rfl
  refine ⟨h t0 t, by unfold parse; rw [h t0 t], ?_⟩
  unfold parse run
  rw [← (walk_head ⟨"variable", .str "--foo".toList, 1, 6⟩ t fooTokens.tail (40 + fuel)).1]
  have := run_add hfoo fuel
  unfold run at this
  show ((walkThrough (40 + fuel) filename validTags fooTokens (fun _ => false) initState).bind
    fun r => Res.ok (Node.program r.1, r.2)).bind (fun r => Res.ok r.1) = _
  rw [this]
  rfl

/-! ## The parser returns -/

theorem nextAux_index_ge (fuel : Nat) (tokens : List Token) (s : PState) :
    s.index ≤ (nextAux fuel tokens s).index := by
  induction fuel generalizing s with
  | zero => exact Nat.le_refl _
  | succ n ih =>
    rw [nextAux]
    split_ifs
    · exact Nat.le_refl _
    · cases tokens[s.index + 1]? with
      | none => exact Nat.le_refl _
      | some t =>
        dsimp only
        split_ifs
        · refine Nat.le_trans ?_ (ih _)
          exact Nat.le_succ _
        · exact Nat.le_succ _

theorem nextAux_token (fuel : Nat) (tokens : List Token) (s : PState)
    (h : s.token.isSome = true) : (nextAux fuel tokens s).token.isSome = true := by
  induction fuel generalizing s with
  | zero => exact h
  | succ n ih =>
    rw [nextAux]
    split_ifs
    · exact h
    · cases tokens[s.index + 1]? with
      | none => exact h
      | some t =>
        dsimp only
        split_ifs
        · exact ih _ rfl
        · rfl

theorem next_at_end (tokens : List Token) (s : PState) (h : tokens.length ≤ s.index + 1) :
    next tokens s = s := by
  unfold next
  cases hL : tokens.length with
  | zero => rfl
  | succ n => rw [nextAux, if_pos (by omega)]

/-- Away from the last token, `next` moves the index ahead and assigns `token`. -/
theorem next_advances (tokens : List Token) (s : PState) (h : s.index + 1 < tokens.length) :
    s.index + 1 ≤ (next tokens s).index ∧ (next tokens s).token.isSome = true := by
  unfold next
  obtain ⟨n, hn⟩ : ∃ n, tokens.length = n + 1 := ⟨tokens.length - 1, by omega⟩
  rw [hn, nextAux, if_neg (by omega)]
  rw [List.getElem?_eq_getElem h]
  dsimp only
  split_ifs
  · refine ⟨?_, nextAux_token _ _ _ rfl⟩
    refine Nat.le_trans ?_ (nextAux_index_ge _ _ _)
    exact Nat.le_refl _
  · exact ⟨Nat.le_refl _, rfl⟩

theorem beyond_next {tokens : List Token} {s x : PState} (h : Beyond s x) :
    Beyond s (next tokens x) :=
  ⟨nextAux_token _ _ _ h.1, Nat.le_trans h.2 (nextAux_index_ge _ _ _)⟩

theorem beyond_ite {c : Prop} [Decidable c] {s a b : PState} (ha : Beyond s a)
    (hb : Beyond s b) : Beyond s (if c then a else b) := by
  split_ifs <;> assumption

theorem beyond_trans {s x y : PState} (h1 : Beyond s x) (h2 : Beyond x y) : Beyond s y :=
  ⟨h2.1, Nat.le_trans h1.2 h2.2⟩

/-- After `next`, fewer tokens are left than before, or none. -/
theorem next_left (tokens : List Token) (s x : PState) (h : s.index ≤ x.index) :
    tokens.length - 1 - (next tokens x).index ≤ tokens.length - 1 - s.index - 1 := by
  by_cases hlt : x.index + 1 < tokens.length
  · have := (next_advances tokens x hlt).1
    omega
  · rw [next_at_end tokens x (by omega)]
    omega

/-- At the last token `walk` returns `true` and changes nothing. -/
theorem walk_at_end (filename : String) (validTags : List (List Char)) (tokens : List Token)
    (closeFunction : Token → Bool) (s : PState) (F : Nat) (hsome : s.token.isSome = true)
    (hend : tokens.length ≤ s.index + 1) :
    walk (F + 1) filename validTags tokens closeFunction s = .ok ⟨true, [], s⟩ := by
  rw [walk]
  cases hst : s.token with
  | none => rw [hst] at hsome; cases hsome
  | some token =>
    dsimp only
    rw [if_pos (by omega)]

section Terminates

variable {tokens : List Token}

/-- Without `line` tokens `peek` reads one token and does not fail. -/
theorem peek_returns {α : Type} (hline : ∀ t ∈ tokens, t.type ≠ "line") (s : PState)
    (dflt : α) (callback : Token → α) :
    Res.Returns (fun _ => True) (peek tokens s dflt callback) := by
  unfold peek
  split_ifs with h
  · trivial
  · have hlt : s.index + 1 < tokens.length := by omega
    rw [List.drop_eq_getElem_cons hlt, peekList,
      if_neg (hline _ (List.getElem_mem hlt))]
    trivial

theorem checkOpening_returns (hline : ∀ t ∈ tokens, t.type ≠ "line") (s x : PState)
    (test : Token → Bool) (message : Diag) (h : Beyond s x) :
    Res.Returns (fun x1 => Beyond s x1) (checkOpening tokens x (dropped test) message) := by
  rcases checkOpening_dropped tokens x test message with h1 | h1
  · rw [h1]
    exact h
  · exfalso
    have hp := peek_returns hline x false (dropped test)
    unfold checkOpening at h1
    cases hpk : peek tokens x false (dropped test) with
    | ok v => rw [hpk] at h1; cases h1
    | fault e => rw [hpk] at hp; exact hp
    | timeout => rw [hpk] at hp; exact hp

/-- A `walk` returns when the loops it starts return: `r` bounds the number
of tokens left behind the current one. -/
theorem walk_returns_step (hline : ∀ t ∈ tokens, t.type ≠ "line") (filename : String)
    (validTags : List (List Char)) (r : Nat)
    (hloop : ∀ (closeFunction : Token → Bool) (s : PState) (F : Nat),
      s.token.isSome = true → tokens.length - 1 - s.index ≤ r →
      Res.Returns (fun x => Beyond s x.2)
        (walkLoop (F + 3 * r + 2) filename validTags tokens closeFunction s))
    (closeFunction : Token → Bool) (s : PState) (F : Nat) (hsome : s.token.isSome = true)
    (hleft : tokens.length - 1 - s.index ≤ r + 1) :
    Res.Returns (fun w => Beyond s w.state)
      (walk (F + 3 * (r + 1) + 1) filename validTags tokens closeFunction s) := by
  have through : ∀ (cf : Token → Bool) (x : PState), Beyond s x →
      Res.Returns (fun y => Beyond s y.2)
        (walkThrough (F + 3 * r + 3) filename validTags tokens cf x) := by
    intro cf x hx
    rw [show F + 3 * r + 3 = (F + 3 * r + 2) + 1 from rfl, walkThrough]
    have hl := hloop cf (next tokens x) F (beyond_next hx).1 (by
      have := next_left tokens s x hx.2
      omega)
    cases hw : walkLoop (F + 3 * r + 2) filename validTags tokens cf (next tokens x) with
    | ok y =>
      rw [hw] at hl
      exact beyond_trans (beyond_next hx) hl
    | fault e => rw [hw] at hl; exact hl
    | timeout => rw [hw] at hl; exact hl
  have hrefl : Beyond s s := ⟨hsome, Nat.le_refl _⟩
  rw [show F + 3 * (r + 1) + 1 = (F + 3 * r + 3) + 1 from by omega, walk]
  cases hst : s.token with
  | none => rw [hst] at hsome; cases hsome
  | some token =>
    dsimp only
    repeat' first
      | refine returns_ite ?_ ?_
      | refine returns_bind (checkOpening_returns hline s _ _ _ ?_) (fun _ _ => ?_)
      | refine returns_bind (through _ _ ?_) (fun _ _ => ?_)
      | refine returns_bind (peek_returns hline _ _ _) (fun _ _ => ?_)
      | assumption
      | exact beyond_next (by assumption)
      | exact ⟨rfl, Nat.le_refl _⟩
      | exact beyond_next ⟨rfl, Nat.le_refl _⟩
      | exact beyond_next (beyond_ite (by assumption) ⟨rfl, Nat.le_refl _⟩)

/-- The loop of `walkThrough` returns, with fuel three times the number of
tokens left plus two. -/
theorem walkLoop_returns (hline : ∀ t ∈ tokens, t.type ≠ "line") (filename : String)
    (validTags : List (List Char)) (r : Nat) :
    ∀ (closeFunction : Token → Bool) (s : PState) (F : Nat),
      s.token.isSome = true → tokens.length - 1 - s.index ≤ r →
      Res.Returns (fun x => Beyond s x.2)
        (walkLoop (F + 3 * r + 2) filename validTags tokens closeFunction s) := by
  induction r with
  | zero =>
    intro closeFunction s F hsome hleft
    rw [show F + 3 * 0 + 2 = (F + 1) + 1 from rfl, walkLoop,
      walk_at_end filename validTags tokens closeFunction s F hsome (by omega)]
    exact ⟨hsome, Nat.le_refl _⟩
  | succ r ih =>
    intro closeFunction s F hsome hleft
    rw [show F + 3 * (r + 1) + 2 = (F + 3 * (r + 1) + 1) + 1 from rfl, walkLoop]
    refine returns_bind
      (walk_returns_step hline filename validTags r ih closeFunction s F hsome hleft)
      (fun w hw => returns_ite hw ?_)
    have hl := ih closeFunction (next tokens w.state) (F + 2) (beyond_next hw).1 (by
      have := next_left tokens s w.state hw.2
      omega)
    rw [show F + 2 + 3 * r + 2 = F + 3 * (r + 1) + 1 from by omega] at hl
    refine returns_bind hl (fun x hx => ?_)
    exact beyond_trans (beyond_next hw) hx

/-- The parse of a stream of at least two tokens without `line` tokens returns. -/
theorem run_returns (hline : ∀ t ∈ tokens, t.type ≠ "line") (filename : String)
    (validTags : List (List Char)) (hlen : 2 ≤ tokens.length) (n : Nat) :
    ∃ children st, run (3 * tokens.length + n) validTags tokens filename =
      .ok (.program children, st) := by
  have hnext := next_advances tokens initState (by show 0 + 1 < tokens.length; omega)
  have hl := walkLoop_returns hline filename validTags (tokens.length - 2) (fun _ => false)
    (next tokens initState) (n + 3) hnext.2 (by omega)
  obtain ⟨x, hx, -⟩ := returns_exists hl
  refine ⟨x.1, x.2, ?_⟩
  unfold run
  rw [show 3 * tokens.length + n = (n + 3 + 3 * (tokens.length - 2) + 2) + 1 from by omega,
    walkThrough, hx]
  rfl

end Terminates

/-- C22. For a stream of at least two tokens without `line` tokens the parse
returns a Program node, with fuel three times the length of the stream and
with any more. Away from the last token `next` moves the index ahead, at the
last token it changes nothing, and there `walk` returns `true` whatever the
closing function, at every nesting level. -/
theorem C22_parse_returns (filename : String) (validTags : List (List Char))
    (tokens : List Token) (hlen : 2 ≤ tokens.length) (hline : ∀ t ∈ tokens, t.type ≠ "line")
    (n : Nat) :
    (∃ children st, run (3 * tokens.length + n) validTags tokens filename =
      .ok (.program children, st)) ∧
    (∃ children, parse (3 * tokens.length + n) validTags tokens filename =
      .ok (.program children)) ∧
    (∀ s : PState, s.index + 1 < tokens.length → s.index + 1 ≤ (next tokens s).index) ∧
    (∀ s : PState, tokens.length ≤ s.index + 1 → next tokens s = s) ∧
    (∀ (closeFunction : Token → Bool) (s : PState) (F : Nat), s.token.isSome = true →
      tokens.length ≤ s.index + 1 →
      walk (F + 1) filename validTags tokens closeFunction s = .ok ⟨true, [], s⟩) := by
  obtain ⟨children, st, h⟩ := run_returns hline filename validTags hlen n
  refine ⟨⟨children, st, h⟩, ⟨children, ?_⟩, fun s hs => (next_advances tokens s hs).1,
    fun s hs => next_at_end tokens s hs,
    fun closeFunction s F hs hend =>
      walk_at_end filename validTags tokens closeFunction s F hs hend⟩
  unfold parse
  rw [h]
  rfl

/-- C22 at the tokens of `--foo: 5;`. -/
theorem C22_parse_returns_witness :
    2 ≤ fooTokens.length ∧
    ∃ children st, run (3 * fooTokens.length + 0) [] fooTokens "main.csss" =
      .ok (.program children, st) :=
  ⟨by decide, (C22_parse_returns "main.csss" [] fooTokens (by decide)
    (by simp [fooTokens]) 0).1⟩

end Parse

namespace Lexer

/-! ## Where a word token starts -/

theorem toLower_letter {c : Char} (h : isLetterRe c = true) : isLetterRe c.toLower = true := by
  have e1 : 'a'.toNat = 97 := rfl
  have e2 : 'z'.toNat = 122 := rfl
  have e3 : 'A'.toNat = 65 := rfl
  have e4 : 'Z'.toNat = 90 := rfl
  simp only [isLetterRe, e1, e2, e3, e4, Bool.or_eq_true, Bool.and_eq_true,
    decide_eq_true_eq] at h
  by_cases hup : 65 ≤ c.toNat ∧ c.toNat ≤ 90
  · rw [← Char.ofNat_toNat c]
    generalize c.toNat = n at hup
    obtain ⟨h1, h2⟩ := hup
    interval_cases n <;> decide
  · have hlow : c.toLower = c := by
      unfold Char.toLower
      rw [if_neg]
      intro hc
      apply hup
      simpa [Char.toNat, UInt32.le_def, Nat.le_iff_lt_or_eq] using hc
    rw [hlow]
    simp only [isLetterRe, e1, e2, e3, e4, Bool.or_eq_true, Bool.and_eq_true,
      decide_eq_true_eq]
    exact h

theorem commentLoop_tokens {fuel : Nat} {text : List Char} {s r : LexState}
    (hr : commentLoop fuel text s = some r) : r.tokens = s.tokens := by
  induction fuel generalizing s with
  | zero => simp [commentLoop] at hr
  | succ n ih =>
    rw [commentLoop] at hr
    split_ifs at hr
    · have h := ih hr
      exact h
    · exact Option.some.inj hr ▸ rfl

theorem scanLoop_tokens {cls : Char → Bool} {fuel : Nat} {text : List Char} {s : LexState}
    {acc : List Char} {r : LexState × List Char}
    (hr : scanLoop cls fuel text s acc = some r) :
    r.1.tokens = s.tokens ∧ ∃ x, r.2 = acc ++ x := by
  induction fuel generalizing s acc with
  | zero => simp [scanLoop] at hr
  | succ n ih =>
    rw [scanLoop] at hr
    split_ifs at hr
    · obtain ⟨h1, x, h2⟩ := ih hr
      exact ⟨h1, _, by rw [h2, List.append_assoc]⟩
    · exact Option.some.inj hr ▸ ⟨rfl, [], (List.append_nil _).symm⟩

theorem scanCurLoop_tokens {cls : Char → Bool} {fuel : Nat} {text : List Char} {s : LexState}
    {acc : List Char} {r : LexState × List Char}
    (hr : scanCurLoop cls fuel text s acc = some r) : r.1.tokens = s.tokens := by
  induction fuel generalizing s acc with
  | zero => simp [scanCurLoop] at hr
  | succ n ih =>
    rw [scanCurLoop] at hr
    split_ifs at hr
    · have h := ih hr
      exact h
    · exact Option.some.inj hr ▸ rfl

theorem stringLoop_tokens {closing : Char} {fuel : Nat} {text : List Char} {s : LexState}
    {acc : List Char} {r : LexState × List Char}
    (hr : stringLoop closing fuel text s acc = some r) : r.1.tokens = s.tokens := by
  induction fuel generalizing s acc with
  | zero => simp [stringLoop] at hr
  | succ n ih =>
    rw [stringLoop] at hr
    split_ifs at hr
    · have h := ih hr
      exact h
    · exact Option.some.inj hr ▸ rfl

theorem appended_none {cur : Option Char} {old : List Token} {st : LexState}
    (h : st.tokens = old) : Appended cur old st.tokens :=
  ⟨[], by rw [h, List.append_nil], fun _ ht => absurd ht (List.not_mem_nil _)⟩

theorem appended_push {cur : Option Char} {old : List Token} {st : LexState} {type : String}
    (value : Value) (h : st.tokens = old) (hty : ¬ isWordType type) :
    Appended cur old (pushToken st type value).tokens := by
  refine ⟨[⟨type, value, st.line, st.column⟩], by rw [← h]; rfl, ?_⟩
  intro t ht
  rw [List.mem_singleton.mp ht]
  exact ⟨⟨fun h => absurd (Or.inl h) hty, fun h => absurd (Or.inr (Or.inr h)) hty,
    fun h => absurd (Or.inr (Or.inl h)) hty⟩, fun hw => absurd hw hty⟩

theorem goodWord_word (c : Char) (x : List Char) (hc : isLetterRe c = true)
    (line column : Nat) :
    GoodWord ⟨(wordToken (c :: x)).1, (wordToken (c :: x)).2, line, column⟩ := by
  unfold wordToken
  split_ifs with h1 h2 h3
  · exact ⟨fun h => by simp at h, fun h => by simp at h, fun _ => ⟨true, rfl⟩⟩
  · exact ⟨fun h => by simp at h, fun h => by simp at h, fun _ => ⟨false, rfl⟩⟩
  · exact ⟨fun h => by simp at h,
      fun _ => ⟨c.toLower, x.map Char.toLower, rfl, toLower_letter hc⟩, fun h => by simp at h⟩
  · exact ⟨fun _ => ⟨c, x, rfl, hc⟩, fun h => by simp at h, fun h => by simp at h⟩

theorem appended_word {old : List Token} {st : LexState} {c : Char} {w : List Char}
    (h : st.tokens = old) (hw : ∃ x, w = [c] ++ x) (hc : isLetterRe c = true) :
    Appended (some c) old (pushWord st w).tokens := by
  obtain ⟨x, rfl⟩ := hw
  rw [pushWord_eq]
  refine ⟨[⟨(wordToken (c :: x)).1, (wordToken (c :: x)).2, st.line, st.column⟩],
    by rw [← h]; rfl, ?_⟩
  intro t ht
  rw [List.mem_singleton.mp ht]
  exact ⟨goodWord_word c x hc _ _, fun _ => ⟨c, rfl, hc⟩⟩

/-- In the identifier branch the current character is a letter: a digit is
taken by the float branch, and `%` and `-` by the arithmetic branch at the
latest. -/
theorem letter_of_branch {c : Char} {x y : Bool}
    (hfloat : ¬ (reTest isDigitRe (some c) || x || y) = true)
    (harith : ¬ hasChar arithmetics (some c) = true)
    (hident : reTest isIdentRe (some c) = true) : isLetterRe c = true := by
  rw [reTest_some] at hident
  simp only [reTest_some, Bool.or_eq_true, not_or, Bool.not_eq_true] at hfloat
  have hdig : isDigitRe c = false := hfloat.1.1
  have hp : c ≠ '%' := by
    rintro rfl
    exact harith (by decide)
  have hm : c ≠ '-' := by
    rintro rfl
    exact harith (by decide)
  simp only [isIdentRe, hdig, Bool.or_eq_true, beq_iff_eq, Bool.or_false] at hident
  rcases hident with (h | h) | h
  · exact h
  · exact absurd h hp
  · exact absurd h hm

theorem appended_tokens {cur : Option Char} {old : List Token} {st : LexState} {t : Token}
    (h : st.tokens = old ++ [t]) (hty : ¬ isWordType t.type) : Appended cur old st.tokens := by
  refine ⟨[t], h, ?_⟩
  intro u hu
  rw [List.mem_singleton.mp hu]
  exact ⟨⟨fun h => absurd (Or.inl h) hty, fun h => absurd (Or.inr (Or.inr h)) hty,
    fun h => absurd (Or.inr (Or.inl h)) hty⟩, fun hw => absurd hw hty⟩

theorem some_appended {cur : Option Char} {old : List Token} {x r : LexState}
    (h : Appended cur old x.tokens) : some x = some r → Appended cur old r.tokens :=
  fun hr => Option.some.inj hr ▸ h

theorem map_appended {α : Type} {cur : Option Char} {old : List Token} {o : Option α}
    {f : α → LexState} {r : LexState} (h : ∀ a, o = some a → Appended cur old (f a).tokens) :
    o.map f = some r → Appended cur old r.tokens := by
  cases o with
  | none => intro hr; simp at hr
  | some a =>
    intro hr
    simp only [Option.map_some', Option.some.injEq] at hr
    exact hr ▸ h a rfl

/-- The ladder pushes at most one token, and a word token only in the
identifier branch, where the current character is a letter. -/
theorem lexChain_appended {fuel : Nat} {filename : String} {text : List Char}
    {s r : LexState} :
    lexChain fuel filename text s = some r → Appended s.current s.tokens r.tokens := by
  unfold lexChain
  cases hcur : s.current <;> dsimp only <;>
  repeat' first
    | refine ite_inv (fun _ => ?_) (fun _ => ?_)
    | exact map_appended (fun a ha => appended_none (have h := commentLoop_tokens ha; h))
    | exact map_appended (fun a ha => appended_word (scanLoop_tokens ha).1
        (scanLoop_tokens ha).2
        (letter_of_branch (by assumption) (by assumption) (by assumption)))
    | exact map_appended (fun a ha => appended_tokens
        (have h := (scanLoop_tokens ha).1; congrArg (fun l => l ++ [_]) h)
        (by simp [isWordType]))
    | exact map_appended (fun a ha => appended_tokens
        (have h := scanCurLoop_tokens ha; congrArg (fun l => l ++ [_]) h)
        (by simp [isWordType]))
    | exact map_appended (fun a ha => appended_tokens
        (have h := stringLoop_tokens ha; congrArg (fun l => l ++ [_]) h)
        (by simp [isWordType]))
    | exact some_appended (appended_tokens rfl (by simp [isWordType]))
    | exact some_appended (appended_none rfl)

theorem goodWord_not_percent {t : Token} (h : GoodWord t) :
    ¬ (t.type = "unit" ∧ t.value = .str "%".toList) := by
  rintro ⟨hty, hval⟩
  obtain ⟨c, w, hv, hc⟩ := h.2.1 hty
  rw [hval] at hv
  have hcw : "%".toList = c :: w := Value.str.inj hv
  have : c = '%' := by
    have := congrArg List.head? hcw
    simpa using this.symm
  rw [this] at hc
  exact absurd hc (by decide)

/-- An iteration of the main loop keeps the tokens it has and adds good ones. -/
theorem lexStep_good {fuel : Nat} {filename : String} {text : List Char} {s r : LexState}
    (h : ∀ t ∈ s.tokens, GoodWord t) (hr : lexStep fuel filename text s = some r) :
    ∀ t ∈ r.tokens, GoodWord t := by
  unfold lexStep at hr
  dsimp only at hr
  have key : ∀ x : LexState, lexChain fuel filename text x = some r →
      x.tokens = s.tokens → ∀ t ∈ r.tokens, GoodWord t := by
    intro x hc hx
    obtain ⟨pushed, hp, hg⟩ := lexChain_appended hc
    intro t ht
    rw [hp, hx] at ht
    rcases List.mem_append.mp ht with h1 | h1
    · exact h t h1
    · exact (hg t h1).1
  split_ifs at hr
  · exact key _ hr rfl
  · exact key _ hr rfl

theorem lexLoop_good {fuel : Nat} {filename : String} {text : List Char} {s r : LexState}
    (h : ∀ t ∈ s.tokens, GoodWord t) (hr : lexLoop fuel filename text s = some r) :
    ∀ t ∈ r.tokens, GoodWord t := by
  induction fuel generalizing s with
  | zero => simp [lexLoop] at hr
  | succ n ih =>
    rw [lexLoop] at hr
    split_ifs at hr
    · cases hs : lexStep n filename text s with
      | none => rw [hs] at hr; cases hr
      | some s1 =>
        rw [hs] at hr
        exact ih (lexStep_good h hs) hr
    · exact Option.some.inj hr ▸ h

/-- The arithmetic branch at `%`: one iteration pushes the arithmetic token
`%` and moves one character ahead. -/
theorem lexStep_percent (pre rest : List Char) (fuel : Nat) (filename : String)
    (s : LexState) (hs : s.index = pre.length) :
    lexStep fuel filename (pre ++ '%' :: rest) s =
      some { tokens := s.tokens ++ [⟨"arithmetic", .str "%".toList, s.line, s.column⟩],
             index := s.index + 1, line := s.line, column := s.column + 1,
             current := rest.head?, errors := s.errors } := by
  obtain ⟨tk, i, ln, col, cur, er⟩ := s
  simp only at hs
  subst hs
  have hdrop : (pre ++ '%' :: rest).drop pre.length = '%' :: rest := by
    simp
  have h0 : (pre ++ '%' :: rest)[pre.length]? = some '%' := by
    have := getElem?_of_drop_eq hdrop 0
    simpa using this
  have h1 : (pre ++ '%' :: rest)[pre.length + 1]? = rest.head? := by
    have := getElem?_of_drop_eq hdrop 1
    simpa [List.head?_eq_getElem?] using this
  generalize pre ++ '%' :: rest = text at *
  simp only [lexStep, lexChain, peekStr_two, peekStr_three, h0, h1, reTest_some]
  simp [show isSpaceRe '%' = false from by decide, show isDigitRe '%' = false from by decide,
    jsStr, comparators, arithmetics, hasChar, pushToken, next, h0, h1, reTest_some]

/-- C23. No token that `tokenize` returns is a unit token with the value
`%`: an identifier or unit token carries a text that starts with a letter,
and a bool token a native boolean. The ladder pushes a word token
(identifier, bool or unit) only when the character it starts at is a letter,
so not at a digit, `%` or `-`. At `%` an iteration pushes the arithmetic
token `%`; and `50%;` gives float 50, arithmetic `%` and semi. -/
theorem C23_no_percent_unit (filename : String) (fuel : Nat) (text : List Char) :
    (∀ ts, tokenize fuel text filename = some ts →
      ∀ t ∈ ts, GoodWord t ∧ ¬ (t.type = "unit" ∧ t.value = .str "%".toList)) ∧
    (∀ s r : LexState, lexChain fuel filename text s = some r →
      ∃ pushed, r.tokens = s.tokens ++ pushed ∧
        ∀ t ∈ pushed, isWordType t.type → ∃ c, s.current = some c ∧ isLetterRe c = true) ∧
    (∀ (pre rest : List Char) (s : LexState), s.index = pre.length →
      lexStep fuel filename (pre ++ '%' :: rest) s =
        some { tokens := s.tokens ++ [⟨"arithmetic", .str "%".toList, s.line, s.column⟩],
               index := s.index + 1, line := s.line, column := s.column + 1,
               current := rest.head?, errors := s.errors }) ∧
    tokenize (10 + fuel) "50%;".toList filename = some
      [⟨"float", .num (.dec false 50 0), 1, 3⟩, ⟨"arithmetic", .str "%".toList, 1, 3⟩,
       ⟨"semi", .str ";".toList, 1, 4⟩] := by
  refine ⟨?_, ?_, fun pre rest s hs => lexStep_percent pre rest fuel filename s hs,
    tokenize_add (by rfl) fuel⟩
  · intro ts hts t ht
    unfold tokenize run at hts
    cases hl : lexLoop fuel filename text initState with
    | none => rw [hl] at hts; cases hts
    | some r =>
      rw [hl] at hts
      simp only [Option.map_some', Option.some.injEq] at hts
      subst hts
      have hg := lexLoop_good (fun t ht => absurd ht (List.not_mem_nil _)) hl t ht
      exact ⟨hg, goodWord_not_percent hg⟩
  · intro s r hr
    obtain ⟨pushed, hp, hg⟩ := lexChain_appended hr
    exact ⟨pushed, hp, fun t ht hw => (hg t ht).2 hw⟩

end Lexer

namespace Preproc

/-! ## The stack is read through its counts only -/

theorem allows_push {L L' : Nat} {s s' : List (List Char)} (h : Allows L s L' s')
    (q : List Char) : Allows L (s ++ [q]) L' (s' ++ [q]) := by
  intro p
  have hp := h p
  rw [List.count_append, List.count_append]
  omega

theorem okTo_of_not_ok {a b : Outcome} (h : ∀ t st, a ≠ .ok t st) : OkTo a b :=
  fun t st ha => absurd ha (h t st)

theorem okTo_ok (t : List Char) (st st' : PreState) : OkTo (.ok t st) (.ok t st') := by
  intro t1 st1 h
  cases h
  exact ⟨st', rfl⟩

theorem okTo_bind {a a' : Outcome} {k k' : List Char → PreState → Outcome}
    (h : OkTo a a') (hk : ∀ t st st', OkTo (k t st) (k' t st')) :
    OkTo (a.bind k) (a'.bind k') := by
  intro t st hok
  cases a with
  | ok t1 st1 =>
    obtain ⟨st1', h1⟩ := h t1 st1 rfl
    rw [h1]
    exact hk t1 st1 st1' t st hok
  | crit e st1 => cases hok
  | timeout => cases hok

theorem okTo_ite {c : Prop} [Decidable c] {a a' b b' : Outcome}
    (ha : OkTo a a') (hb : OkTo b b') :
    OkTo (if c then a else b) (if c then a' else b') := by
  split_ifs <;> assumption

theorem okTo_afterLoop {o : Option Nat} {k k' : Nat → Outcome}
    (hk : ∀ i, OkTo (k i) (k' i)) :
    OkTo (Outcome.afterLoop o k) (Outcome.afterLoop o k') := by
  cases o with
  | none => exact okTo_of_not_ok (fun _ _ h => by cases h)
  | some j => exact hk j

/-- The file name that is found in a directive does not depend on the state. -/
theorem findFile_fst (string filename location : List Char) (st st' : PreState) :
    (findFile string filename location st).1 = (findFile string filename location st').1 := by
  unfold findFile
  split
  · rfl
  · dsimp only
    split_ifs <;> rfl

/-- The record of calls is not touched when a directive is read. -/
theorem findFile_calls (string filename location : List Char) (st : PreState) :
    (findFile string filename location st).2.calls = st.calls := by
  unfold findFile
  split
  · rfl
  · dsimp only
    split_ifs <;> rfl

/-- An expansion that returns a text returns the same text under every limit
and stack that let pass at least the same files, and from every state. -/
theorem ok_of_allows (readFile : List Char → Option (List Char)) (L L' : Nat) (fuel : Nat) :
    (∀ text location filename s s' st st', Allows L s L' s' →
      OkTo (searchRequire fuel ⟨L, readFile⟩ text location filename s st)
        (searchRequire fuel ⟨L', readFile⟩ text location filename s' st')) ∧
    (∀ text i location filename s s' st st', Allows L s L' s' →
      OkTo (scan fuel ⟨L, readFile⟩ text i location filename s st)
        (scan fuel ⟨L', readFile⟩ text i location filename s' st')) ∧
    (∀ string filename location s s' st st', Allows L s L' s' →
      OkTo (parseRequire fuel ⟨L, readFile⟩ string filename location s st)
        (parseRequire fuel ⟨L', readFile⟩ string filename location s' st')) := by
  induction fuel with
  | zero =>
    refine ⟨?_, ?_, ?_⟩ <;> intros <;> exact okTo_of_not_ok (fun _ _ h => by cases h)
  | succ n ih =>
    obtain ⟨ihS, ihC, ihP⟩ := ih
    refine ⟨?_, ?_, ?_⟩
    · intro text location filename s s' st st' hal
      rw [searchRequire, searchRequire]
      dsimp only
      by_cases hc : s.count (location ++ "/".toList ++ filename) ≥ L
      · rw [if_pos hc]
        exact okTo_of_not_ok (fun _ _ h => by cases h)
      · have hc' : ¬ s'.count (location ++ "/".toList ++ filename) ≥ L' := by
          have := hal (location ++ "/".toList ++ filename)
          omega
        rw [if_neg hc, if_neg hc']
        exact okTo_bind (ihC _ _ _ _ _ _ _ _ (allows_push hal _)) (fun _ _ _ => okTo_ok _ _ _)
    · intro text i location filename s s' st st' hal
      rw [scan, scan]
      refine okTo_ite ?_ (okTo_ok _ _ _)
      refine okTo_afterLoop (fun i => ?_)
      refine okTo_ite (okTo_ite (okTo_of_not_ok (fun _ _ h => by cases h)) ?_)
        (ihC _ _ _ _ _ _ _ _ hal)
      exact okTo_bind (ihP _ _ _ _ _ _ _ hal) (fun _ _ _ => ihC _ _ _ _ _ _ _ _ hal)
    · intro string filename location s s' st st' hal
      rw [parseRequire, parseRequire, findFile_fst string filename location st' st]
      cases (findFile string filename location st).1 with
      | none => exact okTo_of_not_ok (fun _ _ h => by cases h)
      | some foundFile =>
        dsimp only
        cases readFile (location ++ "/".toList ++ foundFile) with
        | none => exact okTo_of_not_ok (fun _ _ h => by cases h)
        | some fileContents => exact ihS _ _ _ _ _ _ _ hal

/-! ## The call that raises `RecursionLimit` -/

theorem deep_of_not_limit {k : Nat} {o : Outcome}
    (h : ∀ l stf, o ≠ .crit (.recursionLimit l) stf) : Deep k o :=
  fun l stf ho => absurd ho (h l stf)

theorem deep_mono {k k' : Nat} {o : Outcome} (hk : k ≤ k') (h : Deep k' o) : Deep k o := by
  intro l stf ho
  obtain ⟨p, s2, h1, h2⟩ := h l stf ho
  exact ⟨p, s2, h1, Nat.le_trans hk h2⟩

theorem deep_bind {k : Nat} {a : Outcome} {f : List Char → PreState → Outcome}
    (ha : Deep k a) (hf : ∀ t st, Deep k (f t st)) : Deep k (a.bind f) := by
  cases a with
  | ok t st => exact hf t st
  | crit e st => exact ha
  | timeout => exact deep_of_not_limit (fun _ _ h => by cases h)

theorem deep_ite {k : Nat} {c : Prop} [Decidable c] {a b : Outcome}
    (ha : Deep k a) (hb : Deep k b) : Deep k (if c then a else b) := by
  split_ifs <;> assumption

theorem deep_afterLoop {k : Nat} {o : Option Nat} {f : Nat → Outcome}
    (hf : ∀ i, Deep k (f i)) : Deep k (Outcome.afterLoop o f) := by
  cases o with
  | none => exact deep_of_not_limit (fun _ _ h => by cases h)
  | some j => exact hf j

/-- The fault `RecursionLimit` comes from a call that received the stack of
the search that raises it, or a longer one. -/
theorem deep_search (config : Config) (fuel : Nat) :
    (∀ text location filename s st,
      Deep s.length (searchRequire fuel config text location filename s st)) ∧
    (∀ text i location filename s st,
      Deep s.length (scan fuel config text i location filename s st)) ∧
    (∀ string filename location s st,
      Deep s.length (parseRequire fuel config string filename location s st)) := by
  induction fuel with
  | zero =>
    refine ⟨?_, ?_, ?_⟩ <;> intros <;> exact deep_of_not_limit (fun _ _ h => by cases h)
  | succ n ih =>
    obtain ⟨ihS, ihC, ihP⟩ := ih
    refine ⟨?_, ?_, ?_⟩
    · intro text location filename s st
      rw [searchRequire]
      refine deep_ite ?_ (deep_bind (deep_mono ?_ (ihC _ _ _ _ _ _))
        (fun _ _ => deep_of_not_limit (fun _ _ h => by cases h)))
      · intro l stf h
        cases h
        exact ⟨location ++ "/".toList ++ filename, s, List.getLast?_concat _, Nat.le_refl _⟩
      · simp
    · intro text i location filename s st
      rw [scan]
      refine deep_ite (deep_afterLoop (fun i => ?_))
        (deep_of_not_limit (fun _ _ h => by cases h))
      refine deep_ite (deep_ite (deep_of_not_limit (fun _ _ h => by cases h)) ?_) (ihC _ _ _ _ _ _)
      exact deep_bind (ihP _ _ _ _ _) (fun _ _ => ihC _ _ _ _ _ _)
    · intro string filename location s st
      rw [parseRequire]
      cases (findFile string filename location st).1 with
      | none => exact deep_of_not_limit (fun _ _ h => by cases h)
      | some foundFile =>
        dsimp only
        cases config.readFile (location ++ "/".toList ++ foundFile) with
        | none => exact deep_of_not_limit (fun _ _ h => by cases h)
        | some fileContents => exact ihS _ _ _ _ _

/-- A search that faults with `RecursionLimit` in a call that received the
very stack of the search has raised the fault itself, on entering its file. -/
theorem searchRequire_limit_here {config : Config} {fuel : Nat}
    {text location filename : List Char} {s : List (List Char)} {st stf : PreState}
    {l q : List Char}
    (h : searchRequire fuel config text location filename s st = .crit (.recursionLimit l) stf)
    (hlast : stf.calls.getLast? = some (q, s)) :
    config.recursionLimit ≤ s.count (location ++ "/".toList ++ filename) ∧
      q = location ++ "/".toList ++ filename := by
  cases fuel with
  | zero => cases h
  | succ n =>
    rw [searchRequire] at h
    by_cases hc : s.count (location ++ "/".toList ++ filename) ≥ config.recursionLimit
    · rw [if_pos hc] at h
      cases h
      rw [List.getLast?_concat] at hlast
      cases hlast
      exact ⟨hc, rfl⟩
    · rw [if_neg hc] at h
      have hd : Deep (s ++ [location ++ "/".toList ++ filename]).length
          ((scan n config (openTag location filename ++ stripShebang text) 0 location filename
            (s ++ [location ++ "/".toList ++ filename])
            { st with calls := st.calls ++ [(location ++ "/".toList ++ filename, s)] }).bind
            fun text2 st2 => .ok (text2 ++ closeTag) st2) :=
        deep_bind ((deep_search config n).2.1 _ _ _ _ _ _)
          (fun _ _ => deep_of_not_limit (fun _ _ h => by cases h))
      obtain ⟨p, s2, h1, h2⟩ := hd l stf h
      rw [hlast] at h1
      cases h1
      simp at h2

theorem lastIndexOf_ne_none {c : Char} : ∀ (l : List Char), c ∈ l → lastIndexOf c l ≠ none := by
  intro l
  induction l with
  | nil => intro h; cases h
  | cons y ys ihl =>
    intro hmem
    rw [lastIndexOf]
    cases hy : lastIndexOf c ys with
    | some j => simp
    | none =>
      simp only
      rcases List.mem_cons.mp hmem with h | hmem
      · simp [h]
      · exact absurd hy (ihl hmem)

theorem lastIndexOf_split {c : Char} : ∀ {l : List Char} {k : Nat}, lastIndexOf c l = some k →
    l = l.take k ++ c :: l.drop (k + 1)
  | [], k, h => by cases h
  | x :: xs, k, h => by
    rw [lastIndexOf] at h
    cases hx : lastIndexOf c xs with
    | some j =>
      rw [hx] at h
      simp only [Option.some.injEq] at h
      subst h
      have h1 := lastIndexOf_split hx
      simp only [List.take_succ_cons, List.drop_succ_cons, List.cons_append]
      rw [← h1]
    | none =>
      rw [hx] at h
      simp only at h
      split_ifs at h with hc
      cases h
      subst hc
      simp

/-- The location and the file name that are cut out of a path make up the
path again. -/
theorem return_path (location foundFile : List Char) :
    returnLocation (location ++ "/".toList ++ foundFile) ++ "/".toList ++
      returnFilename (location ++ "/".toList ++ foundFile) =
    location ++ "/".toList ++ foundFile := by
  have hmem : '/' ∈ location ++ "/".toList ++ foundFile := by simp
  generalize location ++ "/".toList ++ foundFile = p at *
  cases hk : lastIndexOf '/' p with
  | none => exact absurd hk (lastIndexOf_ne_none p hmem)
  | some k =>
    have h1 := lastIndexOf_split hk
    rw [returnLocation, returnFilename, hk]
    simp only [substr, List.drop_zero]
    have h2 : List.take (p.length - k) (List.drop (k + 1) p) = List.drop (k + 1) p :=
      List.take_of_length_le (by rw [List.length_drop]; omega)
    rw [h2]
    conv_rhs => rw [h1]
    simp

theorem parseRequire_le_add (fuel n : Nat) (config : Config)
    (string filename location : List Char) (stack : List (List Char)) (st : PreState) :
    Outcome.Le (parseRequire fuel config string filename location stack st)
      (parseRequire (fuel + n) config string filename location stack st) := by
  induction n with
  | zero => exact outLe_refl _
  | succ n ih => exact outLe_trans ih ((expand_le_succ (fuel + n)).2.2 _ _ _ _ _ _)

theorem bind_eq_crit {a : Outcome} {k : List Char → PreState → Outcome} {e : PreFault}
    {st : PreState} (h : a.bind k = .crit e st) :
    a = .crit e st ∨ ∃ t st1, a = .ok t st1 ∧ k t st1 = .crit e st := by
  cases a with
  | ok t st1 => exact Or.inr ⟨t, st1, rfl, h⟩
  | crit e1 st1 => exact Or.inl h
  | timeout => cases h

/-- Replaying the scan of a file that requires itself. The reference scan,
with limit 1 behind the stack `s`, faults with `RecursionLimit` in a call
that received the stack `s`: the scan has reached a directive that names the
file itself.
A scan of the same text under a limit and a stack that let pass at least the
same files reaches that directive too, and faults as the search of the file
faults there. -/
theorem follow_scan (readFile : List Char → Option (List Char))
    (location filename body : List Char) (hs : '/' ∉ filename)
    (hread : readFile (location ++ "/".toList ++ filename) = some body)
    (s s' : List (List Char)) (L : Nat) (hal : Allows 1 s L s') (M : Nat)
    (X : Option (List Char × List (List Char)))
    (hexit : ∀ st m, ∃ st', searchRequire (M + m) ⟨L, readFile⟩ body location filename s' st =
      .crit (.recursionLimit location) st' ∧ st'.calls.getLast? = X) :
    ∀ (f : Nat) (text : List Char) (i : Nat) (st : PreState) (l : List Char) (stf : PreState),
      scan f ⟨1, readFile⟩ text i location filename s st = .crit (.recursionLimit l) stf →
      stf.calls.getLast? = some (location ++ "/".toList ++ filename, s) →
      ∀ st' m, ∃ st'', scan (f + M + m) ⟨L, readFile⟩ text i location filename s' st' =
        .crit (.recursionLimit location) st'' ∧ st''.calls.getLast? = X := by
  intro f
  induction f with
  | zero => intro text i st l stf h; cases h
  | succ f ih =>
    intro text i st l stf h hlast st' m
    rw [scan] at h
    rw [show f + 1 + M + m = (f + M + m) + 1 from by omega, scan]
    by_cases hlt : i < text.length
    swap
    · rw [if_neg hlt] at h; cases h
    rw [if_pos hlt] at h ⊢
    -- the comment skip
    have hskip : ∀ j, (if pairIs text i "/*".toList then (commentLoop f text i).map (· + 1)
        else some i) = some j →
        (if pairIs text i "/*".toList then (commentLoop (f + M + m) text i).map (· + 1)
          else some i) = some j := by
      intro j
      split_ifs
      · intro hj
        cases hc : commentLoop f text i with
        | none => rw [hc] at hj; cases hj
        | some j' =>
          rw [hc] at hj
          rw [Nat.add_assoc, commentLoop_add hc]
          exact hj
      · exact id
    cases hopt : (if pairIs text i "/*".toList then (commentLoop f text i).map (· + 1)
        else some i) with
    | none => rw [hopt] at h; cases h
    | some j =>
      rw [hopt, afterLoop_some] at h
      rw [hskip j hopt, afterLoop_some]
      by_cases hdir : text[j]? = some '@' ∧ substr text (j + 1) 7 = "require".toList
      swap
      · rw [if_neg hdir] at h ⊢
        exact ih text (j + 1) st l stf h hlast st' m
      rw [if_pos hdir] at h ⊢
      by_cases hsemi : semiLoop (text.drop (j + 8)) (j + 8) = text.length
      · rw [if_pos hsemi] at h; cases h
      rw [if_neg hsemi] at h ⊢
      rcases bind_eq_crit h with hp | ⟨ins, st1, hp, hrest⟩
      · -- the directive that names the file itself
        cases f with
        | zero => cases hp
        | succ f2 =>
          rw [parseRequire] at hp
          rw [show f2 + 1 + M + m = (f2 + M + m) + 1 from by omega, parseRequire,
            findFile_fst _ filename location st' st]
          cases hfound : (findFile (substr text (j + 8)
              (semiLoop (text.drop (j + 8)) (j + 8) - (j + 8))) filename location st).1 with
          | none => rw [hfound] at hp; cases hp
          | some foundFile =>
            rw [hfound] at hp
            dsimp only at hp ⊢
            cases hfile : readFile (location ++ "/".toList ++ foundFile) with
            | none => rw [hfile] at hp; cases hp
            | some contents =>
              rw [hfile] at hp
              dsimp only at hp ⊢
              obtain ⟨_, hq⟩ := searchRequire_limit_here hp hlast
              rw [return_path] at hq
              have hff : foundFile = filename := (List.append_cancel_left hq).symm
              subst hff
              rw [hread] at hfile
              cases hfile
              rw [returnLocation_path _ _ hs, returnFilename_path _ _ hs]
              obtain ⟨st'', h1, h2⟩ := hexit
                (findFile (substr text (j + 8)
                  (semiLoop (text.drop (j + 8)) (j + 8) - (j + 8))) foundFile location st').2
                (f2 + m)
              refine ⟨st'', ?_, h2⟩
              rw [show f2 + M + m = M + (f2 + m) from by omega, h1]
              rfl
      · -- a directive before it, which expands without a fault
        have hp' : parseRequire (f + (M + m)) ⟨1, readFile⟩
            (substr text (j + 8) (semiLoop (text.drop (j + 8)) (j + 8) - (j + 8)))
            filename location s st = .ok ins st1 := by
          rcases parseRequire_le_add f (M + m) ⟨1, readFile⟩ _ filename location s st with hle | hle
          · rw [hp] at hle; cases hle
          · rw [← hle, hp]
        obtain ⟨st1', hrun⟩ := (ok_of_allows readFile 1 L (f + (M + m))).2.2 _ filename location
          s s' st st' hal ins st1 hp'
        rw [Nat.add_assoc, hrun]
        rw [show f + (M + m) = f + M + m from by omega]
        exact ih _ (j + 1) st1 l stf hrest hlast st1' m

/-- A file that requires itself, whatever comes before the directive. Let
the search of the file with limit 1, behind a stack `s0` that does not hold
the file, fault with `RecursionLimit` on entering the file from its own scan.
Then under every limit `L` of at least 1 the search of the file behind `s0`
faults with `RecursionLimit` too, on entering the file when the stack holds
it `L` times. -/
theorem searchRequire_self_limit (readFile : List Char → Option (List Char))
    (location filename body : List Char) (hs : '/' ∉ filename)
    (hread : readFile (location ++ "/".toList ++ filename) = some body)
    (s0 : List (List Char)) (h0 : s0.count (location ++ "/".toList ++ filename) = 0)
    (f0 : Nat) (st0 : PreState) (l : List Char) (st1 : PreState)
    (href : searchRequire f0 ⟨1, readFile⟩ body location filename s0 st0 =
      .crit (.recursionLimit l) st1)
    (hlast : st1.calls.getLast? = some (location ++ "/".toList ++ filename,
      s0 ++ [location ++ "/".toList ++ filename]))
    (L : Nat) (hL : 1 ≤ L) :
    ∀ j, j ≤ L → ∀ st m, ∃ st',
      searchRequire (j * f0 + 1 + m) ⟨L, readFile⟩ body location filename
        (s0 ++ List.replicate (L - j) (location ++ "/".toList ++ filename)) st =
        .crit (.recursionLimit location) st' ∧
      st'.calls.getLast? = some (location ++ "/".toList ++ filename,
        s0 ++ List.replicate L (location ++ "/".toList ++ filename)) := by
  -- the reference scan
  obtain ⟨g, rfl⟩ : ∃ g, f0 = g + 1 := by
    cases f0 with
    | zero => cases href
    | succ g => exact ⟨g, rfl⟩
  rw [searchRequire, if_neg (by rw [h0]; exact Nat.not_succ_le_zero 0)] at href
  have hscan : scan g ⟨1, readFile⟩ (openTag location filename ++ stripShebang body) 0
      location filename (s0 ++ [location ++ "/".toList ++ filename])
      { st0 with calls := st0.calls ++ [(location ++ "/".toList ++ filename, s0)] } =
      .crit (.recursionLimit l) st1 := by
    rcases bind_eq_crit href with h | ⟨t, st2, _, h⟩
    · exact h
    · cases h
  intro j
  induction j with
  | zero =>
    intro _ st m
    refine ⟨{ st with calls := st.calls ++ [(location ++ "/".toList ++ filename,
      s0 ++ List.replicate L (location ++ "/".toList ++ filename))] }, ?_,
      List.getLast?_concat _⟩
    rw [show 0 * (g + 1) + 1 + m = m + 1 from by omega, searchRequire, if_pos]
    · rfl
    · show L ≤ _
      rw [Nat.sub_zero, List.count_append, h0, List.count_replicate_self]
      omega
  | succ j ih =>
    intro hj st m
    have hcount : ¬ (s0 ++ List.replicate (L - (j + 1))
        (location ++ "/".toList ++ filename)).count (location ++ "/".toList ++ filename) ≥ L := by
      rw [List.count_append, h0, List.count_replicate_self]
      omega
    have hstack : s0 ++ List.replicate (L - (j + 1)) (location ++ "/".toList ++ filename) ++
        [location ++ "/".toList ++ filename] =
        s0 ++ List.replicate (L - j) (location ++ "/".toList ++ filename) := by
      rw [List.append_assoc, ← List.replicate_succ', show L - (j + 1) + 1 = L - j from by omega]
    have hal : Allows 1 (s0 ++ [location ++ "/".toList ++ filename]) L
        (s0 ++ List.replicate (L - j) (location ++ "/".toList ++ filename)) := by
      intro p
      rw [List.count_append, List.count_append]
      by_cases hp : p = location ++ "/".toList ++ filename
      · subst hp
        rw [List.count_singleton_self]
        omega
      · have h1 : (List.replicate (L - j) (location ++ "/".toList ++ filename)).count p = 0 := by
          rw [List.count_eq_zero]
          exact fun hm => hp (List.eq_of_mem_replicate hm)
        have h2 : [location ++ "/".toList ++ filename].count p = 0 := by
          rw [List.count_eq_zero]
          exact fun hm => hp (List.mem_singleton.mp hm)
        rw [h1, h2]
        omega
    obtain ⟨st', h1, h2⟩ := follow_scan readFile location filename body hs hread
      (s0 ++ [location ++ "/".toList ++ filename])
      (s0 ++ List.replicate (L - j) (location ++ "/".toList ++ filename)) L hal
      (j * (g + 1) + 1) _ (ih (by omega)) g _ 0 _ l st1 hscan hlast
      { st with calls := st.calls ++ [(location ++ "/".toList ++ filename,
        s0 ++ List.replicate (L - (j + 1)) (location ++ "/".toList ++ filename))] } m
    refine ⟨st', ?_, h2⟩
    rw [show (j + 1) * (g + 1) + 1 + m = (g + (j * (g + 1) + 1) + m) + 1 from by
      rw [Nat.succ_mul]; omega, searchRequire, if_neg hcount, hstack, h1]
    rfl

/-- The scan up to a first directive that names a file which is on the stack
as often as the limit allows: the search of that file raises `RecursionLimit`. -/
theorem scan_first_self (limit : Nat) (readFile : List Char → Option (List Char))
    (location filename body : List Char) (hs : '/' ∉ filename)
    (hread : readFile (location ++ "/".toList ++ filename) = some body)
    (s : List (List Char)) (hcount : limit ≤ s.count (location ++ "/".toList ++ filename))
    (text : List Char) (i : Nat)
    (hsemi : semiLoop (text.drop (i + 8)) (i + 8) ≠ text.length)
    (hname : (findFile (directiveAt text i) filename location ⟨[], []⟩).1 = some filename) :
    ∀ (f i0 : Nat) (st : PreState), firstRequire f text i0 = some i →
      ∀ m, ∃ stf, scan (f + 2 + m) ⟨limit, readFile⟩ text i0 location filename s st =
          .crit (.recursionLimit location) stf ∧
        stf.calls.getLast? = some (location ++ "/".toList ++ filename, s) := by
  intro f
  induction f with
  | zero => intro i0 st h; cases h
  | succ f ih =>
    intro i0 st h m
    rw [firstRequire] at h
    rw [show f + 1 + 2 + m = (f + 2 + m) + 1 from by omega, scan]
    by_cases hlt : i0 < text.length
    swap
    · rw [if_neg hlt] at h; cases h
    rw [if_pos hlt] at h ⊢
    have hskip : ∀ j, (if pairIs text i0 "/*".toList then (commentLoop f text i0).map (· + 1)
        else some i0) = some j →
        (if pairIs text i0 "/*".toList then (commentLoop (f + 2 + m) text i0).map (· + 1)
          else some i0) = some j := by
      intro j
      split_ifs
      · intro hj
        cases hc : commentLoop f text i0 with
        | none => rw [hc] at hj; cases hj
        | some j' =>
          rw [hc] at hj
          rw [Nat.add_assoc, commentLoop_add hc]
          exact hj
      · exact id
    cases hopt : (if pairIs text i0 "/*".toList then (commentLoop f text i0).map (· + 1)
        else some i0) with
    | none => rw [hopt] at h; cases h
    | some j =>
      rw [hopt] at h
      dsimp only at h
      rw [hskip j hopt, afterLoop_some]
      by_cases hdir : text[j]? = some '@' ∧ substr text (j + 1) 7 = "require".toList
      swap
      · rw [if_neg hdir] at h ⊢
        exact ih (j + 1) st h m
      rw [if_pos hdir] at h ⊢
      cases h
      rw [if_neg hsemi, show f + 2 + m = (f + m + 1) + 1 from by omega, parseRequire]
      have hfound : (findFile (substr text (i + 8)
          (semiLoop (text.drop (i + 8)) (i + 8) - (i + 8))) filename location st).1 =
          some filename := by
        rw [findFile_fst _ filename location st ⟨[], []⟩]
        exact hname
      rw [hfound]
      dsimp only
      rw [hread]
      dsimp only
      rw [returnLocation_path _ _ hs, returnFilename_path _ _ hs, searchRequire, if_pos hcount]
      exact ⟨_, rfl, List.getLast?_concat _⟩

/-- C4, amended. Let the file system hold the text of the file `location/f`
under that path, `f` free of `/`, and let the recursion limit be at least 1.
If the first directive that the scan of the file meets is closed by a
semicolon and names `f` (the scan reads the text behind the opening tag and
without the shebang line, and skips comments as the source does), then
expanding the file faults with `RecursionLimit`, and the fault is raised on
entering the file when the stack holds the file `limit` times and nothing
else. The same holds with directives before the one that names `f`, when they
expand without a fault: whenever the expansion with the limit 1 faults on
entering the file from the scan of the file itself, the expansion with the
limit `limit` faults on entering the file behind `limit` entries of it. -/
theorem C4_self_require_raises_limit (limit : Nat)
    (readFile : List Char → Option (List Char)) (location f text : List Char)
    (hL : 1 ≤ limit) (hs : '/' ∉ f)
    (hread : readFile (location ++ "/".toList ++ f) = some text) :
    (∀ fuel, requiresItselfFirst fuel location f text = true →
      ∀ n, ∃ st, expand (limit * (fuel + 3) + 1 + n) ⟨limit, readFile⟩ text location f =
          .crit (.recursionLimit location) st ∧
        st.calls.getLast? = some (location ++ "/".toList ++ f,
          List.replicate limit (location ++ "/".toList ++ f))) ∧
    (∀ fuel l st1, expand fuel ⟨1, readFile⟩ text location f = .crit (.recursionLimit l) st1 →
      st1.calls.getLast? = some (location ++ "/".toList ++ f, [location ++ "/".toList ++ f]) →
      ∀ n, ∃ st, expand (limit * fuel + 1 + n) ⟨limit, readFile⟩ text location f =
          .crit (.recursionLimit location) st ∧
        st.calls.getLast? = some (location ++ "/".toList ++ f,
          List.replicate limit (location ++ "/".toList ++ f))) := by
  have hgen : ∀ fuel l st1,
      expand fuel ⟨1, readFile⟩ text location f = .crit (.recursionLimit l) st1 →
      st1.calls.getLast? = some (location ++ "/".toList ++ f, [location ++ "/".toList ++ f]) →
      ∀ n, ∃ st, expand (limit * fuel + 1 + n) ⟨limit, readFile⟩ text location f =
          .crit (.recursionLimit location) st ∧
        st.calls.getLast? = some (location ++ "/".toList ++ f,
          List.replicate limit (location ++ "/".toList ++ f)) := by
    intro fuel l st1 href hlast n
    have h := searchRequire_self_limit readFile location f text hs hread [] (by simp) fuel
      ⟨[], []⟩ l st1 href (by simpa using hlast) limit hL limit (Nat.le_refl _) ⟨[], []⟩ n
    simpa [expand] using h
  refine ⟨?_, hgen⟩
  intro fuel hfirst n
  unfold requiresItselfFirst at hfirst
  cases hi : firstRequire fuel (scanText location f text) 0 with
  | none => rw [hi] at hfirst; cases hfirst
  | some i =>
    rw [hi] at hfirst
    simp only [Bool.and_eq_true, decide_eq_true_eq] at hfirst
    obtain ⟨stf, h1, h2⟩ := scan_first_self 1 readFile location f text hs hread
      [location ++ "/".toList ++ f] (by simp) (scanText location f text) i hfirst.1 hfirst.2
      fuel 0 ⟨[], [(location ++ "/".toList ++ f, [])]⟩ hi 0
    refine hgen (fuel + 3) location stf ?_ h2 n
    rw [expand, searchRequire, if_neg (by simp)]
    exact congrArg (fun o => Outcome.bind o fun text2 st2 => Outcome.ok (text2 ++ closeTag) st2)
      h1

/-- C4, amended, with the limit 2: at the file `./f.csss` whose text holds a
shebang line, a comment, a colour, a URL and an `@if` before the directive
`@require   'f.csss' ;`, and at the file `./f.csss` that requires `g.csss`
before it requires itself. -/
theorem C4_self_require_raises_limit_witness :
    (∃ st, expand (2 * (130 + 3) + 1 + 0) ⟨2, mixedSelfFs⟩ mixedSelfText ".".toList
          "f.csss".toList = .crit (.recursionLimit ".".toList) st ∧
        st.calls.getLast? = some (".".toList ++ "/".toList ++ "f.csss".toList,
          List.replicate 2 (".".toList ++ "/".toList ++ "f.csss".toList))) ∧
    (∃ st, expand (2 * 100 + 1 + 0) ⟨2, laterSelfFs⟩ laterSelfText ".".toList
          "f.csss".toList = .crit (.recursionLimit ".".toList) st ∧
        st.calls.getLast? = some (".".toList ++ "/".toList ++ "f.csss".toList,
          List.replicate 2 (".".toList ++ "/".toList ++ "f.csss".toList))) :=
  ⟨(C4_self_require_raises_limit 2 mixedSelfFs ".".toList "f.csss".toList mixedSelfText
      (by decide) (by decide) (by decide)).1 130 (by decide!) 0,
   (C4_self_require_raises_limit 2 laterSelfFs ".".toList "f.csss".toList laterSelfText
      (by decide) (by decide) (by decide)).2 100 ".".toList
      ⟨[], [("./f.csss".toList, []), ("./g.csss".toList, ["./f.csss".toList]),
        ("./f.csss".toList, ["./f.csss".toList])]⟩ (by decide!) (by decide) 0⟩

/-! ## A file that requires itself through `./` -/

theorem boundedAliasFs_read (bound : Nat) (location : List Char) (h : dotDirs location = true)
    (hb : location.length + 9 ≤ bound) :
    boundedAliasFs bound (location ++ "/".toList ++ "./f.csss".toList) = some aliasText := by
  have hlen : (location ++ "/".toList ++ "./f.csss".toList).length - 7 =
      (location ++ "/.".toList).length := by
    simp
  have hl : (location ++ "/".toList ++ "./f.csss".toList).length = location.length + 9 := by
    simp
  unfold boundedAliasFs
  rw [hlen, hl, alias_path, List.take_left, List.drop_left, dotDirs_append location h]
  rw [if_pos ⟨hb, rfl, rfl⟩]

theorem boundedAliasFs_long (bound : Nat) (location : List Char)
    (hb : bound < location.length + 9) :
    boundedAliasFs bound (location ++ "/".toList ++ "./f.csss".toList) = none := by
  have hl : (location ++ "/".toList ++ "./f.csss".toList).length = location.length + 9 := by
    simp
  unfold boundedAliasFs
  rw [hl, if_neg (fun h => absurd h.1 (by omega))]

/-- The search of the file that requires `./f.csss`, at a location from which
the path of the required file is too long: the run faults with
`MalformedRequire`. -/
theorem alias_search_long (limit : Nat) (hL : 1 ≤ limit) (bound : Nat)
    (location : List Char) (stack : List (List Char)) (st : PreState)
    (hdot : dotDirs location = true)
    (hstack : ∀ p ∈ stack, p.length < (location ++ "/".toList ++ "f.csss".toList).length)
    (hlong : bound < location.length + 9) (n : Nat) :
    searchRequire ((openTag location "f.csss".toList).length + 3 + n)
        ⟨limit, boundedAliasFs bound⟩ aliasText location "f.csss".toList stack st =
      .crit (.missingFile location "./f.csss".toList)
        (findFile (quoted "./f.csss".toList) "f.csss".toList location
          { st with calls := st.calls ++
            [(location ++ "/".toList ++ "f.csss".toList, stack)] }).2 := by
  have hcount : stack.count (location ++ "/".toList ++ "f.csss".toList) = 0 := by
    rw [List.count_eq_zero]
    intro hmem
    exact absurd (hstack _ hmem) (Nat.lt_irrefl _)
  have hdrop : (openTag location "f.csss".toList ++ aliasText).drop
      (openTag location "f.csss".toList).length =
      "@require".toList ++ quoted "./f.csss".toList ++ ';' :: [] := by
    rw [List.drop_left]
    rfl
  rw [show (openTag location "f.csss".toList).length + 3 + n =
      ((n + 1) + (openTag location "f.csss".toList).length + 1) + 1 from by omega,
    searchRequire, if_neg (by rw [hcount]; show ¬ 0 ≥ limit; omega),
    stripShebang_of_head (by decide),
    scan_openTag (dotDirs_no_star location hdot) (by decide),
    show n + 1 + (openTag location "f.csss".toList).length =
      (n + (openTag location "f.csss".toList).length) + 1 from by omega,
    scan_directive "./f.csss".toList [] (by decide) hdrop, openTag_length,
    show n + ((tagBody location "f.csss".toList).length + 4) =
      (n + (tagBody location "f.csss".toList).length + 3) + 1 from by omega,
    parseRequire, (findFile_quoted "./f.csss".toList (by decide) _ _ _).1]
  dsimp only
  rw [boundedAliasFs_long bound location hlong]
  rfl

/-- In a file system where `.` names the directory itself, the search of the
file that requires `./f.csss` enters the file under a longer path at every
level, a path that is not on the stack; the searches go down until the path
is too long for the file system, and the run faults with `MalformedRequire`
at the first location from which the path is too long. -/
theorem alias_search_missing (limit : Nat) (hL : 1 ≤ limit) (bound : Nat) (d : Nat) :
    ∀ (location : List Char) (stack : List (List Char)) (st : PreState),
      dotDirs location = true →
      (∀ p ∈ stack, p.length < (location ++ "/".toList ++ "f.csss".toList).length) →
      bound < location.length + 9 + 2 * d →
      ∃ N loc st', (dotDirs loc = true ∧ bound < loc.length + 9 ∧
          (loc = location ∨ loc.length + 7 ≤ bound) ∧
          loc.length % 2 = location.length % 2) ∧
        ∀ n, searchRequire (N + n) ⟨limit, boundedAliasFs bound⟩ aliasText location
          "f.csss".toList stack st = .crit (.missingFile loc "./f.csss".toList) st' := by
  induction d with
  | zero =>
    intro location stack st hdot hstack hb
    exact ⟨_, location, _, ⟨hdot, by omega, Or.inl rfl, rfl⟩,
      alias_search_long limit hL bound location stack st hdot hstack (by omega)⟩
  | succ d ih =>
    intro location stack st hdot hstack hb
    by_cases hlong : bound < location.length + 9
    · exact ⟨_, location, _, ⟨hdot, hlong, Or.inl rfl, rfl⟩,
        alias_search_long limit hL bound location stack st hdot hstack hlong⟩
    · have hcount : stack.count (location ++ "/".toList ++ "f.csss".toList) = 0 := by
        rw [List.count_eq_zero]
        intro hmem
        exact absurd (hstack _ hmem) (Nat.lt_irrefl _)
      have hdrop : (openTag location "f.csss".toList ++ aliasText).drop
          (openTag location "f.csss".toList).length =
          "@require".toList ++ quoted "./f.csss".toList ++ ';' :: [] := by
        rw [List.drop_left]
        rfl
      obtain ⟨N, loc, st', ⟨hd1, hd2, hd3, hd4⟩, hN⟩ := ih (location ++ "/.".toList)
        (stack ++ [location ++ "/".toList ++ "f.csss".toList])
        (findFile (quoted "./f.csss".toList) "f.csss".toList location
          { st with calls := st.calls ++ [(location ++ "/".toList ++ "f.csss".toList, stack)] }).2
        (dotDirs_append location hdot)
        (by
          intro p hp
          rcases List.mem_append.mp hp with hp | hp
          · have := hstack p hp
            simp only [List.length_append] at this ⊢
            omega
          · rw [List.mem_singleton.mp hp]
            simp only [List.length_append]
            have : "/.".toList.length = 2 := rfl
            omega)
        (by
          simp only [List.length_append]
          have : "/.".toList.length = 2 := rfl
          omega)
      have h2 : (location ++ "/.".toList).length = location.length + 2 := by simp
      refine ⟨N + (openTag location "f.csss".toList).length + 3, loc, st',
        ⟨hd1, hd2, Or.inr ?_, by omega⟩, fun n => ?_⟩
      · rcases hd3 with h | h
        · rw [h, h2]
          omega
        · exact h
      rw [show N + (openTag location "f.csss".toList).length + 3 + n =
          ((N + n + 1) + (openTag location "f.csss".toList).length + 1) + 1 from by omega,
        searchRequire, if_neg (by rw [hcount]; show ¬ 0 ≥ limit; omega),
        stripShebang_of_head (by decide),
        scan_openTag (dotDirs_no_star location hdot) (by decide),
        show N + n + 1 + (openTag location "f.csss".toList).length =
          (N + n + (openTag location "f.csss".toList).length) + 1 from by omega,
        scan_directive "./f.csss".toList [] (by decide) hdrop, openTag_length,
        show N + n + ((tagBody location "f.csss".toList).length + 4) =
          (N + (n + (tagBody location "f.csss".toList).length + 3)) + 1 from by omega,
        parseRequire_found ⟨limit, boundedAliasFs bound⟩ location "./f.csss".toList aliasText
          (by decide) (boundedAliasFs_read bound location hdot (by omega)),
        alias_returnLocation, alias_returnFilename, hN]
      rfl

/-- C4 as stated fails on two files that require themselves. The file
`./f.csss` with the text `@require "./f.csss";` names itself through `./`.
In a file system where `.` names the directory itself and a path has at most
4096 characters, every nested search enters the file under a longer path,
which is never on the stack; for every recursion limit the run ends with
`MalformedRequire` when the path has become too long, in the search of the
file at the location of 4089 characters, 2044 levels below the root, and
whatever the fuel it does not fault with `RecursionLimit`. And the file
`./f.csss` that requires a missing file before it requires itself faults with
`MalformedRequire`, and whatever the fuel not with `RecursionLimit`. -/
theorem C4_self_require_without_limit_fault :
    boundedAliasFs 4096 "./f.csss".toList = some aliasText ∧
    (∀ limit, 1 ≤ limit → ∃ N location st, (dotDirs location = true ∧ location.length = 4089) ∧
      ∀ n, expand (N + n) ⟨limit, boundedAliasFs 4096⟩ aliasText ".".toList "f.csss".toList =
        .crit (.missingFile location "./f.csss".toList) st) ∧
    (¬ ∃ fuel l st,
      expand fuel ⟨1, boundedAliasFs 4096⟩ aliasText ".".toList "f.csss".toList =
        .crit (.recursionLimit l) st) ∧
    expand 100 ⟨1, goneFirstFs⟩ goneFirstText ".".toList "f.csss".toList =
      .crit (.missingFile ".".toList "gone.csss".toList) ⟨[], [("./f.csss".toList, [])]⟩ ∧
    ¬ ∃ fuel l st, expand fuel ⟨1, goneFirstFs⟩ goneFirstText ".".toList "f.csss".toList =
      .crit (.recursionLimit l) st := by
  have hgone : expand 100 ⟨1, goneFirstFs⟩ goneFirstText ".".toList "f.csss".toList =
      .crit (.missingFile ".".toList "gone.csss".toList) ⟨[], [("./f.csss".toList, [])]⟩ := by
    decide!
  have halias : ∀ limit, 1 ≤ limit → ∃ N location st,
      (dotDirs location = true ∧ location.length = 4089) ∧
      ∀ n, expand (N + n) ⟨limit, boundedAliasFs 4096⟩ aliasText ".".toList "f.csss".toList =
        .crit (.missingFile location "./f.csss".toList) st := by
    intro limit hL
    obtain ⟨N, loc, st, ⟨h1, h2, h3, h4⟩, hN⟩ := alias_search_missing limit hL 4096 4096
      ".".toList [] ⟨[], []⟩ (by decide) (by simp) (by decide)
    refine ⟨N, loc, st, ⟨h1, ?_⟩, hN⟩
    have hdot : ".".toList.length = 1 := rfl
    rcases h3 with h | h
    · rw [h, hdot] at h2
      omega
    · rw [hdot] at h4
      omega
  refine ⟨by decide, halias, ?_, hgone, ?_⟩
  · rintro ⟨fuel, l, st, h⟩
    obtain ⟨N, location, st', _, hN⟩ := halias 1 (Nat.le_refl 1)
    rcases @expand_det (N + 0) fuel _ _ _ _ _ (hN 0) (by simp) with h' | h'
    · rw [h] at h'; cases h'
    · rw [h] at h'; cases h'
  · rintro ⟨fuel, l, st, h⟩
    rcases @expand_det 100 fuel _ _ _ _ _ hgone (by simp) with h' | h'
    · rw [h] at h'; cases h'
    · rw [h] at h'; cases h'

/-! ## A diamond whose last file starts with a star -/

/-- C5. A diamond faults with `RecursionLimit` when its last file starts with
a `*` and holds a directive in a comment. Take the diamond in which `a.csss`
requires `b.csss` and `c.csss`, each of these requires `d.csss`, and
`d.csss` holds `*/* @require "b.csss"; */`. All of the text of `d.csss`
behind the star is one comment, and expanded alone `d.csss` comes back
unchanged between its markers with no file read: it requires nothing. But
when the expansion of `d.csss` has been inserted into `b.csss`, the scan of
`b.csss` goes on one character behind the start of the inserted text, inside
the opening tag of `d.csss`, which it therefore does not skip as a comment;
the slash that closes the tag and the star of `d.csss` then open a comment
that ends at once, and the directive behind it is expanded: `b.csss` is
entered from its own scan. So for every recursion limit of at least 1 the
expansion of `a.csss` faults with `RecursionLimit`, on entering `b.csss` when
the stack holds `a.csss` and `limit` times `b.csss`; with the limit 1 the
calls are those of `a.csss`, `b.csss`, `d.csss` and `b.csss` again. The same
diamond with the text `d` in `d.csss` expands without a fault, each call with
the ancestors of its file as stack. -/
theorem C5_diamond_with_commented_directive_faults (limit : Nat) (hL : 1 ≤ limit) (n : Nat) :
    commentsCover true (starText.length + 1) starText = true ∧
    expand (100 + n) ⟨limit, starDiamondFs⟩ starText ".".toList "d.csss".toList =
      .ok (openTag ".".toList "d.csss".toList ++ starText ++ closeTag)
        ⟨[], [("./d.csss".toList, [])]⟩ ∧
    (∃ st, expand (limit * 100 + 29 + n) ⟨limit, starDiamondFs⟩
        "@require \"b.csss\";@require \"c.csss\";".toList ".".toList "a.csss".toList =
        .crit (.recursionLimit ".".toList) st ∧
      st.calls.getLast? = some ("./b.csss".toList,
        "./a.csss".toList :: List.replicate limit "./b.csss".toList)) ∧
    expand (150 + n) ⟨1, starDiamondFs⟩ "@require \"b.csss\";@require \"c.csss\";".toList
        ".".toList "a.csss".toList =
      .crit (.recursionLimit ".".toList)
        ⟨[], [("./a.csss".toList, []), ("./b.csss".toList, ["./a.csss".toList]),
          ("./d.csss".toList, ["./a.csss".toList, "./b.csss".toList]),
          ("./b.csss".toList, ["./a.csss".toList, "./b.csss".toList])]⟩ ∧
    expand (300 + n) ⟨limit, diamondFs⟩ "@require \"b.csss\";@require \"c.csss\";".toList
      ".".toList "a.csss".toList = .ok diamondOut ⟨[], diamondCalls⟩ ∧
    ∀ c ∈ diamondCalls, c.1 = "./d.csss".toList → c.2.count "./d.csss".toList = 0 := by
  -- `d.csss` alone
  have hd1 : expand 100 ⟨1, starDiamondFs⟩ starText ".".toList "d.csss".toList =
      .ok (openTag ".".toList "d.csss".toList ++ starText ++ closeTag)
        ⟨[], [("./d.csss".toList, [])]⟩ := by
    decide!
  have hd := (limit_mono 100 1 limit hL starDiamondFs).1 starText ".".toList "d.csss".toList []
    ⟨[], []⟩ _ _ hd1
  -- the diamond with the limit 1
  have hone : expand 150 ⟨1, starDiamondFs⟩ "@require \"b.csss\";@require \"c.csss\";".toList
      ".".toList "a.csss".toList =
      .crit (.recursionLimit ".".toList)
        ⟨[], [("./a.csss".toList, []), ("./b.csss".toList, ["./a.csss".toList]),
          ("./d.csss".toList, ["./a.csss".toList, "./b.csss".toList]),
          ("./b.csss".toList, ["./a.csss".toList, "./b.csss".toList])]⟩ := by
    decide!
  -- the diamond with the text `d`
  have hp1 : expand 300 ⟨1, diamondFs⟩ "@require \"b.csss\";@require \"c.csss\";".toList
      ".".toList "a.csss".toList = .ok diamondOut ⟨[], diamondCalls⟩ := by
    decide!
  have hp := (limit_mono 300 1 limit hL diamondFs).1
    "@require \"b.csss\";@require \"c.csss\";".toList ".".toList "a.csss".toList [] ⟨[], []⟩
    _ _ hp1
  refine ⟨by decide, expand_add hd (by simp) n, ?_, expand_add hone (by simp) n,
    expand_add hp (by simp) n, by decide⟩
  -- the search of `b.csss` behind `a.csss`, with the limit 1
  have href : searchRequire 100 ⟨1, starDiamondFs⟩ "@require \"d.csss\";".toList ".".toList
      "b.csss".toList [".".toList ++ "/".toList ++ "a.csss".toList] ⟨[], []⟩ =
      .crit (.recursionLimit ".".toList)
        ⟨[], [("./b.csss".toList, ["./a.csss".toList]),
          ("./d.csss".toList, ["./a.csss".toList, "./b.csss".toList]),
          ("./b.csss".toList, ["./a.csss".toList, "./b.csss".toList])]⟩ := by
    decide!
  have hself := searchRequire_self_limit starDiamondFs ".".toList "b.csss".toList
    "@require \"d.csss\";".toList (by decide) (by decide)
    [".".toList ++ "/".toList ++ "a.csss".toList] (by decide) 100 ⟨[], []⟩ ".".toList _ href
    (by decide) limit hL limit (Nat.le_refl _)
  have hdrop : (openTag ".".toList "a.csss".toList ++
      "@require \"b.csss\";@require \"c.csss\";".toList).drop
      (openTag ".".toList "a.csss".toList).length =
      "@require".toList ++ quoted "b.csss".toList ++ ';' :: "@require \"c.csss\";".toList := by
    rw [List.drop_left]
    rfl
  have hlen : (openTag ".".toList "a.csss".toList).length = 27 := rfl
  obtain ⟨st, h1, h2⟩ := hself
    (findFile (quoted "b.csss".toList) "a.csss".toList ".".toList
      { (⟨[], []⟩ : PreState) with
        calls := [] ++ [(".".toList ++ "/".toList ++ "a.csss".toList, [])] }).2 (n + 24)
  refine ⟨st, ?_, ?_⟩
  · rw [Nat.sub_self, List.replicate_zero, List.append_nil] at h1
    rw [expand, show limit * 100 + 29 + n =
        ((limit * 100 + n) + (openTag ".".toList "a.csss".toList).length + 1) + 1 from by
          rw [hlen]; omega,
      searchRequire, if_neg (by simp; omega), stripShebang_of_head (by decide),
      scan_openTag (by decide) (by decide),
      show limit * 100 + n + (openTag ".".toList "a.csss".toList).length =
        ((limit * 100 + 1 + (n + 24)) + 1) + 1 from by rw [hlen]; omega,
      scan_directive "b.csss".toList "@require \"c.csss\";".toList (by decide) hdrop,
      parseRequire_found ⟨limit, starDiamondFs⟩ ".".toList "b.csss".toList
        "@require \"d.csss\";".toList (by decide)
        (show starDiamondFs (".".toList ++ "/".toList ++ "b.csss".toList) = some _ from by decide),
      returnLocation_path _ _ (by decide), returnFilename_path _ _ (by decide)]
    rw [List.nil_append, h1]
    rfl
  · rw [h2]
    rfl

/-- C5 with the recursion limit 3: the expansion of `a.csss` faults on
entering `b.csss` behind `a.csss` and three entries of `b.csss`. -/
theorem C5_diamond_with_commented_directive_faults_witness :
    1 ≤ 3 ∧
    ∃ st, expand (3 * 100 + 29 + 0) ⟨3, starDiamondFs⟩
        "@require \"b.csss\";@require \"c.csss\";".toList ".".toList "a.csss".toList =
        .crit (.recursionLimit ".".toList) st ∧
      st.calls.getLast? = some ("./b.csss".toList,
        "./a.csss".toList :: List.replicate 3 "./b.csss".toList) :=
  ⟨by decide, (C5_diamond_with_commented_directive_faults 3 (by decide) 0).2.2.1⟩

end Preproc

namespace Lexer

/-! ## An unrecognized character behind a class name -/

theorem unrecognized_not_wordDash {c : Char} (hc : isUnrecognized c = true) (hu : c ≠ '_') :
    isWordDashRe c = false := by
  simp only [isUnrecognized, Bool.not_eq_true', Bool.or_eq_false_iff, isIdentRe] at hc
  simp [isWordDashRe, hc.1.1.2.1.1.1, hc.1.1.2.1.2, hc.1.1.2.2, hu]

theorem unrecognized_ne_newline {c : Char} (hc : isUnrecognized c = true) : c ≠ '\n' := by
  rintro rfl
  exact absurd hc (by decide)

/-- C7. A character outside the recognized set that directly follows a class
name is never reported. Take a class name `a :: n` (a letter, then word
characters and dashes), an unrecognized character `c` other than the
underscore, which would count as part of the name, and the text made of a
dot, the name and `c`: the character is outside any comment or string and the
text before it is a class selector. The character is one that JavaScript
holds in a single UTF-16 code unit, so that it is the `current` of the
source. The run of the lexer ends with the class token as its only token and
with no diagnostic printed, and `tokenize` returns that token: the class
branch calls `next()` once more after it has pushed its token, and that call
consumes `c`. So the run on `.a$` ends with the class token `a` and with no
diagnostic, for every fuel from 3 on. An iteration of the main loop that
starts at `c` does print the diagnostic, with `c`, the file name and the line
of the state, and changes nothing else; in every state that the main loop can
reach at `c` that line is 1 plus the number of newlines before `c`. -/
theorem C7_character_after_class_is_not_reported (a : Char) (n : List Char) (c : Char)
    (ha : isLetterRe a = true) (hn : n.all isWordDashRe = true)
    (hc : isUnrecognized c = true) (hu : c ≠ '_') (_hunit : c.toNat < 65536)
    (fuel : Nat) (filename : String) :
    run (fuel + n.length + 3) ('.' :: (a :: n) ++ [c]) filename =
      some { tokens := [⟨"class", .str (a :: n), 1, 1 + n.length + 2⟩],
             index := n.length + 3, line := 1, column := 1 + n.length + 3,
             current := none, errors := [] } ∧
    tokenize (fuel + n.length + 3) ('.' :: (a :: n) ++ [c]) filename =
      some [⟨"class", .str (a :: n), 1, 1 + n.length + 2⟩] ∧
    (∀ (pre rest : List Char) (s : LexState) (k : Nat), s.index = pre.length →
      lexStep k filename (pre ++ c :: rest) s =
        some { s with current := some c, errors := s.errors ++ [⟨c, filename, s.line⟩] }) ∧
    (∀ (pre rest : List Char) (s : LexState), Reachable filename (pre ++ c :: rest) s →
      s.index = pre.length → s.line = 1 + pre.count '\n') ∧
    run (3 + fuel) ".a$".toList filename =
      some { tokens := [⟨"class", .str "a".toList, 1, 3⟩], index := 3, line := 1, column := 4,
             current := none, errors := [] } := by
  have hw := unrecognized_not_wordDash hc hu
  have hnl := unrecognized_ne_newline hc
  have hstep := lexStep_class [] a n c [] ha hn hw fuel filename initState rfl
  simp only [List.nil_append, List.length_nil, Nat.zero_add, if_neg hnl, List.head?_nil] at hstep
  have hrun : run (fuel + n.length + 3) ('.' :: (a :: n) ++ [c]) filename =
      some { tokens := [⟨"class", .str (a :: n), 1, 1 + n.length + 2⟩],
             index := n.length + 3, line := 1, column := 1 + n.length + 3,
             current := none, errors := [] } := by
    have hlt : initState.index < ('.' :: (a :: n) ++ [c]).length := by
      simp [initState]
    rw [run, show fuel + n.length + 3 = (fuel + n.length + 2) + 1 from rfl, lexLoop, if_pos hlt,
      hstep]
    simp only
    rw [show fuel + n.length + 2 = (fuel + n.length + 1) + 1 from rfl, lexLoop, if_neg]
    · rfl
    · simp
  refine ⟨hrun, ?_, ?_, ?_, lexLoop_mono (Nat.le_add_right 3 fuel) (by rfl)⟩
  · rw [tokenize, hrun]
    rfl
  · intro pre rest s k hs
    have hcur : (pre ++ c :: rest)[s.index]? = some c := by
      rw [hs, List.getElem?_append_right (Nat.le_refl _)]
      simp
    exact lexStep_unrecognized hc k filename s hcur
  · intro pre rest s hreach hs
    rw [(reachable_inv hreach).line, hs]
    simp [newlinesBefore]

/-- C7 at the text `.a$`: the run ends with the class token `a` and with no
diagnostic printed. -/
theorem C7_character_after_class_is_not_reported_witness :
    run (0 + ([] : List Char).length + 3) ('.' :: ('a' :: []) ++ ['$']) "main.csss" =
      some { tokens := [⟨"class", .str ('a' :: []), 1, 1 + ([] : List Char).length + 2⟩],
             index := ([] : List Char).length + 3, line := 1,
             column := 1 + ([] : List Char).length + 3, current := none, errors := [] } :=
  (C7_character_after_class_is_not_reported 'a' [] '$' (by decide) (by decide) (by decide)
    (by decide) (by decide) 0 "main.csss").1

end Lexer

end Csss
